import Mathlib

/-!
# Tries and arithmetic of SWI-Prolog (`src/pl-trie.c`, `src/pl-arith.c`): a shallow embedding

The C code works on a heap of `trie_node` records that are linked by pointers and
updated in place.  The embedding keeps that shape: a `Heap` is the list of the
allocated nodes, a pointer is an address into it (`0` is `NULL`), and every C
function becomes a Lean function that takes the heap and returns the heap it
leaves behind.

What a call can do is collected in `Outcome`:

* `ok a h`            the function returned `a`, the heap is `h`;
* `assert_failed h`   the `default: assert(0)` of a `switch` was reached, the heap was `h`
                      at that moment.  `assert` is taken as `<assert.h>` defines it
                      when `NDEBUG` is not set: the call stops there and returns
                      nothing;
* `timeout`           the `for(;;)` retry loop of `insert_child` was still running
                      when the fuel ran out.  A call with this outcome for every
                      fuel never returns.

The code is run by one thread: `COMPARE_AND_SWAP` finds in the slot what the same
thread read or wrote last.

The walk over the key (`pl-termwalk.c`), the hash table (`pl-table.c`), the atoms
(`pl-atom.c`) and the word layout (`pl-incl.h`, `pl-trie.h`) are not part of the
sources at hand; they are modelled from the specification and marked as such.

The arithmetic functions of `pl-arith.c` (namespace `PlArith`) work on `number`
records: a long of a width `w`, held as an integer with the sum and the difference
taken modulo `2^w`, or a real.  A machine operation that C leaves undefined is an
outcome of its own.
-/

namespace PlTrie

/-! ## Words and terms -/

/-- Modelled from the spec: the machine word `word` of `pl-incl.h`, which is not among
the sources.  A word is the zero word (an unbound variable cell; also the "no value"
of a node), an atom handle, a functor handle (name and arity), an inline integer, or
a pointer-like word to a big integer, a float, a string or a compound term. -/
inductive word where
  | zero
  | atom (a : Nat)
  | functor (name : Nat) (arity : Nat)
  | integer (i : Int)
  | bignum (addr : Nat)
  | float (addr : Nat)
  | string (addr : Nat)
  | compound (addr : Nat)
  deriving DecidableEq, Repr

/-- Modelled from the spec: `isAtomic(w)` of `pl-incl.h`: the word is neither an unbound
variable nor a compound term. -/
def isAtomic : word → Bool
  | .zero => false
  | .compound _ => false
  | _ => true

/-- Modelled from the spec: `isFloat(w)` of `pl-incl.h`. -/
def isFloat : word → Bool
  | .float _ => true
  | _ => false

/-- Modelled from the spec: `isBignum(w)` of `pl-incl.h`. -/
def isBignum : word → Bool
  | .bignum _ => true
  | _ => false

/-- Modelled from the spec: a dereferenced Prolog term as the key walk sees it.  The
constructors are the tags of `pl-incl.h` that `tag(w)` can yield after `deRef`:
`TAG_VAR`, `TAG_ATOM`, `TAG_INTEGER` (inline or big), `TAG_FLOAT`, `TAG_STRING` and
`TAG_COMPOUND`; the arity of a compound is the length of its argument list. -/
inductive Term where
  | var (id : Nat)
  | atom (a : Nat)
  | integer (i : Int)
  | bignum (i : Int)
  | float (bits : Nat)
  | string (s : Nat)
  | compound (name : Nat) (args : List Term)

mutual
/-- Number of sub-terms of a term (the term itself included). -/
def Term.size : Term → Nat
  | .compound _ args => 1 + sizeList args
  | _ => 1
/-- Number of sub-terms of a list of terms. -/
def sizeList : List Term → Nat
  | [] => 0
  | t :: ts => t.size + sizeList ts
end

/-- The edge token the walk takes from a sub-term: `w` itself under `case TAG_ATOM`,
`f->definition` under `case TAG_COMPOUND`, and none under `default`. -/
def Term.token : Term → Option word
  | .atom a => some (.atom a)
  | .compound name args => some (.functor name args.length)
  | _ => none

mutual
/-- The sub-terms of a term in pre-order. -/
def Term.preorder : Term → List Term
  | .compound name args => .compound name args :: preorderList args
  | t => [t]
/-- The sub-terms of a list of terms in pre-order, left to right. -/
def preorderList : List Term → List Term
  | [] => []
  | t :: ts => t.preorder ++ preorderList ts
end

mutual
/-- A term built only from atoms and compound terms. -/
def Term.supported : Term → Bool
  | .atom _ => true
  | .compound _ args => supportedList args
  | _ => false
/-- Every term of the list is built only from atoms and compound terms. -/
def supportedList : List Term → Bool
  | [] => true
  | t :: ts => t.supported && supportedList ts
end

/-! ## The term agenda (`pl-termwalk.c`) -/

/-- Modelled from the spec: the work-list `term_agenda` of `pl-termwalk.c`, which is not
among the sources: the terms still to be visited, the next one first. -/
abbrev term_agenda := List Term

/-- Modelled from the spec: `initTermAgenda(&agenda, 1, k)` of `pl-termwalk.c`: the
work-list holds the key alone. -/
def initTermAgenda (k : Term) : term_agenda := [k]

/-- Modelled from the spec: `nextTermAgenda(&agenda)` of `pl-termwalk.c`: takes the next
term off the work-list, `none` standing for the `NULL` of an empty agenda. -/
def nextTermAgenda : term_agenda → Option (Term × term_agenda)
  | [] => none
  | p :: rest => some (p, rest)

/-- Modelled from the spec: `pushWorkAgenda(&agenda, arity, f->arguments)` of
`pl-termwalk.c`: the arguments are visited, left to right, before what was pending. -/
def pushWorkAgenda (agenda : term_agenda) (arguments : List Term) : term_agenda :=
  arguments ++ agenda

/-! ## Nodes and the heap -/

/-- The null pointer.  A pointer to a record is the natural number of its address. -/
abbrev NULL : Nat := 0

/-- Modelled from the spec: the hash table of `pl-table.c`, which is not among the
sources, as the list of its entries. -/
abbrev Table := List (word × Nat)

/-- Modelled from the spec: `newHTable(4)` of `pl-table.c`: an empty table. -/
def newHTable : Table := []

/-- Modelled from the spec: `lookupHTable(table, key)` of `pl-table.c`: the value stored
under the key, `NULL` when there is none. -/
def lookupHTable (table : Table) (key : word) : Nat :=
  match table.lookup key with
  | some v => v
  | none => NULL

/-- Modelled from the spec: `addHTable(table, key, value)` of `pl-table.c`: insert if
absent.  Returns the value now stored under the key (the old one when the key was
present, which leaves the table as it was) and the table. -/
def addHTable (table : Table) (key : word) (value : Nat) : Nat × Table :=
  match table.lookup key with
  | some old => (old, table)
  | none => (value, (key, value) :: table)

/-- The union `trie_children` of `pl-trie.h`: `NULL`, a `trie_children_key` record
(`TN_KEY`) or a `trie_children_hashed` record (`TN_HASHED`). -/
inductive trie_children where
  | null
  | key (key : word) (child : Nat)
  | hashed (table : Table)
  deriving DecidableEq, Repr

/-- The record `trie_node` of `pl-trie.h`. -/
structure trie_node where
  children : trie_children
  value : word
  deriving DecidableEq, Repr

/-- A node after `memset(n, 0, sizeof(*n))`. -/
def zero_node : trie_node := ⟨.null, .zero⟩

/-- The heap of trie nodes: `nodes[i]` is the node at address `i+1`; `freed` logs the
addresses handed to `PL_free`, the latest first. -/
structure Heap where
  nodes : List trie_node
  freed : List Nat
  deriving DecidableEq, Repr

/-- The address is that of an allocated node. -/
def Heap.valid (h : Heap) (p : Nat) : Prop := 0 < p ∧ p ≤ h.nodes.length

instance (h : Heap) (p : Nat) : Decidable (h.valid p) := by
  unfold Heap.valid; exact inferInstance

/-- The node at an address.  The code never reads through `NULL` or through an address
that was not allocated when the heap is well formed; such a read yields a zeroed
node here. -/
def Heap.node (h : Heap) (p : Nat) : trie_node :=
  match p with
  | 0 => zero_node
  | q + 1 => h.nodes.getD q zero_node

/-- Store into `n->children`. -/
def Heap.setChildren (h : Heap) (n : Nat) (c : trie_children) : Heap :=
  match n with
  | 0 => h
  | q + 1 => { h with nodes := h.nodes.set q { h.nodes.getD q zero_node with children := c } }

/-- Store into `n->value`. -/
def Heap.setValue (h : Heap) (n : Nat) (v : word) : Heap :=
  match n with
  | 0 => h
  | q + 1 => { h with nodes := h.nodes.set q { h.nodes.getD q zero_node with value := v } }

/-- The call `PL_free(n)` on a node. -/
def Heap.free (h : Heap) (n : Nat) : Heap :=
  { h with freed := n :: h.freed }

/-- The pointers a children record holds. -/
def trie_children.ptrs : trie_children → List Nat
  | .null => []
  | .key _ child => [child]
  | .hashed table => table.map Prod.snd

/-- Every child pointer stored in the heap is the address of an allocated node. -/
def Heap.wf (h : Heap) : Prop :=
  ∀ nd ∈ h.nodes, ∀ c ∈ nd.children.ptrs, h.valid c

instance (h : Heap) : Decidable h.wf := by
  unfold Heap.wf; exact inferInstance

/-- What a call leaves behind. -/
inductive Outcome (α : Type) where
  | ok (a : α) (h : Heap)
  | assert_failed (h : Heap)
  | timeout
  deriving DecidableEq, Repr

/-- `COMPARE_AND_SWAP(&n->children, old, new)` with no other thread running: the slot is
overwritten, and the call succeeds, exactly when it holds `old`. -/
def COMPARE_AND_SWAP (h : Heap) (n : Nat) (old new : trie_children) : Bool × Heap :=
  if (h.node n).children = old then (true, h.setChildren n new) else (false, h)

/-! ## `pl-trie.c` -/

/-- The record `trie` of `pl-trie.h`. -/
structure trie where
  root : Nat
  magic : Nat
  symbol : Nat
  deriving DecidableEq, Repr

/-- The function `get_child` of `pl-trie.c`. -/
def get_child (h : Heap) (n : Nat) (key : word) : Nat :=
  match (h.node n).children with
  | .key k child => if k = key then child else NULL
  | .hashed table => lookupHTable table key
  | .null => NULL

/-- The function `new_trie_node` of `pl-trie.c`: `PL_malloc` at the end of the heap, then
`memset` to zero. -/
def new_trie_node (h : Heap) : Nat × Heap :=
  (h.nodes.length + 1, { h with nodes := h.nodes ++ [zero_node] })

/-- Modelled from the spec: `destroyHTable(table)` of `pl-table.c`: bulk teardown that
calls the finalizer `free_symbol` of the table on every entry. -/
def destroyHTable (free_symbol : Heap → word → Nat → Option Heap) : Heap → Table → Option Heap
  | h, [] => some h
  | h, (k, v) :: rest =>
    match free_symbol h k v with
    | none => none
    | some h1 => destroyHTable free_symbol h1 rest

/-- The function `destroy_node` of `pl-trie.c`, with `destroy_hnode` and
`free_hnode_symbol` inlined: the table of a hashed node is destroyed with
`destroy_node` as the finalizer of its entries, then the node is freed.  The fuel
bounds the depth of the recursion; `none` is fuel exhausted. -/
def destroy_node : Nat → Heap → Nat → Option Heap
  | 0, _, _ => none
  | fuel + 1, h, n =>
    match (h.node n).children with
    | .hashed table =>
      match destroyHTable (fun h1 _ v => destroy_node fuel h1 v) h table with
      | none => none
      | some h1 => some (h1.free n)
    | _ => some (h.free n)

/-- The function `destroy_hnode` of `pl-trie.c` on a table whose `free_symbol` is
`free_hnode_symbol`. -/
def destroy_hnode (fuel : Nat) (h : Heap) (table : Table) : Option Heap :=
  destroyHTable (fun h1 _ v => destroy_node fuel h1 v) h table

/-- The function `insert_child` of `pl-trie.c`.  The fuel counts the iterations of the
`for(;;)` loop that are still allowed. -/
def insert_child : Nat → Heap → Nat → word → Outcome Nat
  | 0, _, _, _ => .timeout
  | fuel + 1, h, n, key =>
    match (h.node n).children with
    | .key _ _ =>
      -- case TN_KEY
      let (new, h1) := new_trie_node h
      let (_, table) := addHTable newHTable key new
      match COMPARE_AND_SWAP h1 n .null (.hashed table) with
      | (true, h2) => .ok new h2
      | (false, h2) =>
        match destroy_hnode fuel h2 table with
        | none => .timeout
        | some h3 => insert_child fuel h3 n key
    | .hashed table =>
      -- case TN_HASHED
      let (new, h1) := new_trie_node h
      let (old, table1) := addHTable table key new
      let h2 := h1.setChildren n (.hashed table1)
      if new ≠ old then
        match destroy_node (fuel + 1) h2 new with
        | none => .timeout
        | some h3 => .ok old h3
      else .ok old h2
    | .null =>
      let (child, h1) := new_trie_node h
      match COMPARE_AND_SWAP h1 n .null (.key key child) with
      | (true, h2) => .ok child h2
      | (false, h2) =>
        -- destroy_node(child->child); PL_free(child) frees the record, which is no node
        match destroy_node fuel h2 child with
        | none => .timeout
        | some h3 => insert_child fuel h3 n key

/-- The function `follow_node` of `pl-trie.c`. -/
def follow_node (fuel : Nat) (h : Heap) (n : Nat) (value : word) : Outcome Nat :=
  let child := get_child h n value
  if child ≠ NULL then .ok child h else insert_child fuel h n value

/-- The `while` loop of `trie_insert`.  `gas` bounds the iterations of the loop (one per
sub-term of the key, plus the one that finds the agenda empty), `fuel` is handed
to `insert_child`. -/
def trie_insert_loop : Nat → Nat → Heap → Nat → term_agenda → Outcome Nat
  | 0, _, _, _, _ => .timeout
  | gas + 1, fuel, h, node, agenda =>
    match nextTermAgenda agenda with
    | none => .ok node h
    | some (p, agenda1) =>
      match p with
      | .atom a =>
        -- case TAG_ATOM
        match follow_node fuel h node (.atom a) with
        | .ok node1 h1 => trie_insert_loop gas fuel h1 node1 agenda1
        | .assert_failed h1 => .assert_failed h1
        | .timeout => .timeout
      | .compound name args =>
        -- case TAG_COMPOUND
        match follow_node fuel h node (.functor name args.length) with
        | .ok node1 h1 => trie_insert_loop gas fuel h1 node1 (pushWorkAgenda agenda1 args)
        | .assert_failed h1 => .assert_failed h1
        | .timeout => .timeout
      | _ => .assert_failed h

/-- The constant `TRUE`. -/
abbrev TRUE : Int := 1

/-- The constant `FALSE`. -/
abbrev FALSE : Int := 0

/-- The function `trie_insert` of `pl-trie.c`: `TRUE` for a value that was set,
`FALSE` for a value that was there, `-1` for a different value that was there.  The
loop is given one iteration for every sub-term of the key and one more, which is all
it can take (`trie_insert_loop_key`). -/
def trie_insert (fuel : Nat) (h : Heap) (t : trie) (k : Term) (v : word) : Outcome Int :=
  match trie_insert_loop (k.size + 1) fuel h t.root (initTermAgenda k) with
  | .ok node h1 =>
    if (h1.node node).value ≠ .zero then
      if (h1.node node).value = v then .ok FALSE h1 else .ok (-1) h1
    else .ok TRUE (h1.setValue node v)
  | .assert_failed h1 => .assert_failed h1
  | .timeout => .timeout

/-- The `while` loop of `trie_lookup`.  `gas` bounds the iterations of the loop. -/
def trie_lookup_loop : Nat → Heap → Nat → term_agenda → Outcome Nat
  | 0, _, _, _ => .timeout
  | gas + 1, h, node, agenda =>
    if node = NULL then .ok node h
    else
      match nextTermAgenda agenda with
      | none => .ok node h
      | some (p, agenda1) =>
        match p with
        | .atom a =>
          -- case TAG_ATOM
          trie_lookup_loop gas h (get_child h node (.atom a)) agenda1
        | .compound name args =>
          -- case TAG_COMPOUND
          trie_lookup_loop gas h (get_child h node (.functor name args.length))
            (pushWorkAgenda agenda1 args)
        | _ => .assert_failed h

/-- The function `trie_lookup` of `pl-trie.c`: the node the key leads to, or `NULL`.  The
heap is handed back as it is found: the function only reads.  The loop is given one
iteration for every sub-term of the key and one more, which is all it can take
(`trie_lookup_eq_walk`). -/
def trie_lookup (h : Heap) (t : trie) (k : Term) : Outcome Nat :=
  trie_lookup_loop (k.size + 1) h t.root (initTermAgenda k)

/-- The body of `PRED_IMPL("trie_lookup", 3, ...)` of `pl-trie.c` once `get_trie` has
yielded the trie: `some v` is `_PL_unify_atomic(A3, v)` with the value `v` of the
node found, `none` is the `return FALSE` taken when `trie_lookup` gave `NULL` or
the node has no value. -/
def trie_lookup_value (h : Heap) (t : trie) (k : Term) : Outcome (Option word) :=
  match trie_lookup h t k with
  | .ok node h1 =>
    if node ≠ NULL ∧ (h1.node node).value ≠ .zero then .ok (some (h1.node node).value) h1
    else .ok none h1
  | .assert_failed h1 => .assert_failed h1
  | .timeout => .timeout

/-! ## The Prolog binding -/

/-- Modelled from the spec: the constant `TRIE_MAGIC` of `pl-trie.h` (not among the
sources), the mark of an active trie. -/
def TRIE_MAGIC : Nat := 0x4bcbcf87

/-- Modelled from the spec: the constant `TRIE_CMAGIC` of `pl-trie.h` (not among the
sources), the mark of a destroyed trie. -/
def TRIE_CMAGIC : Nat := 0x4bcbcf88

/-- The errors the binding raises. -/
inductive PlError where
  | type_error (expected : String)
  | domain_error (expected : String)
  | existence_error (kind : String)
  | resource_error (what : String)
  deriving DecidableEq, Repr

/-- The state the predicates work on: the heap of nodes, the `trie` records
(`tries[i]` at address `i+1`), the log of the `trie` records handed to `PL_free`,
the atoms of blob type `trie_blob` with the `tref.trie` they hold, and the next
unused atom handle. -/
structure PlState where
  heap : Heap
  tries : List trie
  freed_tries : List Nat
  blobs : List (Nat × Nat)
  next_atom : Nat
  deriving DecidableEq, Repr

/-- The `trie` record at an address. -/
def PlState.trie_at (s : PlState) (tp : Nat) : trie :=
  match tp with
  | 0 => ⟨NULL, 0, 0⟩
  | q + 1 => s.tries.getD q ⟨NULL, 0, 0⟩

/-- Store into the `trie` record at an address. -/
def PlState.setTrie (s : PlState) (tp : Nat) (t : trie) : PlState :=
  match tp with
  | 0 => s
  | q + 1 => { s with tries := s.tries.set q t }

/-- What a predicate hands back to the host: the integer it returns, the outcome of
unifying an argument with a word (`PL_unify_atom`, `_PL_unify_atomic`), or the
error it raised. -/
inductive Answer where
  | ret (rc : Int)
  | unify (w : word)
  | error (e : PlError)
  deriving DecidableEq, Repr

/-- What a call of a predicate leaves behind. -/
inductive PlOutcome where
  | done (a : Answer) (s : PlState)
  | assert_failed (s : PlState)
  | timeout
  deriving DecidableEq, Repr

/-- The function `trie_create` of `pl-trie.c`; `malloc_ok` tells whether `PL_malloc`
returned a record.  Returns the address of the new `trie` record, or `NULL`. -/
def trie_create (malloc_ok : Bool) (s : PlState) : Nat × PlState :=
  if malloc_ok then
    let tp := s.tries.length + 1
    let (root, h1) := new_trie_node s.heap
    (tp, { s with heap := h1, tries := s.tries ++ [⟨root, 0, 0⟩] })
  else (NULL, s)

/-- Modelled from the spec: `lookupBlob(&ref, sizeof(ref), &trie_blob, &new)` of
`pl-atom.c` (not among the sources) for the unique blob type `trie_blob`: the atom
that holds this `tref`, a new one when there is none. -/
def lookupBlob (s : PlState) (tp : Nat) : Nat × PlState :=
  match s.blobs.find? (fun b => b.2 = tp) with
  | some b => (b.1, s)
  | none => (s.next_atom, { s with blobs := (s.next_atom, tp) :: s.blobs,
                                   next_atom := s.next_atom + 1 })

/-- The function `get_trie` of `pl-trie.c`: the trie behind a handle. -/
def get_trie (s : PlState) (t : Term) : Except PlError Nat :=
  match t with
  | .atom a =>
    match s.blobs.lookup a with
    | some tp =>
      if (s.trie_at tp).magic = TRIE_MAGIC then .ok tp
      else .error (.existence_error "trie")
    | none => .error (.type_error "trie")
  | _ => .error (.type_error "trie")

/-- The predicate `trie_new/1` of `pl-trie.c`. -/
def pl_trie_new (malloc_ok : Bool) (s : PlState) : PlOutcome :=
  match trie_create malloc_ok s with
  | (0, s1) => .done (.error (.resource_error "memory")) s1
  | (tp, s1) =>
    let (symbol, s2) := lookupBlob s1 tp
    let s3 := s2.setTrie tp { s2.trie_at tp with symbol := symbol }
    let s4 := s3.setTrie tp { s3.trie_at tp with magic := TRIE_MAGIC }
    .done (.unify (.atom symbol)) s4

/-- The predicate `trie_insert/3` of `pl-trie.c`. -/
def pl_trie_insert (fuel : Nat) (s : PlState) (A1 A2 : Term) (A3 : word) : PlOutcome :=
  match get_trie s A1 with
  | .ok tp =>
    if !isAtomic A3 || isFloat A3 then .done (.error (.type_error "primitive")) s
    else if isBignum A3 then .done (.error (.domain_error "primitive")) s
    else
      match trie_insert fuel s.heap (s.trie_at tp) A2 A3 with
      | .ok rc h1 => .done (.ret rc) { s with heap := h1 }
      | .assert_failed h1 => .assert_failed { s with heap := h1 }
      | .timeout => .timeout
  | .error e => .done (.error e) s

/-- The predicate `trie_lookup/3` of `pl-trie.c`. -/
def pl_trie_lookup (s : PlState) (A1 A2 : Term) : PlOutcome :=
  match get_trie s A1 with
  | .ok tp =>
    match trie_lookup_value s.heap (s.trie_at tp) A2 with
    | .ok (some v) h1 => .done (.unify v) { s with heap := h1 }
    | .ok none h1 => .done (.ret FALSE) { s with heap := h1 }
    | .assert_failed h1 => .assert_failed { s with heap := h1 }
    | .timeout => .timeout
  | .error e => .done (.error e) s

/-! ## Walks over the list of sub-terms

The loops of `trie_insert` and `trie_lookup` take the sub-terms of the key from the
agenda one by one.  The two functions below run the same loop bodies over a list of
sub-terms that is given in advance; the loops are shown to be these walks over the
pre-order list of the key. -/

/-- The loop body of `trie_insert` run over a list of sub-terms. -/
def insert_walk (fuel : Nat) : Heap → Nat → List Term → Outcome Nat
  | h, node, [] => .ok node h
  | h, node, p :: ps =>
    match p.token with
    | none => .assert_failed h
    | some w =>
      match follow_node fuel h node w with
      | .ok node1 h1 => insert_walk fuel h1 node1 ps
      | .assert_failed h1 => .assert_failed h1
      | .timeout => .timeout

/-- The loop body of `trie_lookup` run over a list of sub-terms. -/
def lookup_walk : Heap → Nat → List Term → Outcome Nat
  | h, node, [] => .ok node h
  | h, node, p :: ps =>
    if node = NULL then .ok node h
    else
      match p.token with
      | none => .assert_failed h
      | some w => lookup_walk h (get_child h node w) ps

/-- The walk of the sub-terms from the node never comes to a node whose children are a
`TN_KEY` record with another key than the token looked for. -/
def unblocked_walk : Heap → Nat → List Term → Bool
  | _, _, [] => true
  | h, node, p :: ps =>
    match p.token with
    | none => true
    | some w =>
      if get_child h node w ≠ NULL then unblocked_walk h (get_child h node w) ps
      else
        match (h.node node).children with
        | .key _ _ => false
        | _ => true

/-- The walk of the key from the root of the trie never comes to a node whose children
are a `TN_KEY` record with another key than the token looked for. -/
def unblocked (h : Heap) (t : trie) (k : Term) : Bool :=
  unblocked_walk h t.root k.preorder

/-! ## Predicates of the statements -/

/-- The child a children record yields for a key: the `switch` of `get_child`. -/
def trie_children.child_of : trie_children → word → Nat
  | .key k child, w => if k = w then child else NULL
  | .hashed table, w => lookupHTable table w
  | .null, _ => NULL

/-- The heap `h1` extends the heap `h`: the nodes of `h` keep their value and every
child they had, a child they gained is a node that `h` did not have, and the
nodes that `h` did not have carry no value and lead only to such nodes. -/
structure Ext (h h1 : Heap) : Prop where
  len : h.nodes.length ≤ h1.nodes.length
  value_old : ∀ p, h.valid p → (h1.node p).value = (h.node p).value
  child_old : ∀ p k, h.valid p → get_child h p k ≠ NULL → get_child h1 p k = get_child h p k
  child_new : ∀ p k, h.valid p → get_child h p k = NULL →
    get_child h1 p k = NULL ∨ h.nodes.length < get_child h1 p k
  value_fresh : ∀ p, h.nodes.length < p → (h1.node p).value = .zero
  child_fresh : ∀ p k, h.nodes.length < p →
    get_child h1 p k = NULL ∨ h.nodes.length < get_child h1 p k

/-- A value that `PRED_IMPL("trie_insert", 3, ...)` hands on to `trie_insert`: atomic, not
a float and not a big integer. -/
def valid_value (v : word) : Bool := isAtomic v && !isFloat v && !isBignum v

mutual
/-- A term without unbound variables. -/
def Term.ground : Term → Bool
  | .var _ => false
  | .compound _ args => groundList args
  | _ => true
/-- Every term of the list is without unbound variables. -/
def groundList : List Term → Bool
  | [] => true
  | t :: ts => t.ground && groundList ts
end

/-- Every atom of blob type `trie_blob` holds the address of a `trie` record that was
allocated. -/
def PlState.blobs_ok (s : PlState) : Prop := ∀ b ∈ s.blobs, b.2 ≤ s.tries.length

instance (s : PlState) : Decidable s.blobs_ok := by
  unfold PlState.blobs_ok; exact inferInstance

/-- The states of a trie that single calls of `trie_insert` can lead to, with the list of the
pairs of key and value for which `trie_insert` returned `TRUE`, the latest first.
The trie starts as `trie_create` leaves it in a well-formed heap: its root is the
node that `new_trie_node` just made.  A call that returns and a call that stops at the
assertion both lead to a further state; a call that never returns leads to none. -/
inductive Reachable (t : trie) : Heap → List (Term × word) → Prop where
  | fresh (h0 : Heap) (hw : h0.wf) (hroot : t.root = (new_trie_node h0).1) :
      Reachable t (new_trie_node h0).2 []
  | insert_ok (h h1 : Heap) (log : List (Term × word)) (fuel : Nat) (K : Term) (V : word)
      (rc : Int) (hr : Reachable t h log) (e : trie_insert fuel h t K V = .ok rc h1) :
      Reachable t h1 (if rc = TRUE then (K, V) :: log else log)
  | insert_abort (h h1 : Heap) (log : List (Term × word)) (fuel : Nat) (K : Term) (V : word)
      (hr : Reachable t h log) (e : trie_insert fuel h t K V = .assert_failed h1) :
      Reachable t h1 log

/-- The nodes from the address `r` on form a single chain: the node at `r + i` has the
`TN_KEY` record with the `i`-th token and the node at `r + i + 1`, the last node has no
children, and the heap ends there. -/
structure Chain (h : Heap) (r : Nat) (toks : List word) : Prop where
  pos : 0 < r
  len : h.nodes.length = r + toks.length
  link : ∀ i w, toks[i]? = some w → (h.node (r + i)).children = .key w (r + i + 1)
  last : (h.node (r + toks.length)).children = .null

/-- Every value on the chain was put there by a logged insertion of a key whose tokens
lead to the node. -/
def Logged (h : Heap) (r : Nat) (toks : List word) (log : List (Term × word)) : Prop :=
  ∀ j, j ≤ toks.length → (h.node (r + j)).value ≠ .zero →
    ∃ K, (K, (h.node (r + j)).value) ∈ log ∧ K.supported = true ∧
      K.preorder.filterMap Term.token = toks.take j

/-! ## Teardown and the calls of the predicates -/

/-- The call `PL_free(trie)` on a `trie` record. -/
def PlState.free_trie (s : PlState) (tp : Nat) : PlState :=
  { s with freed_tries := tp :: s.freed_tries }

/-- The static function `trie_destroy` of `pl-trie.c`: `Sdprintf` writes a line, then the
record is handed to `PL_free`. -/
def trie_destroy (s : PlState) (tp : Nat) : PlState :=
  s.free_trie tp

/-- The function `trie_empty` of `pl-trie.c`, whose body is empty. -/
def trie_empty (s : PlState) (_tp : Nat) : PlState := s

/-- The function `release_trie_ref` of `pl-trie.c`, the release hook of the blob type:
`PL_blob_data(aref, NULL, NULL)` is the `tref` the atom holds. -/
def release_trie_ref (s : PlState) (aref : Nat) : Int × PlState :=
  match s.blobs.lookup aref with
  | some t =>
    if t ≠ NULL then
      let s1 := trie_destroy s t
      (TRUE, s1.free_trie t)
    else (TRUE, s)
  | none => (TRUE, s)

/-- The predicate `trie_destroy/1` of `pl-trie.c`. -/
def pl_trie_destroy (s : PlState) (A1 : Term) : PlOutcome :=
  match get_trie s A1 with
  | .ok tp =>
    let s1 := trie_empty s tp
    .done (.ret TRUE) (s1.setTrie tp { s1.trie_at tp with magic := TRIE_CMAGIC })
  | .error e => .done (.error e) s

/-- A call of one of the four predicates of `pl-trie.c`. -/
inductive PlCall where
  | trie_new (malloc_ok : Bool)
  | trie_destroy (A1 : Term)
  | trie_insert (fuel : Nat) (A1 A2 : Term) (A3 : word)
  | trie_lookup (A1 A2 : Term)

/-- What the call leaves behind. -/
def PlCall.run (s : PlState) : PlCall → PlOutcome
  | .trie_new malloc_ok => pl_trie_new malloc_ok s
  | .trie_destroy A1 => pl_trie_destroy s A1
  | .trie_insert fuel A1 A2 A3 => pl_trie_insert fuel s A1 A2 A3
  | .trie_lookup A1 A2 => pl_trie_lookup s A1 A2

/-- The state after a sequence of calls, each made in the state the one before left,
also when that one stopped at an assertion; `none` when one of the calls does not
return within its fuel. -/
def run_calls : PlState → List PlCall → Option PlState
  | s, [] => some s
  | s, c :: cs =>
    match c.run s with
    | .done _ s1 => run_calls s1 cs
    | .assert_failed s1 => run_calls s1 cs
    | .timeout => none

/-- The trie atoms are in order: each holds the address of an allocated `trie` record, each
is below the next unused atom handle, and no two hold the same record. -/
def PlState.wf (s : PlState) : Prop :=
  (∀ b ∈ s.blobs, 0 < b.2 ∧ b.2 ≤ s.tries.length) ∧
  (∀ b ∈ s.blobs, b.1 < s.next_atom) ∧
  (∀ b ∈ s.blobs, ∀ c ∈ s.blobs, b.2 = c.2 → b.1 = c.1)

instance (s : PlState) : Decidable s.wf := by
  unfold PlState.wf; exact inferInstance

/-! ## The token sequence of a key -/

mutual
/-- The pre-order token sequence of a term over the two kinds of sub-term for which
`pl-trie.c` has a token: an atom yields the single token of the atom, a compound
`f(A1, ..., An)` yields the token of `f/n` and then the sequences of `A1`, ..., `An` in
that order.  Any other leaf yields no token here, as the walks of the code take none
from it; on keys built only from atoms and compound terms this is the sequence the
walks take (`spec_tokens_eq`).  The decomposition of the specification, which gives
every atomic leaf a token and fails on an unbound variable and on a float, is
`Term.decomposition`. -/
def Term.spec_tokens : Term → List word
  | .atom a => [.atom a]
  | .compound name args => .functor name args.length :: spec_tokens_list args
  | _ => []
/-- The token sequences of the terms of a list, one after the other. -/
def spec_tokens_list : List Term → List word
  | [] => []
  | t :: ts => t.spec_tokens ++ spec_tokens_list ts
end

/-- The `while` loop of `trie_insert` with a record of the tokens it hands to
`follow_node`, in the order of the calls. -/
def trie_insert_loop_tokens : Nat → Nat → Heap → Nat → term_agenda → List word × Outcome Nat
  | 0, _, _, _, _ => ([], .timeout)
  | gas + 1, fuel, h, node, agenda =>
    match nextTermAgenda agenda with
    | none => ([], .ok node h)
    | some (p, agenda1) =>
      match p with
      | .atom a =>
        match follow_node fuel h node (.atom a) with
        | .ok node1 h1 =>
          let r := trie_insert_loop_tokens gas fuel h1 node1 agenda1
          (.atom a :: r.1, r.2)
        | .assert_failed h1 => ([.atom a], .assert_failed h1)
        | .timeout => ([.atom a], .timeout)
      | .compound name args =>
        match follow_node fuel h node (.functor name args.length) with
        | .ok node1 h1 =>
          let r := trie_insert_loop_tokens gas fuel h1 node1 (pushWorkAgenda agenda1 args)
          (.functor name args.length :: r.1, r.2)
        | .assert_failed h1 => ([.functor name args.length], .assert_failed h1)
        | .timeout => ([.functor name args.length], .timeout)
      | _ => ([], .assert_failed h)

/-- The `while` loop of `trie_lookup` with a record of the tokens it hands to `get_child`,
in the order of the calls. -/
def trie_lookup_loop_tokens : Nat → Heap → Nat → term_agenda → List word × Outcome Nat
  | 0, _, _, _ => ([], .timeout)
  | gas + 1, h, node, agenda =>
    if node = NULL then ([], .ok node h)
    else
      match nextTermAgenda agenda with
      | none => ([], .ok node h)
      | some (p, agenda1) =>
        match p with
        | .atom a =>
          let r := trie_lookup_loop_tokens gas h (get_child h node (.atom a)) agenda1
          (.atom a :: r.1, r.2)
        | .compound name args =>
          let r := trie_lookup_loop_tokens gas h (get_child h node (.functor name args.length))
            (pushWorkAgenda agenda1 args)
          (.functor name args.length :: r.1, r.2)
        | _ => ([], .assert_failed h)

/-- The node that a sequence of tokens leads to from a node, one `get_child` per token. -/
def reach (h : Heap) : Nat → List word → Nat
  | node, [] => node
  | node, w :: ws => reach h (get_child h node w) ws

/-! ## The representation of the children -/

/-- The tag of the union `trie_children`: no record (`Empty`), `TN_KEY` (`Single`) or
`TN_HASHED` (`Hashed`). -/
inductive ChildrenRepr where
  | empty
  | single
  | hashed
  deriving DecidableEq

/-- The representation a children slot is in. -/
def trie_children.repr : trie_children → ChildrenRepr
  | .null => .empty
  | .key _ _ => .single
  | .hashed _ => .hashed

/-- One step of the representation of a node that is no step back: it stays, or goes
from `Empty` to `Single`, or from `Single` to `Hashed`. -/
def ChildrenRepr.step (a b : ChildrenRepr) : Prop :=
  a = b ∨ (a = .empty ∧ b = .single) ∨ (a = .single ∧ b = .hashed)

instance (a b : ChildrenRepr) : Decidable (ChildrenRepr.step a b) := by
  unfold ChildrenRepr.step; exact inferInstance

/-- The trie behind the atom is active: its record carries `TRIE_MAGIC`. -/
def PlState.active (s : PlState) (a : Nat) : Prop :=
  ∃ tp, s.blobs.lookup a = some tp ∧ (s.trie_at tp).magic = TRIE_MAGIC

/-- The trie behind the atom is destroyed: its record carries `TRIE_CMAGIC`. -/
def PlState.destroyed (s : PlState) (a : Nat) : Prop :=
  ∃ tp, s.blobs.lookup a = some tp ∧ (s.trie_at tp).magic = TRIE_CMAGIC

/-- From the heap `h` to the heap `h1` the representation of the children of every node
stays what it was or goes from `Empty` to `Single`. -/
def Heap.grows (h h1 : Heap) : Prop :=
  ∀ p, (h1.node p).children.repr = (h.node p).children.repr ∨
    ((h.node p).children.repr = .empty ∧ (h1.node p).children.repr = .single)

/-! ## The decomposition of a key in the specification -/

/-- The edge tokens of the specification: an atomic constant, or the symbol and the arity
of a compound term. -/
inductive EdgeToken where
  | atom (a : Nat)
  | integer (i : Int)
  | bignum (i : Int)
  | string (s : Nat)
  | functor (name : Nat) (arity : Nat)
  deriving DecidableEq, Repr

/-- The two failures of the decomposition in the specification. -/
inductive DecompositionError where
  | instantiation_error
  | type_error
  deriving DecidableEq, Repr

mutual
/-- The decomposition of a key as section 4.1 of the specification words it; it is not
taken from the code.  In pre-order, an atomic leaf emits one token, a compound term emits
the token of its symbol and arity and then the tokens of its arguments, left to right;
an unbound variable fails with an instantiation error and a float with a type error,
and either failure ends the whole decomposition. -/
def Term.decomposition : Term → Except DecompositionError (List EdgeToken)
  | .var _ => .error .instantiation_error
  | .float _ => .error .type_error
  | .atom a => .ok [.atom a]
  | .integer i => .ok [.integer i]
  | .bignum i => .ok [.bignum i]
  | .string s => .ok [.string s]
  | .compound name args =>
    match decomposition_list args with
    | .ok toks => .ok (.functor name args.length :: toks)
    | .error e => .error e
/-- The decompositions of the terms of a list, one after the other. -/
def decomposition_list : List Term → Except DecompositionError (List EdgeToken)
  | [] => .ok []
  | t :: ts =>
    match t.decomposition with
    | .ok a =>
      match decomposition_list ts with
      | .ok b => .ok (a ++ b)
      | .error e => .error e
    | .error e => .error e
end

end PlTrie

namespace PlArith

/-! ## Numbers and machine integers of `pl-arith.c` -/

/-- Modelled from the spec: the record `number` of `pl-incl.h`, which is not among the
sources, that a `Number` points to: the tag `type` is `V_INTEGER` or `V_REAL`, and the
union `value` holds the long `value.i` or the real (a C `double`) `value.f`. -/
inductive number where
  | V_INTEGER (i : Int)
  | V_REAL (f : Float)

/-- Modelled from the spec: `intNumber(n)` of `pl-incl.h`: the tag is `V_INTEGER`. -/
def intNumber : number → Bool
  | .V_INTEGER _ => true
  | .V_REAL _ => false

/-- Modelled from the spec: `floatNumber(n)` of `pl-incl.h`: the tag is `V_REAL`. -/
def floatNumber : number → Bool
  | .V_INTEGER _ => false
  | .V_REAL _ => true

/-- The member `value.i`.  The code reads it only from a number tagged `V_INTEGER`. -/
def number.i : number → Int
  | .V_INTEGER i => i
  | .V_REAL _ => 0

/-- The member `value.f`.  The code reads it only from a number tagged `V_REAL`. -/
def number.f : number → Float
  | .V_REAL f => f
  | .V_INTEGER _ => 0

/-- The values of a `long` of width `w`: from `-2^(w-1)` up to `2^(w-1) - 1`. -/
def is_long (w : Nat) (x : Int) : Prop := -2 ^ (w - 1) ≤ x ∧ x < 2 ^ (w - 1)

instance (w : Nat) (x : Int) : Decidable (is_long w x) := by
  unfold is_long; exact inferInstance

/-- The `long` of width `w` that an addition or subtraction leaves whose mathematical
result is `x`: the result modulo `2^w`, taken in the signed range. -/
def to_long (w : Nat) (x : Int) : Int := (x + 2 ^ (w - 1)) % 2 ^ w - 2 ^ (w - 1)

/-- The machine operation `a / b` on longs of width `w`: the quotient truncated towards
zero.  C leaves the operation undefined (`none`) when `b` is zero and when the quotient
is not a long, which is so for the most negative long divided by `-1`. -/
def long_div (w : Nat) (a b : Int) : Option Int :=
  if b = 0 ∨ (a = -2 ^ (w - 1) ∧ b = -1) then none else some (Int.tdiv a b)

/-- The machine operation `a % b` on longs of width `w`: the remainder of the truncated
division, undefined (`none`) where `a / b` is. -/
def long_mod (w : Nat) (a b : Int) : Option Int :=
  if b = 0 ∨ (a = -2 ^ (w - 1) ∧ b = -1) then none else some (Int.tmod a b)

/-- The cast `(long) f` of a real: the integral part of `f`.  C leaves the cast undefined
when the integral part is not a long; it is then taken modulo `2^w` here. -/
def real_to_long (w : Nat) (f : Float) : Int :=
  to_long w (if f < 0 then -((-f).toUInt64.toNat : Int) else (f.toUInt64.toNat : Int))

/-- The errors that the functions hand to `PL_error`, with the name of the operator. -/
inductive ar_error where
  | ERR_AR_TYPE (plop : String) (culprit : number)
  | ERR_DIV_BY_ZERO (plop : String)

/-- What a call of an arithmetic function comes to: `succeed` with the number stored in
`r`, the return of `PL_error(...)`, or the evaluation of a machine operation that C
leaves undefined. -/
inductive ArOutcome where
  | succeed (r : number)
  | error (e : ar_error)
  | undefined

/-! ## `pl-arith.c` -/

/-- The function `promoteToRealNumber` of `pl-arith.c`; the number it leaves in `n`. -/
def promoteToRealNumber (n : number) : number :=
  if intNumber n then .V_REAL (Float.ofInt n.i) else n

/-- The function `toIntegerNumber` of `pl-arith.c`, without the lines under
`DOUBLE_TO_LONG_CAST_RAISES_SIGFPE`: the number it leaves in `n` when it succeeds, `none`
when it fails. -/
def toIntegerNumber (w : Nat) (n : number) : Option number :=
  if floatNumber n then
    let l := real_to_long w n.f
    if n.f == Float.ofInt l then some (.V_INTEGER l) else none
  else some n

/-- The statements of `ar_add` from the label `overflow` on. -/
def ar_add_overflow (n1 n2 : number) : ArOutcome :=
  let n1 := promoteToRealNumber n1
  let n2 := promoteToRealNumber n2
  .succeed (.V_REAL (n1.f + n2.f))

/-- The function `ar_add` of `pl-arith.c` on longs of width `w`.  The result is the number
stored in `r`; the operands that `promoteToRealNumber` rewrites are not handed back. -/
def ar_add (w : Nat) (n1 n2 : number) : ArOutcome :=
  if intNumber n1 && intNumber n2 then
    let r := to_long w (n1.i + n2.i)
    if n1.i > 0 ∧ n2.i > 0 ∧ r ≤ 0 then ar_add_overflow n1 n2
    else if n1.i < 0 ∧ n2.i < 0 ∧ r ≥ 0 then ar_add_overflow n1 n2
    else .succeed (.V_INTEGER r)
  else ar_add_overflow n1 n2

/-- The statements of `ar_minus` from the label `overflow` on. -/
def ar_minus_overflow (n1 n2 : number) : ArOutcome :=
  let n1 := promoteToRealNumber n1
  let n2 := promoteToRealNumber n2
  .succeed (.V_REAL (n1.f - n2.f))

/-- The function `ar_minus` of `pl-arith.c` on longs of width `w`. -/
def ar_minus (w : Nat) (n1 n2 : number) : ArOutcome :=
  if intNumber n1 && intNumber n2 then
    let r := to_long w (n1.i - n2.i)
    if n1.i > 0 ∧ n2.i < 0 ∧ r ≤ 0 then ar_minus_overflow n1 n2
    else if n1.i < 0 ∧ n2.i > 0 ∧ r ≥ 0 then ar_minus_overflow n1 n2
    else .succeed (.V_INTEGER r)
  else ar_minus_overflow n1 n2

/-- The body that the macro `BINAIRY_INT_FUNCTION(name, plop, op)` of `pl-arith.c` gives
the function `name`, for the machine operation `op`. -/
def BINAIRY_INT_FUNCTION (plop : String) (op : Int → Int → Option Int) (w : Nat)
    (n1 n2 : number) : ArOutcome :=
  match toIntegerNumber w n1 with
  | none => .error (.ERR_AR_TYPE plop n1)
  | some n1 =>
    match toIntegerNumber w n2 with
    | none => .error (.ERR_AR_TYPE plop n2)
    | some n2 =>
      match op n1.i n2.i with
      | some r => .succeed (.V_INTEGER r)
      | none => .undefined

/-- The function `ar_mod` of `pl-arith.c`: `BINAIRY_INT_FUNCTION(ar_mod, "mod", %)`. -/
def ar_mod (w : Nat) (n1 n2 : number) : ArOutcome :=
  BINAIRY_INT_FUNCTION "mod" (long_mod w) w n1 n2

/-- The function `ar_div` of `pl-arith.c` on longs of width `w`. -/
def ar_div (w : Nat) (n1 n2 : number) : ArOutcome :=
  match toIntegerNumber w n1 with
  | none => .error (.ERR_AR_TYPE "//" n1)
  | some n1 =>
    match toIntegerNumber w n2 with
    | none => .error (.ERR_AR_TYPE "//" n2)
    | some n2 =>
      if n2.i = 0 then .error (.ERR_DIV_BY_ZERO "//")
      else
        match long_div w n1.i n2.i with
        | some r => .succeed (.V_INTEGER r)
        | none => .undefined

/-- The statements of `ar_divide` after the `if` on two integers. -/
def ar_divide_real (n1 n2 : number) : ArOutcome :=
  let n1 := promoteToRealNumber n1
  let n2 := promoteToRealNumber n2
  if n2.f == 0.0 then .error (.ERR_DIV_BY_ZERO "/")
  else .succeed (.V_REAL (n1.f / n2.f))

/-- The function `ar_divide` of `pl-arith.c` on longs of width `w`. -/
def ar_divide (w : Nat) (n1 n2 : number) : ArOutcome :=
  if intNumber n1 && intNumber n2 then
    if n2.i = 0 then .error (.ERR_DIV_BY_ZERO "/")
    else
      match long_mod w n1.i n2.i with
      | none => .undefined
      | some m =>
        if m = 0 then
          match long_div w n1.i n2.i with
          | some r => .succeed (.V_INTEGER r)
          | none => .undefined
        else ar_divide_real n1 n2
  else ar_divide_real n1 n2

end PlArith

/-! # Lemmas and theorems -/

namespace PlTrie

/-! ## The heap -/

theorem node_of_not_valid (h : Heap) (p : Nat) (hp : ¬ h.valid p) : h.node p = zero_node := by
  cases p with
  | zero => rfl
  | succ q =>
    have hq : h.nodes.length ≤ q := by
      by_contra hc
      exact hp ⟨Nat.succ_pos q, Nat.succ_le_of_lt (Nat.lt_of_not_le hc)⟩
    simp [Heap.node, List.getD_eq_getElem?_getD, List.getElem?_eq_none hq]

theorem node_new_trie_node (h : Heap) (p : Nat) : (new_trie_node h).2.node p = h.node p := by
  cases p with
  | zero => rfl
  | succ q =>
    simp only [new_trie_node, Heap.node, List.getD_eq_getElem?_getD]
    rcases Nat.lt_trichotomy q h.nodes.length with hlt | heq | hgt
    · rw [List.getElem?_append_left hlt]
    · subst heq
      simp
    · rw [List.getElem?_eq_none (by simp; omega), List.getElem?_eq_none (by omega)]

theorem length_new_trie_node (h : Heap) :
    (new_trie_node h).2.nodes.length = h.nodes.length + 1 := by
  simp [new_trie_node]

theorem fst_new_trie_node (h : Heap) : (new_trie_node h).1 = h.nodes.length + 1 := rfl

theorem length_setChildren (h : Heap) (n : Nat) (c : trie_children) :
    (h.setChildren n c).nodes.length = h.nodes.length := by
  cases n <;> simp [Heap.setChildren]

theorem length_setValue (h : Heap) (n : Nat) (v : word) :
    (h.setValue n v).nodes.length = h.nodes.length := by
  cases n <;> simp [Heap.setValue]

theorem node_setChildren_ne (h : Heap) (n p : Nat) (c : trie_children) (hne : p ≠ n) :
    (h.setChildren n c).node p = h.node p := by
  cases n with
  | zero => rfl
  | succ m =>
    cases p with
    | zero => rfl
    | succ q =>
      have : m ≠ q := fun e => hne (by rw [e])
      simp [Heap.setChildren, Heap.node, List.getD_eq_getElem?_getD, List.getElem?_set_ne this]

theorem node_setChildren_same (h : Heap) (n : Nat) (c : trie_children) (hn : h.valid n) :
    (h.setChildren n c).node n = { h.node n with children := c } := by
  cases n with
  | zero => exact absurd hn.1 (by decide)
  | succ m =>
    have hm : m < h.nodes.length := hn.2
    simp [Heap.setChildren, Heap.node, List.getD_eq_getElem?_getD, List.getElem?_set_self, hm]

theorem node_setValue_ne (h : Heap) (n p : Nat) (v : word) (hne : p ≠ n) :
    (h.setValue n v).node p = h.node p := by
  cases n with
  | zero => rfl
  | succ m =>
    cases p with
    | zero => rfl
    | succ q =>
      have : m ≠ q := fun e => hne (by rw [e])
      simp [Heap.setValue, Heap.node, List.getD_eq_getElem?_getD, List.getElem?_set_ne this]

theorem node_setValue_same (h : Heap) (n : Nat) (v : word) (hn : h.valid n) :
    (h.setValue n v).node n = { h.node n with value := v } := by
  cases n with
  | zero => exact absurd hn.1 (by decide)
  | succ m =>
    have hm : m < h.nodes.length := hn.2
    simp [Heap.setValue, Heap.node, List.getD_eq_getElem?_getD, List.getElem?_set_self, hm]

theorem children_setValue (h : Heap) (n p : Nat) (v : word) :
    ((h.setValue n v).node p).children = (h.node p).children := by
  by_cases hp : p = n
  · subst hp
    by_cases hv : h.valid p
    · rw [node_setValue_same h p v hv]
    · rw [node_of_not_valid _ _ (by simpa [Heap.valid, length_setValue] using hv),
        node_of_not_valid _ _ hv]
  · rw [node_setValue_ne h n p v hp]

theorem node_eq_of_nodes_eq {h h' : Heap} (e : h'.nodes = h.nodes) (p : Nat) :
    h'.node p = h.node p := by
  cases p <;> simp [Heap.node, e]

theorem destroyHTable_nodes (f : Heap → word → Nat → Option Heap)
    (hf : ∀ h k v h', f h k v = some h' → h'.nodes = h.nodes) :
    ∀ (table : Table) (h h' : Heap), destroyHTable f h table = some h' → h'.nodes = h.nodes := by
  intro table
  induction table with
  | nil =>
    intro h h' e
    simp [destroyHTable] at e
    rw [← e]
  | cons kv rest ih =>
    intro h h' e
    obtain ⟨k, v⟩ := kv
    simp only [destroyHTable] at e
    cases hfk : f h k v with
    | none => simp [hfk] at e
    | some h1 =>
      simp only [hfk] at e
      rw [ih h1 h' e, hf h k v h1 hfk]

theorem destroy_node_nodes :
    ∀ (fuel : Nat) (h : Heap) (n : Nat) (h' : Heap),
      destroy_node fuel h n = some h' → h'.nodes = h.nodes := by
  intro fuel
  induction fuel with
  | zero => intro h n h' e; simp [destroy_node] at e
  | succ fuel ih =>
    intro h n h' e
    simp only [destroy_node] at e
    split at e
    · rename_i table _
      split at e
      · simp at e
      · rename_i h1 hd
        simp only [Option.some.injEq] at e
        rw [← e]
        exact destroyHTable_nodes _ (fun a _ v b hb => ih a v b hb) table h h1 hd
    · simp only [Option.some.injEq] at e
      rw [← e]; rfl

theorem destroy_hnode_nodes (fuel : Nat) (h : Heap) (table : Table) (h' : Heap)
    (e : destroy_hnode fuel h table = some h') : h'.nodes = h.nodes :=
  destroyHTable_nodes _ (fun a _ v b hb => destroy_node_nodes fuel a v b hb) table h h' e

/-! ## `insert_child` -/

theorem insert_child_key (fuel : Nat) :
    ∀ (h : Heap) (n : Nat) (key k : word) (c : Nat),
      (h.node n).children = .key k c → insert_child fuel h n key = .timeout := by
  induction fuel with
  | zero => intro h n key k c _; rfl
  | succ fuel ih =>
    intro h n key k c hk
    have h1 : ((new_trie_node h).2.node n).children = .key k c := by
      rw [node_new_trie_node]; exact hk
    simp only [insert_child, hk, COMPARE_AND_SWAP, h1]
    simp only [reduceCtorEq, if_false]
    cases hd : destroy_hnode fuel (new_trie_node h).2
        (addHTable newHTable key (new_trie_node h).1).2 with
    | none => rfl
    | some h3 =>
      simp only []
      apply ih h3 n key k c
      rw [node_eq_of_nodes_eq (destroy_hnode_nodes _ _ _ _ hd)]
      exact h1

theorem insert_child_null (fuel : Nat) (h : Heap) (n : Nat) (key : word)
    (hn : (h.node n).children = .null) :
    insert_child (fuel + 1) h n key =
      .ok (h.nodes.length + 1)
        ((new_trie_node h).2.setChildren n (.key key (h.nodes.length + 1))) := by
  have h1 : ((new_trie_node h).2.node n).children = .null := by
    rw [node_new_trie_node]; exact hn
  simp only [insert_child, hn, COMPARE_AND_SWAP, h1, if_true]
  rfl

theorem insert_child_hashed (fuel : Nat) (h : Heap) (n : Nat) (key : word) (table : Table)
    (hn : (h.node n).children = .hashed table) (hk : table.lookup key = none) :
    insert_child (fuel + 1) h n key =
      .ok (h.nodes.length + 1)
        ((new_trie_node h).2.setChildren n (.hashed ((key, h.nodes.length + 1) :: table))) := by
  simp only [insert_child, hn, addHTable, hk]
  simp [new_trie_node]

/-! ## Well-formed heaps -/

theorem valid_pos {h : Heap} {p : Nat} (hp : h.valid p) : 0 < p := hp.1

theorem valid_le {h : Heap} {p : Nat} (hp : h.valid p) : p ≤ h.nodes.length := hp.2

theorem valid_of {h : Heap} {p : Nat} (h0 : 0 < p) (h1 : p ≤ h.nodes.length) : h.valid p :=
  ⟨h0, h1⟩

theorem not_valid_of_lt {h : Heap} {p : Nat} (hp : h.nodes.length < p) : ¬ h.valid p :=
  fun hv => absurd (valid_le hv) (by omega)

theorem get_child_eq (h : Heap) (n : Nat) (key : word) :
    get_child h n key = (h.node n).children.child_of key := by
  unfold get_child trie_children.child_of
  cases (h.node n).children <;> rfl

theorem node_mem_of_valid (h : Heap) (p : Nat) (hp : h.valid p) : h.node p ∈ h.nodes := by
  cases p with
  | zero => exact absurd hp.1 (by decide)
  | succ q =>
    have hq : q < h.nodes.length := hp.2
    simp only [Heap.node, List.getD_eq_getElem?_getD, List.getElem?_eq_getElem hq,
      Option.getD_some]
    exact List.getElem_mem hq

theorem wf_node {h : Heap} (hw : h.wf) (p c : Nat) (hc : c ∈ (h.node p).children.ptrs) :
    h.valid c := by
  by_cases hp : h.valid p
  · exact hw _ (node_mem_of_valid h p hp) c hc
  · rw [node_of_not_valid h p hp] at hc
    simp [zero_node, trie_children.ptrs] at hc

theorem wf_of_node {h : Heap} (hn : ∀ p c, c ∈ (h.node p).children.ptrs → h.valid c) : h.wf := by
  intro nd hnd c hc
  obtain ⟨i, hi, e⟩ := List.getElem_of_mem hnd
  apply hn (i + 1) c
  simp only [Heap.node, List.getD_eq_getElem?_getD, List.getElem?_eq_getElem hi,
    Option.getD_some]
  rw [e]; exact hc

theorem lookup_mem_snd (table : Table) (k : word) (v : Nat) (e : table.lookup k = some v) :
    v ∈ table.map Prod.snd := by
  induction table with
  | nil => simp at e
  | cons kv rest ih =>
    obtain ⟨k1, v1⟩ := kv
    by_cases hk : k = k1
    · subst hk
      simp at e
      simp [e]
    · have hb : (k == k1) = false := by simpa using hk
      rw [List.lookup_cons, hb] at e
      simp only [List.map_cons, List.mem_cons]
      exact Or.inr (ih e)

theorem child_of_mem (c : trie_children) (k : word) (hne : c.child_of k ≠ NULL) :
    c.child_of k ∈ c.ptrs := by
  cases c with
  | null => simp [trie_children.child_of] at hne
  | key k1 child =>
    simp only [trie_children.child_of] at hne ⊢
    by_cases hk : k1 = k
    · simp [hk, trie_children.ptrs]
    · simp [hk] at hne
  | hashed table =>
    simp only [trie_children.child_of, lookupHTable] at hne ⊢
    cases e : table.lookup k with
    | none => simp [e] at hne
    | some v =>
      simp only [e]
      exact lookup_mem_snd table k v e

theorem get_child_valid {h : Heap} (hw : h.wf) (p : Nat) (k : word)
    (hne : get_child h p k ≠ NULL) : h.valid (get_child h p k) := by
  rw [get_child_eq] at hne ⊢
  exact wf_node hw p _ (child_of_mem _ k hne)

theorem lookup_none_of_wf {h : Heap} (hw : h.wf) (p : Nat) (k : word) (table : Table)
    (hc : (h.node p).children = .hashed table) (hn : get_child h p k = NULL) :
    table.lookup k = none := by
  cases e : table.lookup k with
  | none => rfl
  | some v =>
    exfalso
    have hv : h.valid v := wf_node hw p v (by
      rw [hc]; exact lookup_mem_snd table k v e)
    rw [get_child_eq, hc] at hn
    simp only [trie_children.child_of, lookupHTable, e] at hn
    have hpos := valid_pos hv
    rw [hn] at hpos
    exact absurd hpos (by decide)

/-! ## Heap extension -/

theorem ext_refl (h : Heap) : Ext h h where
  len := Nat.le_refl _
  value_old := fun _ _ => rfl
  child_old := fun _ _ _ _ => rfl
  child_new := fun _ _ _ e => Or.inl e
  value_fresh := fun p hp => by
    rw [node_of_not_valid h p (not_valid_of_lt hp)]; rfl
  child_fresh := fun p k hp => by
    left
    rw [get_child_eq, node_of_not_valid h p (not_valid_of_lt hp)]; rfl

theorem ext_valid {h h1 : Heap} (e : Ext h h1) {p : Nat} (hp : h.valid p) : h1.valid p :=
  valid_of (valid_pos hp) (Nat.le_trans (valid_le hp) e.len)

theorem ext_trans {h h1 h2 : Heap} (a : Ext h h1) (b : Ext h1 h2) : Ext h h2 where
  len := Nat.le_trans a.len b.len
  value_old := fun p hp => by
    rw [b.value_old p (ext_valid a hp), a.value_old p hp]
  child_old := fun p k hp hne => by
    have h1e := a.child_old p k hp hne
    rw [b.child_old p k (ext_valid a hp) (by rw [h1e]; exact hne), h1e]
  child_new := fun p k hp hn => by
    rcases a.child_new p k hp hn with h1n | h1f
    · rcases b.child_new p k (ext_valid a hp) h1n with h2n | h2f
      · exact Or.inl h2n
      · exact Or.inr (Nat.lt_of_le_of_lt a.len h2f)
    · right
      rw [b.child_old p k (ext_valid a hp) (by intro e0; rw [e0] at h1f; exact Nat.not_lt_zero _ h1f)]
      exact h1f
  value_fresh := fun p hp => by
    by_cases hv : h1.valid p
    · rw [b.value_old p hv]; exact a.value_fresh p hp
    · apply b.value_fresh p
      by_contra hc
      exact hv (valid_of (by omega) (by omega))
  child_fresh := fun p k hp => by
    by_cases hv : h1.valid p
    · rcases a.child_fresh p k hp with h1n | h1f
      · rcases b.child_new p k hv h1n with h2n | h2f
        · exact Or.inl h2n
        · exact Or.inr (Nat.lt_of_le_of_lt a.len h2f)
      · right
        rw [b.child_old p k hv (by intro e0; rw [e0] at h1f; exact Nat.not_lt_zero _ h1f)]
        exact h1f
    · have hp1 : h1.nodes.length < p := by
        by_contra hc
        exact hv (valid_of (by omega) (by omega))
      rcases b.child_fresh p k hp1 with h2n | h2f
      · exact Or.inl h2n
      · exact Or.inr (Nat.lt_of_le_of_lt a.len h2f)

/-! ## `follow_node` -/

theorem node_grow (h : Heap) (n : Nat) (C : trie_children) (hn : h.valid n) (p : Nat) :
    ((new_trie_node h).2.setChildren n C).node p =
      if p = n then { h.node n with children := C } else h.node p := by
  by_cases hp : p = n
  · subst hp
    rw [if_pos rfl, node_setChildren_same _ _ _
      (valid_of (valid_pos hn) (by rw [length_new_trie_node]; have := valid_le hn; omega)),
      node_new_trie_node]
  · rw [if_neg hp, node_setChildren_ne _ _ _ _ hp, node_new_trie_node]

theorem length_grow (h : Heap) (n : Nat) (C : trie_children) :
    ((new_trie_node h).2.setChildren n C).nodes.length = h.nodes.length + 1 := by
  rw [length_setChildren, length_new_trie_node]

theorem grow_spec (h : Heap) (n : Nat) (k : word) (C : trie_children)
    (hw : h.wf) (hn : h.valid n)
    (hnone : (h.node n).children.child_of k = NULL)
    (hC : ∀ w, C.child_of w =
      if w = k then h.nodes.length + 1 else (h.node n).children.child_of w)
    (hptrs : ∀ c ∈ C.ptrs, c = h.nodes.length + 1 ∨ c ∈ (h.node n).children.ptrs) :
    ((new_trie_node h).2.setChildren n C).wf ∧
    ((new_trie_node h).2.setChildren n C).valid (h.nodes.length + 1) ∧
    get_child ((new_trie_node h).2.setChildren n C) n k = h.nodes.length + 1 ∧
    Ext h ((new_trie_node h).2.setChildren n C) ∧
    ((new_trie_node h).2.setChildren n C).node (h.nodes.length + 1) = zero_node := by
  have hlen := length_grow h n C
  have hnode := node_grow h n C hn
  have hnle := valid_le hn
  have hfresh : ∀ p, h.nodes.length < p →
      ((new_trie_node h).2.setChildren n C).node p = zero_node := by
    intro p hp
    rw [hnode p, if_neg (by omega), node_of_not_valid h p (not_valid_of_lt hp)]
  refine ⟨?_, ?_, ?_, ?_, ?_⟩
  · apply wf_of_node
    intro p c hc
    rw [hnode p] at hc
    have hold : ∀ c, h.valid c → ((new_trie_node h).2.setChildren n C).valid c := fun c hv =>
      valid_of (valid_pos hv) (by rw [hlen]; have := valid_le hv; omega)
    by_cases hp : p = n
    · rw [if_pos hp] at hc
      rcases hptrs c hc with e | hm
      · exact valid_of (by omega) (by rw [hlen]; omega)
      · exact hold c (wf_node hw n c hm)
    · rw [if_neg hp] at hc
      exact hold c (wf_node hw p c hc)
  · exact valid_of (by omega) (by rw [hlen])
  · rw [get_child_eq, hnode n, if_pos rfl]
    simp only []
    rw [hC k, if_pos rfl]
  · refine ⟨by rw [hlen]; omega, ?_, ?_, ?_, ?_, ?_⟩
    · intro p _
      rw [hnode p]
      by_cases hp : p = n
      · rw [if_pos hp, hp]
      · rw [if_neg hp]
    · intro p w _ hne
      rw [get_child_eq] at hne ⊢
      rw [get_child_eq, hnode p]
      by_cases hp : p = n
      · subst hp
        rw [if_pos rfl]
        simp only []
        rw [hC w]
        by_cases hwk : w = k
        · subst hwk; exact absurd hnone hne
        · rw [if_neg hwk]
      · rw [if_neg hp]
    · intro p w _ he
      rw [get_child_eq] at he ⊢
      rw [hnode p]
      by_cases hp : p = n
      · subst hp
        rw [if_pos rfl]
        simp only []
        rw [hC w]
        by_cases hwk : w = k
        · rw [if_pos hwk]; right; omega
        · rw [if_neg hwk]; left; exact he
      · rw [if_neg hp]; left; exact he
    · intro p hp
      rw [hfresh p hp]; rfl
    · intro p w hp
      left
      rw [get_child_eq, hfresh p hp]; rfl
  · exact hfresh _ (by omega)

theorem follow_node_ok {fuel : Nat} {h h1 : Heap} {n c : Nat} {k : word}
    (hw : h.wf) (hn : h.valid n) (e : follow_node fuel h n k = .ok c h1) :
    h1.wf ∧ h1.valid c ∧ get_child h1 n k = c ∧ Ext h h1 ∧
      ((h1 = h ∧ get_child h n k = c) ∨
       (get_child h n k = NULL ∧ c = h.nodes.length + 1 ∧ h1.node c = zero_node)) := by
  unfold follow_node at e
  simp only [] at e
  by_cases hg : get_child h n k ≠ NULL
  · rw [if_pos hg] at e
    injection e with e1 e2
    subst e1 e2
    exact ⟨hw, get_child_valid hw n k hg, rfl, ext_refl h, Or.inl ⟨rfl, rfl⟩⟩
  · rw [if_neg hg] at e
    have hg0 : get_child h n k = NULL := not_not.mp hg
    cases fuel with
    | zero => simp [insert_child] at e
    | succ fuel =>
      cases hc : (h.node n).children with
      | key k1 c1 => rw [insert_child_key _ h n k k1 c1 hc] at e; exact absurd e (by simp)
      | null =>
        rw [insert_child_null fuel h n k hc] at e
        injection e with e1 e2
        subst e1 e2
        have hs := grow_spec h n k (.key k (h.nodes.length + 1)) hw hn
          (by rw [hc]; rfl)
          (by
            intro w
            rw [hc]
            simp only [trie_children.child_of]
            by_cases hwk : w = k
            · rw [if_pos hwk, if_pos hwk.symm]
            · rw [if_neg hwk, if_neg (fun e => hwk e.symm)])
          (by
            intro c hcm
            left
            simpa [trie_children.ptrs] using hcm)
        exact ⟨hs.1, hs.2.1, hs.2.2.1, hs.2.2.2.1, Or.inr ⟨hg0, rfl, hs.2.2.2.2⟩⟩
      | hashed table =>
        have hl := lookup_none_of_wf hw n k table hc hg0
        rw [insert_child_hashed fuel h n k table hc hl] at e
        injection e with e1 e2
        subst e1 e2
        have hs := grow_spec h n k (.hashed ((k, h.nodes.length + 1) :: table)) hw hn
          (by rw [← get_child_eq]; exact hg0)
          (by
            intro w
            rw [hc]
            simp only [trie_children.child_of, lookupHTable]
            by_cases hwk : w = k
            · subst hwk
              simp
            · have hb : (w == k) = false := by simpa using hwk
              rw [List.lookup_cons, hb, if_neg hwk])
          (by
            intro c hcm
            rw [hc]
            simp only [trie_children.ptrs, List.map_cons, List.mem_cons] at hcm ⊢
            exact hcm)
        exact ⟨hs.1, hs.2.1, hs.2.2.1, hs.2.2.2.1, Or.inr ⟨hg0, rfl, hs.2.2.2.2⟩⟩

/-! ## The loops are walks over the pre-order list of the key -/

theorem sizeList_append (xs ys : List Term) :
    sizeList (xs ++ ys) = sizeList xs + sizeList ys := by
  induction xs with
  | nil => simp [sizeList]
  | cons x xs ih => simp [sizeList, ih, Nat.add_assoc]

theorem preorderList_append (xs ys : List Term) :
    preorderList (xs ++ ys) = preorderList xs ++ preorderList ys := by
  induction xs with
  | nil => simp [preorderList]
  | cons x xs ih => simp [preorderList, ih]

theorem preorderList_singleton (k : Term) : preorderList [k] = k.preorder := by
  simp [preorderList]

theorem sizeList_singleton (k : Term) : sizeList [k] = k.size := by
  simp [sizeList]

theorem trie_insert_loop_eq_walk (fuel : Nat) :
    ∀ (gas : Nat) (h : Heap) (node : Nat) (agenda : term_agenda),
      sizeList agenda < gas →
      trie_insert_loop gas fuel h node agenda = insert_walk fuel h node (preorderList agenda) := by
  intro gas
  induction gas with
  | zero => intro h node agenda hg; exact absurd hg (Nat.not_lt_zero _)
  | succ gas ih =>
    intro h node agenda hg
    cases agenda with
    | nil => simp [trie_insert_loop, nextTermAgenda, preorderList, insert_walk]
    | cons p rest =>
      cases p with
      | atom a =>
        have hs : sizeList rest < gas := by
          simp only [sizeList, Term.size] at hg; omega
        simp only [trie_insert_loop, nextTermAgenda, preorderList, Term.preorder,
          List.singleton_append, insert_walk, Term.token]
        cases follow_node fuel h node (.atom a) with
        | ok node1 h1 => exact ih h1 node1 rest hs
        | assert_failed h1 => rfl
        | timeout => rfl
      | compound name args =>
        have hs : sizeList (pushWorkAgenda rest args) < gas := by
          simp only [sizeList, Term.size] at hg
          simp only [pushWorkAgenda, sizeList_append]; omega
        simp only [trie_insert_loop, nextTermAgenda, preorderList, Term.preorder,
          List.cons_append, insert_walk, Term.token]
        cases follow_node fuel h node (.functor name args.length) with
        | ok node1 h1 =>
          simp only []
          rw [ih h1 node1 _ hs, pushWorkAgenda, preorderList_append]
          rfl
        | assert_failed h1 => rfl
        | timeout => rfl
      | var id =>
        simp [trie_insert_loop, nextTermAgenda, preorderList, Term.preorder, insert_walk,
          Term.token]
      | integer i =>
        simp [trie_insert_loop, nextTermAgenda, preorderList, Term.preorder, insert_walk,
          Term.token]
      | bignum i =>
        simp [trie_insert_loop, nextTermAgenda, preorderList, Term.preorder, insert_walk,
          Term.token]
      | float b =>
        simp [trie_insert_loop, nextTermAgenda, preorderList, Term.preorder, insert_walk,
          Term.token]
      | string s =>
        simp [trie_insert_loop, nextTermAgenda, preorderList, Term.preorder, insert_walk,
          Term.token]

theorem trie_lookup_loop_eq_walk :
    ∀ (gas : Nat) (h : Heap) (node : Nat) (agenda : term_agenda),
      sizeList agenda < gas →
      trie_lookup_loop gas h node agenda = lookup_walk h node (preorderList agenda) := by
  intro gas
  induction gas with
  | zero => intro h node agenda hg; exact absurd hg (Nat.not_lt_zero _)
  | succ gas ih =>
    intro h node agenda hg
    cases agenda with
    | nil =>
      by_cases hn : node = NULL <;>
        simp [trie_lookup_loop, nextTermAgenda, preorderList, lookup_walk, hn]
    | cons p rest =>
      by_cases hn : node = NULL
      · cases p <;>
          simp [trie_lookup_loop, preorderList, Term.preorder, lookup_walk, hn]
      · cases p with
        | atom a =>
          have hs : sizeList rest < gas := by
            simp only [sizeList, Term.size] at hg; omega
          simp only [trie_lookup_loop, nextTermAgenda, preorderList, Term.preorder,
            List.singleton_append, lookup_walk, Term.token, if_neg hn]
          exact ih h _ rest hs
        | compound name args =>
          have hs : sizeList (pushWorkAgenda rest args) < gas := by
            simp only [sizeList, Term.size] at hg
            simp only [pushWorkAgenda, sizeList_append]; omega
          simp only [trie_lookup_loop, nextTermAgenda, preorderList, Term.preorder,
            List.cons_append, lookup_walk, Term.token, if_neg hn]
          rw [ih h _ _ hs, pushWorkAgenda, preorderList_append]
          rfl
        | var id =>
          simp [trie_lookup_loop, nextTermAgenda, preorderList, Term.preorder, lookup_walk,
            Term.token, hn]
        | integer i =>
          simp [trie_lookup_loop, nextTermAgenda, preorderList, Term.preorder, lookup_walk,
            Term.token, hn]
        | bignum i =>
          simp [trie_lookup_loop, nextTermAgenda, preorderList, Term.preorder, lookup_walk,
            Term.token, hn]
        | float b =>
          simp [trie_lookup_loop, nextTermAgenda, preorderList, Term.preorder, lookup_walk,
            Term.token, hn]
        | string s =>
          simp [trie_lookup_loop, nextTermAgenda, preorderList, Term.preorder, lookup_walk,
            Term.token, hn]

theorem trie_insert_loop_key (fuel : Nat) (h : Heap) (node : Nat) (k : Term) :
    trie_insert_loop (k.size + 1) fuel h node (initTermAgenda k) =
      insert_walk fuel h node k.preorder := by
  rw [trie_insert_loop_eq_walk fuel _ h node _ (by simp [initTermAgenda, sizeList]),
    initTermAgenda, preorderList_singleton]

theorem trie_lookup_eq_walk (h : Heap) (t : trie) (k : Term) :
    trie_lookup h t k = lookup_walk h t.root k.preorder := by
  unfold trie_lookup
  rw [trie_lookup_loop_eq_walk _ h t.root _ (by simp [initTermAgenda, sizeList]),
    initTermAgenda, preorderList_singleton]

/-! ## Walks -/

theorem lookup_walk_null (h : Heap) (ps : List Term) : lookup_walk h NULL ps = .ok NULL h := by
  cases ps <;> simp [lookup_walk]

theorem lookup_walk_heap_ok {h h1 : Heap} {node n : Nat} {ps : List Term}
    (e : lookup_walk h node ps = .ok n h1) : h1 = h := by
  induction ps generalizing node with
  | nil => simp [lookup_walk] at e; exact e.2.symm
  | cons p ps ih =>
    simp only [lookup_walk] at e
    split at e
    · injection e with _ e2; exact e2.symm
    · split at e
      · exact absurd e (by simp)
      · exact ih e

theorem lookup_walk_heap_assert {h h1 : Heap} {node : Nat} {ps : List Term}
    (e : lookup_walk h node ps = .assert_failed h1) : h1 = h := by
  induction ps generalizing node with
  | nil => simp [lookup_walk] at e
  | cons p ps ih =>
    simp only [lookup_walk] at e
    split at e
    · exact absurd e (by simp)
    · split at e
      · injection e with e1; exact e1.symm
      · exact ih e

theorem lookup_walk_ne_timeout (h : Heap) (node : Nat) (ps : List Term) :
    lookup_walk h node ps ≠ .timeout := by
  induction ps generalizing node with
  | nil => simp [lookup_walk]
  | cons p ps ih =>
    simp only [lookup_walk]
    split
    · simp
    · split
      · simp
      · exact ih _

theorem insert_walk_ok {fuel : Nat} {ps : List Term} :
    ∀ {h h1 : Heap} {node n : Nat}, h.wf → h.valid node →
      insert_walk fuel h node ps = .ok n h1 →
      h1.wf ∧ h1.valid n ∧ Ext h h1 ∧
      ∀ (fuel2 : Nat) (h2 : Heap),
        (∀ p k, h1.valid p → get_child h1 p k ≠ NULL → get_child h2 p k = get_child h1 p k) →
        insert_walk fuel2 h2 node ps = .ok n h2 ∧ lookup_walk h2 node ps = .ok n h2 := by
  induction ps with
  | nil =>
    intro h h1 node n hw hn e
    simp only [insert_walk] at e
    injection e with e1 e2
    subst e1 e2
    exact ⟨hw, hn, ext_refl _, fun _ _ _ => ⟨rfl, rfl⟩⟩
  | cons p ps ih =>
    intro h h1 node n hw hn e
    simp only [insert_walk] at e
    cases ht : p.token with
    | none => rw [ht] at e; exact absurd e (by simp)
    | some w =>
      rw [ht] at e
      simp only [] at e
      cases hf : follow_node fuel h node w with
      | assert_failed hm => rw [hf] at e; exact absurd e (by simp)
      | timeout => rw [hf] at e; exact absurd e (by simp)
      | ok c hm =>
        rw [hf] at e
        simp only [] at e
        obtain ⟨hwm, hcv, hgc, hext, _⟩ := follow_node_ok hw hn hf
        obtain ⟨hw1, hnv, hext1, hre⟩ := ih hwm hcv e
        refine ⟨hw1, hnv, ext_trans hext hext1, ?_⟩
        intro fuel2 h2 hk
        have hcne : c ≠ NULL := Nat.pos_iff_ne_zero.mp (valid_pos hcv)
        have h1c : get_child h1 node w = c := by
          rw [hext1.child_old node w (ext_valid hext hn) (by rw [hgc]; exact hcne), hgc]
        have h2c : get_child h2 node w = c := by
          rw [hk node w (ext_valid hext1 (ext_valid hext hn)) (by rw [h1c]; exact hcne), h1c]
        have hnn : node ≠ NULL := Nat.pos_iff_ne_zero.mp (valid_pos hn)
        obtain ⟨r1, r2⟩ := hre fuel2 h2 hk
        constructor
        · simp only [insert_walk, ht, follow_node, h2c, if_pos hcne]
          exact r1
        · simp only [lookup_walk, ht, if_neg hnn, h2c]
          exact r2

theorem insert_walk_assert {fuel : Nat} {ps : List Term} :
    ∀ {h h1 : Heap} {node : Nat}, h.wf → h.valid node →
      insert_walk fuel h node ps = .assert_failed h1 → h1.wf ∧ Ext h h1 := by
  induction ps with
  | nil =>
    intro h h1 node hw hn e
    simp [insert_walk] at e
  | cons p ps ih =>
    intro h h1 node hw hn e
    simp only [insert_walk] at e
    cases ht : p.token with
    | none =>
      rw [ht] at e
      injection e with e1
      subst e1
      exact ⟨hw, ext_refl _⟩
    | some w =>
      rw [ht] at e
      simp only [] at e
      cases hf : follow_node fuel h node w with
      | assert_failed hm =>
        exfalso
        unfold follow_node at hf
        simp only [] at hf
        split at hf
        · exact absurd hf (by simp)
        · cases fuel with
          | zero => simp [insert_child] at hf
          | succ fuel =>
            cases hc : (h.node node).children with
            | key k1 c1 => rw [insert_child_key _ h node w k1 c1 hc] at hf; exact absurd hf (by simp)
            | null => rw [insert_child_null fuel h node w hc] at hf; exact absurd hf (by simp)
            | hashed table =>
              rename_i hg
              have hl := lookup_none_of_wf hw node w table hc (not_not.mp hg)
              rw [insert_child_hashed fuel h node w table hc hl] at hf
              exact absurd hf (by simp)
      | timeout => rw [hf] at e; exact absurd e (by simp)
      | ok c hm =>
        rw [hf] at e
        simp only [] at e
        obtain ⟨hwm, hcv, _, hext, _⟩ := follow_node_ok hw hn hf
        obtain ⟨hw1, hext1⟩ := ih hwm hcv e
        exact ⟨hw1, ext_trans hext hext1⟩

theorem insert_walk_of_lookup {ps : List Term} :
    ∀ {h h1 : Heap} {node n : Nat},
      lookup_walk h node ps = .ok n h1 → n ≠ NULL →
      ∀ fuel, insert_walk fuel h node ps = .ok n h := by
  induction ps with
  | nil =>
    intro h h1 node n e _ fuel
    simp only [lookup_walk] at e
    injection e with e1 _
    subst e1
    rfl
  | cons p ps ih =>
    intro h h1 node n e hn fuel
    simp only [lookup_walk] at e
    split at e
    · rename_i h0
      injection e with e1 _
      exact absurd (e1 ▸ h0) hn
    · cases ht : p.token with
      | none => rw [ht] at e; exact absurd e (by simp)
      | some w =>
        rw [ht] at e
        simp only [] at e
        have hc : get_child h node w ≠ NULL := by
          intro h0
          rw [h0, lookup_walk_null] at e
          injection e with e1 _
          exact hn e1.symm
        simp only [insert_walk, ht, follow_node, if_pos hc]
        exact ih e hn fuel

/-! ## Lookups in an extended heap -/

theorem lookup_walk_fresh {h h1 : Heap} (hx : Ext h h1) {ps : List Term} :
    ∀ {node n : Nat} {h2 : Heap}, h.nodes.length < node →
      lookup_walk h1 node ps = .ok n h2 → n = NULL ∨ h.nodes.length < n := by
  induction ps with
  | nil =>
    intro node n h2 hf e
    simp only [lookup_walk] at e
    injection e with e1 _
    subst e1
    exact Or.inr hf
  | cons p ps ih =>
    intro node n h2 hf e
    simp only [lookup_walk] at e
    split at e
    · injection e with e1 _
      subst e1
      exact Or.inr hf
    · cases ht : p.token with
      | none => rw [ht] at e; exact absurd e (by simp)
      | some w =>
        rw [ht] at e
        simp only [] at e
        rcases hx.child_fresh node w hf with h0 | hlt
        · rw [h0, lookup_walk_null] at e
          injection e with e1 _
          exact Or.inl e1.symm
        · exact ih hlt e

theorem lookup_walk_after {h h1 : Heap} (hx : Ext h h1) (hw : h.wf) {ps : List Term} :
    ∀ {node n : Nat} {h2 : Heap}, h.valid node →
      lookup_walk h1 node ps = .ok n h2 → n ≠ NULL → (h1.node n).value ≠ .zero →
      lookup_walk h node ps = .ok n h ∧ h.valid n := by
  induction ps with
  | nil =>
    intro node n h2 hv e _ _
    simp only [lookup_walk] at e
    injection e with e1 _
    subst e1
    exact ⟨rfl, hv⟩
  | cons p ps ih =>
    intro node n h2 hv e hn hval
    have hnn : node ≠ NULL := Nat.pos_iff_ne_zero.mp (valid_pos hv)
    simp only [lookup_walk, if_neg hnn] at e ⊢
    cases ht : p.token with
    | none => rw [ht] at e; exact absurd e (by simp)
    | some w =>
      rw [ht] at e
      simp only [] at e ⊢
      by_cases hc : get_child h node w = NULL
      · exfalso
        rcases hx.child_new node w hv hc with h0 | hlt
        · rw [h0, lookup_walk_null] at e
          injection e with e1 _
          exact hn e1.symm
        · rcases lookup_walk_fresh hx hlt e with h0 | hf
          · exact hn h0
          · exact hval (hx.value_fresh n hf)
      · rw [hx.child_old node w hv hc] at e
        exact ih (get_child_valid hw node w hc) e hn hval

theorem lookup_walk_before {h h1 : Heap} (hx : Ext h h1) (hw : h.wf) {ps : List Term} :
    ∀ {node n : Nat} {h2 : Heap}, h.valid node →
      lookup_walk h node ps = .ok n h2 → n ≠ NULL →
      lookup_walk h1 node ps = .ok n h1 ∧ h.valid n := by
  induction ps with
  | nil =>
    intro node n h2 hv e _
    simp only [lookup_walk] at e
    injection e with e1 _
    subst e1
    exact ⟨rfl, hv⟩
  | cons p ps ih =>
    intro node n h2 hv e hn
    have hnn : node ≠ NULL := Nat.pos_iff_ne_zero.mp (valid_pos hv)
    simp only [lookup_walk, if_neg hnn] at e ⊢
    cases ht : p.token with
    | none => rw [ht] at e; exact absurd e (by simp)
    | some w =>
      rw [ht] at e
      simp only [] at e ⊢
      have hc : get_child h node w ≠ NULL := by
        intro h0
        rw [h0, lookup_walk_null] at e
        injection e with e1 _
        exact hn e1.symm
      rw [hx.child_old node w hv hc]
      exact ih (get_child_valid hw node w hc) e hn

/-! ## When the walk of `trie_insert` returns -/

theorem insert_walk_empty_returns (fuel : Nat) {ps : List Term} :
    ∀ {h : Heap} {node : Nat}, h.wf → h.valid node → (h.node node).children = .null →
      (∀ p ∈ ps, p.token ≠ none) →
      ∃ n h1, insert_walk (fuel + 1) h node ps = .ok n h1 := by
  induction ps with
  | nil => intro h node _ _ _ _; exact ⟨node, h, rfl⟩
  | cons p ps ih =>
    intro h node hw hv hc ht
    cases hp : p.token with
    | none => exact absurd hp (ht p (List.mem_cons_self _ _))
    | some w =>
      have hg : get_child h node w = NULL := by rw [get_child_eq, hc]; rfl
      have hf : follow_node (fuel + 1) h node w =
          .ok (h.nodes.length + 1)
            ((new_trie_node h).2.setChildren node (.key w (h.nodes.length + 1))) := by
        unfold follow_node
        simp only [hg, ne_eq, not_true_eq_false, if_false]
        exact insert_child_null fuel h node w hc
      obtain ⟨hw1, hv1, _, _, hcase⟩ := follow_node_ok hw hv hf
      have hz : (((new_trie_node h).2.setChildren node (.key w (h.nodes.length + 1))).node
          (h.nodes.length + 1)).children = .null := by
        rcases hcase with ⟨_, e⟩ | ⟨_, _, e⟩
        · rw [hg] at e; exact absurd e (by simp [NULL])
        · rw [e]; rfl
      simp only [insert_walk, hp, hf]
      exact ih hw1 hv1 hz (fun q hq => ht q (List.mem_cons_of_mem _ hq))

theorem insert_walk_returns (fuel : Nat) {ps : List Term} :
    ∀ {h : Heap} {node : Nat}, h.wf → h.valid node →
      (∀ p ∈ ps, p.token ≠ none) → unblocked_walk h node ps = true →
      ∃ n h1, insert_walk (fuel + 1) h node ps = .ok n h1 := by
  induction ps with
  | nil => intro h node _ _ _ _; exact ⟨node, h, rfl⟩
  | cons p ps ih =>
    intro h node hw hv ht hu
    cases hp : p.token with
    | none => exact absurd hp (ht p (List.mem_cons_self _ _))
    | some w =>
      simp only [unblocked_walk, hp] at hu
      have hrest : ∀ q ∈ ps, q.token ≠ none := fun q hq => ht q (List.mem_cons_of_mem _ hq)
      by_cases hg : get_child h node w ≠ NULL
      · rw [if_pos hg] at hu
        simp only [insert_walk, hp, follow_node, if_pos hg]
        exact ih hw (get_child_valid hw node w hg) hrest hu
      · rw [if_neg hg] at hu
        have hg0 : get_child h node w = NULL := not_not.mp hg
        have hfol : ∃ c h1, follow_node (fuel + 1) h node w = .ok c h1 := by
          unfold follow_node
          simp only [if_neg hg]
          cases hc : (h.node node).children with
          | key k1 c1 => rw [hc] at hu; exact absurd hu (by simp)
          | null => exact ⟨_, _, insert_child_null fuel h node w hc⟩
          | hashed table =>
            exact ⟨_, _, insert_child_hashed fuel h node w table hc
              (lookup_none_of_wf hw node w table hc hg0)⟩
        obtain ⟨c, h1, hf⟩ := hfol
        obtain ⟨hw1, hv1, _, _, hcase⟩ := follow_node_ok hw hv hf
        have hz : (h1.node c).children = .null := by
          rcases hcase with ⟨_, e⟩ | ⟨_, _, e⟩
          · rw [hg0] at e
            exact absurd (e ▸ valid_pos hv1) (by decide)
          · rw [e]; rfl
        simp only [insert_walk, hp, hf]
        exact insert_walk_empty_returns fuel hw1 hv1 hz hrest

/-! ## Supported keys -/

theorem token_ne_none_of_supported :
    ∀ (ts : List Term), supportedList ts = true → ∀ p ∈ preorderList ts, p.token ≠ none
  | [], _, p, hp => by simp [preorderList] at hp
  | t :: ts, hs, p, hp => by
    simp only [supportedList, Bool.and_eq_true] at hs
    simp only [preorderList, List.mem_append] at hp
    rcases hp with hp | hp
    · cases t with
      | compound name args =>
        simp only [Term.preorder, List.mem_cons] at hp
        rcases hp with e | hp
        · rw [e]; simp [Term.token]
        · exact token_ne_none_of_supported args (by simpa [Term.supported] using hs.1) p hp
      | atom a =>
        simp only [Term.preorder, List.mem_singleton] at hp
        rw [hp]; simp [Term.token]
      | var i => simp [Term.supported] at hs
      | integer i => simp [Term.supported] at hs
      | bignum i => simp [Term.supported] at hs
      | float i => simp [Term.supported] at hs
      | string i => simp [Term.supported] at hs
    · exact token_ne_none_of_supported ts hs.2 p hp

theorem token_none_of_not_supported :
    ∀ (ts : List Term), supportedList ts = false → ∃ p ∈ preorderList ts, p.token = none
  | [], hs => by simp [supportedList] at hs
  | t :: ts, hs => by
    simp only [supportedList, Bool.and_eq_false_iff] at hs
    rcases hs with hs | hs
    · cases t with
      | compound name args =>
        obtain ⟨p, hp, e⟩ := token_none_of_not_supported args (by simpa [Term.supported] using hs)
        exact ⟨p, by simp [preorderList, Term.preorder, hp], e⟩
      | atom a => simp [Term.supported] at hs
      | var i => exact ⟨.var i, by simp [preorderList, Term.preorder], rfl⟩
      | integer i => exact ⟨.integer i, by simp [preorderList, Term.preorder], rfl⟩
      | bignum i => exact ⟨.bignum i, by simp [preorderList, Term.preorder], rfl⟩
      | float i => exact ⟨.float i, by simp [preorderList, Term.preorder], rfl⟩
      | string i => exact ⟨.string i, by simp [preorderList, Term.preorder], rfl⟩
    · obtain ⟨p, hp, e⟩ := token_none_of_not_supported ts hs
      exact ⟨p, by simp [preorderList, hp], e⟩

theorem supportedList_singleton (k : Term) : supportedList [k] = k.supported := by
  simp [supportedList]

theorem token_of_supported (k : Term) (hk : k.supported = true) :
    ∀ p ∈ k.preorder, p.token ≠ none := by
  rw [← preorderList_singleton]
  exact token_ne_none_of_supported [k] (by rw [supportedList_singleton]; exact hk)

theorem token_of_not_supported (k : Term) (hk : k.supported = false) :
    ∃ p ∈ k.preorder, p.token = none := by
  rw [← preorderList_singleton]
  exact token_none_of_not_supported [k] (by rw [supportedList_singleton]; exact hk)

/-! ## `trie_insert` and `trie_lookup` through the walks -/

theorem trie_insert_eq (fuel : Nat) (h : Heap) (t : trie) (k : Term) (v : word) :
    trie_insert fuel h t k v =
      match insert_walk fuel h t.root k.preorder with
      | .ok node h1 =>
        if (h1.node node).value ≠ .zero then
          if (h1.node node).value = v then .ok FALSE h1 else .ok (-1) h1
        else .ok TRUE (h1.setValue node v)
      | .assert_failed h1 => .assert_failed h1
      | .timeout => .timeout := by
  unfold trie_insert
  rw [trie_insert_loop_key]

theorem trie_lookup_value_eq (h : Heap) (t : trie) (k : Term) :
    trie_lookup_value h t k =
      match lookup_walk h t.root k.preorder with
      | .ok node h1 =>
        if node ≠ NULL ∧ (h1.node node).value ≠ .zero then .ok (some (h1.node node).value) h1
        else .ok none h1
      | .assert_failed h1 => .assert_failed h1
      | .timeout => .timeout := by
  unfold trie_lookup_value
  rw [trie_lookup_eq_walk]

theorem valid_of_value_ne_zero {h : Heap} {p : Nat} (hv : (h.node p).value ≠ .zero) :
    h.valid p := by
  by_contra hn
  rw [node_of_not_valid h p hn] at hv
  exact hv rfl

theorem ne_zero_of_valid_value {v : word} (hv : valid_value v = true) : v ≠ .zero := by
  intro e
  subst e
  simp [valid_value, isAtomic] at hv

theorem get_child_setValue (h : Heap) (n p : Nat) (v k : word) :
    get_child (h.setValue n v) p k = get_child h p k := by
  rw [get_child_eq, get_child_eq, children_setValue]

/-- The found form of `trie_lookup_value`: the key leads to a node that holds the
value. -/
theorem trie_lookup_value_found {h h1 : Heap} {t : trie} {k : Term} {w : word}
    (e : trie_lookup_value h t k = .ok (some w) h1) :
    ∃ n, lookup_walk h t.root k.preorder = .ok n h ∧ n ≠ NULL ∧ (h.node n).value = w ∧
      w ≠ .zero ∧ h1 = h := by
  rw [trie_lookup_value_eq] at e
  cases hl : lookup_walk h t.root k.preorder with
  | assert_failed h2 => rw [hl] at e; exact absurd e (by simp)
  | timeout => rw [hl] at e; exact absurd e (by simp)
  | ok n h2 =>
    have hh : h2 = h := lookup_walk_heap_ok hl
    subst hh
    rw [hl] at e
    simp only [] at e
    split at e
    · rename_i hc
      injection e with e1 e2
      injection e1 with e1
      exact ⟨n, rfl, hc.1, e1, e1 ▸ hc.2, e2.symm⟩
    · injection e with e1 _
      exact absurd e1 (by simp)

theorem trie_lookup_value_of_walk {h : Heap} {t : trie} {k : Term} {n : Nat}
    (e : lookup_walk h t.root k.preorder = .ok n h) (hn : n ≠ NULL)
    (hv : (h.node n).value ≠ .zero) :
    trie_lookup_value h t k = .ok (some (h.node n).value) h := by
  rw [trie_lookup_value_eq, e]
  simp only []
  rw [if_pos ⟨hn, hv⟩]

/-! ## Keys with a sub-term that is neither an atom nor a compound -/

theorem insert_walk_not_ok_of_token_none (fuel : Nat) {ps : List Term} :
    ∀ {h : Heap} {node : Nat}, (∃ p ∈ ps, p.token = none) →
      ∀ n h1, insert_walk fuel h node ps ≠ .ok n h1 := by
  induction ps with
  | nil => intro h node ⟨p, hp, _⟩; simp at hp
  | cons q ps ih =>
    intro h node ⟨p, hp, ht⟩ n h1 e
    simp only [insert_walk] at e
    cases hq : q.token with
    | none => rw [hq] at e; exact absurd e (by simp)
    | some w =>
      rw [hq] at e
      simp only [] at e
      have hmem : p ∈ ps := by
        rcases List.mem_cons.mp hp with e0 | hm
        · rw [e0, hq] at ht; exact absurd ht (by simp)
        · exact hm
      cases hf : follow_node fuel h node w with
      | assert_failed hm => rw [hf] at e; exact absurd e (by simp)
      | timeout => rw [hf] at e; exact absurd e (by simp)
      | ok c hm =>
        rw [hf] at e
        exact ih ⟨p, hmem, ht⟩ n h1 e

theorem insert_walk_not_assert_of_tokens (fuel : Nat) {ps : List Term} :
    ∀ {h : Heap} {node : Nat}, h.wf → h.valid node → (∀ p ∈ ps, p.token ≠ none) →
      ∀ h1, insert_walk fuel h node ps ≠ .assert_failed h1 := by
  induction ps with
  | nil => intro h node _ _ _ h1 e; simp [insert_walk] at e
  | cons q ps ih =>
    intro h node hw hv ht h1 e
    cases hq : q.token with
    | none => exact absurd hq (ht q (List.mem_cons_self _ _))
    | some w =>
      simp only [insert_walk, hq] at e
      cases hf : follow_node fuel h node w with
      | assert_failed hm =>
        -- `follow_node` itself never stops at an assertion
        have hfo := hf
        unfold follow_node at hfo
        simp only [] at hfo
        split at hfo
        · exact absurd hfo (by simp)
        · rename_i hg
          cases fuel with
          | zero => simp [insert_child] at hfo
          | succ fuel =>
            cases hc : (h.node node).children with
            | key k1 c1 =>
              rw [insert_child_key _ h node w k1 c1 hc] at hfo; exact absurd hfo (by simp)
            | null => rw [insert_child_null fuel h node w hc] at hfo; exact absurd hfo (by simp)
            | hashed table =>
              have hl := lookup_none_of_wf hw node w table hc (not_not.mp hg)
              rw [insert_child_hashed fuel h node w table hc hl] at hfo
              exact absurd hfo (by simp)
      | timeout => rw [hf] at e; exact absurd e (by simp)
      | ok c hm =>
        rw [hf] at e
        obtain ⟨hwm, hcv, _, _, _⟩ := follow_node_ok hw hv hf
        exact ih hwm hcv (fun p hp => ht p (List.mem_cons_of_mem _ hp)) h1 e

theorem insert_walk_empty_ne_timeout (fuel : Nat) {ps : List Term} :
    ∀ {h : Heap} {node : Nat}, h.wf → h.valid node → (h.node node).children = .null →
      insert_walk (fuel + 1) h node ps ≠ .timeout := by
  induction ps with
  | nil => intro h node _ _ _ e; simp [insert_walk] at e
  | cons p ps ih =>
    intro h node hw hv hc
    cases hp : p.token with
    | none => simp [insert_walk, hp]
    | some w =>
      have hg : get_child h node w = NULL := by rw [get_child_eq, hc]; rfl
      have hf : follow_node (fuel + 1) h node w =
          .ok (h.nodes.length + 1)
            ((new_trie_node h).2.setChildren node (.key w (h.nodes.length + 1))) := by
        unfold follow_node
        simp only [hg, ne_eq, not_true_eq_false, if_false]
        exact insert_child_null fuel h node w hc
      obtain ⟨hw1, hv1, _, _, hcase⟩ := follow_node_ok hw hv hf
      have hz : (((new_trie_node h).2.setChildren node (.key w (h.nodes.length + 1))).node
          (h.nodes.length + 1)).children = .null := by
        rcases hcase with ⟨_, e⟩ | ⟨_, _, e⟩
        · rw [hg] at e; exact absurd e (by simp [NULL])
        · rw [e]; rfl
      simp only [insert_walk, hp, hf]
      exact ih hw1 hv1 hz

theorem insert_walk_ne_timeout (fuel : Nat) {ps : List Term} :
    ∀ {h : Heap} {node : Nat}, h.wf → h.valid node → unblocked_walk h node ps = true →
      insert_walk (fuel + 1) h node ps ≠ .timeout := by
  induction ps with
  | nil => intro h node _ _ _ e; simp [insert_walk] at e
  | cons p ps ih =>
    intro h node hw hv hu
    cases hp : p.token with
    | none => simp [insert_walk, hp]
    | some w =>
      simp only [unblocked_walk, hp] at hu
      by_cases hg : get_child h node w ≠ NULL
      · rw [if_pos hg] at hu
        simp only [insert_walk, hp, follow_node, if_pos hg]
        exact ih hw (get_child_valid hw node w hg) hu
      · rw [if_neg hg] at hu
        have hg0 : get_child h node w = NULL := not_not.mp hg
        have hfol : ∃ c h1, follow_node (fuel + 1) h node w = .ok c h1 := by
          unfold follow_node
          simp only [if_neg hg]
          cases hc : (h.node node).children with
          | key k1 c1 => rw [hc] at hu; exact absurd hu (by simp)
          | null => exact ⟨_, _, insert_child_null fuel h node w hc⟩
          | hashed table =>
            exact ⟨_, _, insert_child_hashed fuel h node w table hc
              (lookup_none_of_wf hw node w table hc hg0)⟩
        obtain ⟨c, h1, hf⟩ := hfol
        obtain ⟨hw1, hv1, _, _, hcase⟩ := follow_node_ok hw hv hf
        have hz : (h1.node c).children = .null := by
          rcases hcase with ⟨_, e⟩ | ⟨_, _, e⟩
          · rw [hg0] at e
            exact absurd (e ▸ valid_pos hv1) (by decide)
          · rw [e]; rfl
        simp only [insert_walk, hp, hf]
        exact insert_walk_empty_ne_timeout fuel hw1 hv1 hz

theorem lookup_walk_null_of_token_none {ps : List Term} :
    ∀ {h h1 : Heap} {node n : Nat}, (∃ p ∈ ps, p.token = none) →
      lookup_walk h node ps = .ok n h1 → n = NULL := by
  induction ps with
  | nil => intro h h1 node n ⟨p, hp, _⟩; simp at hp
  | cons q ps ih =>
    intro h h1 node n ⟨p, hp, ht⟩ e
    simp only [lookup_walk] at e
    split at e
    · rename_i h0
      injection e with e1 _
      rw [← e1]; exact h0
    · cases hq : q.token with
      | none => rw [hq] at e; exact absurd e (by simp)
      | some w =>
        rw [hq] at e
        simp only [] at e
        have hmem : p ∈ ps := by
          rcases List.mem_cons.mp hp with e0 | hm
          · rw [e0, hq] at ht; exact absurd ht (by simp)
          · exact hm
        exact ih ⟨p, hmem, ht⟩ e

theorem lookup_walk_ok_of_tokens {ps : List Term} :
    ∀ (h : Heap) (node : Nat), (∀ p ∈ ps, p.token ≠ none) →
      ∃ n, lookup_walk h node ps = .ok n h := by
  induction ps with
  | nil => intro h node _; exact ⟨node, rfl⟩
  | cons q ps ih =>
    intro h node ht
    simp only [lookup_walk]
    split
    · exact ⟨node, rfl⟩
    · cases hq : q.token with
      | none => exact absurd hq (ht q (List.mem_cons_self _ _))
      | some w => exact ih h _ (fun p hp => ht p (List.mem_cons_of_mem _ hp))

theorem trie_lookup_value_cases (h : Heap) (t : trie) (k : Term) :
    (∃ r, trie_lookup_value h t k = .ok r h) ∨ trie_lookup_value h t k = .assert_failed h := by
  rw [trie_lookup_value_eq]
  cases hl : lookup_walk h t.root k.preorder with
  | timeout => exact absurd hl (lookup_walk_ne_timeout _ _ _)
  | assert_failed h1 =>
    rw [lookup_walk_heap_assert hl]
    exact Or.inr rfl
  | ok n h1 =>
    rw [lookup_walk_heap_ok hl]
    simp only []
    split
    · exact Or.inl ⟨_, rfl⟩
    · exact Or.inl ⟨_, rfl⟩

theorem trie_lookup_value_ok_of_supported (h : Heap) (t : trie) (k : Term)
    (hk : k.supported = true) : ∃ r, trie_lookup_value h t k = .ok r h := by
  rw [trie_lookup_value_eq]
  obtain ⟨n, hn⟩ := lookup_walk_ok_of_tokens h t.root (token_of_supported k hk)
  rw [hn]
  simp only []
  split
  · exact ⟨_, rfl⟩
  · exact ⟨_, rfl⟩

/-! ## Single steps of the walk -/

theorem follow_node_found {fuel : Nat} {h : Heap} {n c : Nat} {k : word}
    (e : get_child h n k = c) (hc : c ≠ NULL) : follow_node fuel h n k = .ok c h := by
  unfold follow_node
  simp only [e, if_pos hc]

theorem follow_node_key {fuel : Nat} {h : Heap} {n c1 : Nat} {k k1 : word}
    (e : get_child h n k = NULL) (hk : (h.node n).children = .key k1 c1) :
    follow_node fuel h n k = .timeout := by
  unfold follow_node
  simp only [e, ne_eq, not_true_eq_false, if_false]
  exact insert_child_key fuel h n k k1 c1 hk

theorem insert_walk_cons_ok {fuel : Nat} {h h1 : Heap} {node c : Nat} {p : Term}
    {ps : List Term} {w : word} (ht : p.token = some w)
    (hf : follow_node fuel h node w = .ok c h1) :
    insert_walk fuel h node (p :: ps) = insert_walk fuel h1 c ps := by
  simp only [insert_walk, ht, hf]

theorem insert_walk_cons_timeout {fuel : Nat} {h : Heap} {node : Nat} {p : Term}
    {ps : List Term} {w : word} (ht : p.token = some w)
    (hf : follow_node fuel h node w = .timeout) :
    insert_walk fuel h node (p :: ps) = .timeout := by
  simp only [insert_walk, ht, hf]

/-! ## The tokens of a key determine the key -/

theorem tokens_injective_aux :
    ∀ (ts1 ts2 : List Term) (s1 s2 : List word),
      supportedList ts1 = true → supportedList ts2 = true → ts1.length = ts2.length →
      (preorderList ts1).filterMap Term.token ++ s1 =
        (preorderList ts2).filterMap Term.token ++ s2 →
      ts1 = ts2 ∧ s1 = s2
  | [], [], s1, s2, _, _, _, e => by
    simpa [preorderList] using e
  | [], _ :: _, _, _, _, _, hl, _ => by simp at hl
  | _ :: _, [], _, _, _, _, hl, _ => by simp at hl
  | t1 :: r1, t2 :: r2, s1, s2, h1, h2, hl, e => by
    simp only [supportedList, Bool.and_eq_true] at h1 h2
    simp only [List.length_cons, Nat.add_right_cancel_iff] at hl
    simp only [preorderList, List.filterMap_append, List.append_assoc] at e
    cases t1 with
    | atom a =>
      cases t2 with
      | atom b =>
        simp only [Term.preorder, List.filterMap_cons, Term.token, List.filterMap_nil,
          List.singleton_append, List.cons.injEq, word.atom.injEq] at e
        obtain ⟨hr, hs⟩ := tokens_injective_aux r1 r2 s1 s2 h1.2 h2.2 hl e.2
        rw [e.1, hr]
        exact ⟨rfl, hs⟩
      | compound g a2 =>
        simp [Term.preorder, Term.token] at e
      | var i => simp [Term.supported] at h2
      | integer i => simp [Term.supported] at h2
      | bignum i => simp [Term.supported] at h2
      | float i => simp [Term.supported] at h2
      | string i => simp [Term.supported] at h2
    | compound f a1 =>
      cases t2 with
      | atom b =>
        simp [Term.preorder, Term.token] at e
      | compound g a2 =>
        simp only [Term.preorder, List.filterMap_cons, Term.token, List.cons_append,
          List.cons.injEq, word.functor.injEq] at e
        obtain ⟨⟨hfg, hlen⟩, e2⟩ := e
        have ha1 : supportedList a1 = true := by simpa [Term.supported] using h1.1
        have ha2 : supportedList a2 = true := by simpa [Term.supported] using h2.1
        obtain ⟨hargs, hrest⟩ := tokens_injective_aux a1 a2
          ((preorderList r1).filterMap Term.token ++ s1)
          ((preorderList r2).filterMap Term.token ++ s2) ha1 ha2 hlen e2
        obtain ⟨hr, hs⟩ := tokens_injective_aux r1 r2 s1 s2 h1.2 h2.2 hl hrest
        rw [hfg, hargs, hr]
        exact ⟨rfl, hs⟩
      | var i => simp [Term.supported] at h2
      | integer i => simp [Term.supported] at h2
      | bignum i => simp [Term.supported] at h2
      | float i => simp [Term.supported] at h2
      | string i => simp [Term.supported] at h2
    | var i => simp [Term.supported] at h1
    | integer i => simp [Term.supported] at h1
    | bignum i => simp [Term.supported] at h1
    | float i => simp [Term.supported] at h1
    | string i => simp [Term.supported] at h1

theorem tokens_injective (K T : Term) (hK : K.supported = true) (hT : T.supported = true)
    (e : K.preorder.filterMap Term.token = T.preorder.filterMap Term.token) : K = T := by
  have := tokens_injective_aux [K] [T] [] []
    (by rw [supportedList_singleton]; exact hK) (by rw [supportedList_singleton]; exact hT) rfl
    (by simp only [preorderList_singleton, List.append_nil]; exact e)
  simpa using this.1

theorem supported_of_tokens (k : Term) (hk : ∀ p ∈ k.preorder, p.token ≠ none) :
    k.supported = true := by
  cases hs : k.supported with
  | true => rfl
  | false =>
    obtain ⟨p, hp, e⟩ := token_of_not_supported k hs
    exact absurd e (hk p hp)

/-! ## The chain that a trie is -/

theorem wf_new_trie_node {h : Heap} (hw : h.wf) : (new_trie_node h).2.wf := by
  apply wf_of_node
  intro p c hc
  rw [node_new_trie_node] at hc
  have hv := wf_node hw p c hc
  exact valid_of (valid_pos hv) (by rw [length_new_trie_node]; have := valid_le hv; omega)

theorem wf_setValue {h : Heap} (hw : h.wf) (n : Nat) (v : word) : (h.setValue n v).wf := by
  apply wf_of_node
  intro p c hc
  rw [children_setValue] at hc
  have hv := wf_node hw p c hc
  exact valid_of (valid_pos hv) (by rw [length_setValue]; exact valid_le hv)

theorem chain_valid {h : Heap} {r : Nat} {toks : List word} (hc : Chain h r toks) {i : Nat}
    (hi : i ≤ toks.length) : h.valid (r + i) :=
  valid_of (by have := hc.pos; omega) (by rw [hc.len]; omega)

theorem chain_setValue {h : Heap} {r : Nat} {toks : List word} (hc : Chain h r toks)
    (n : Nat) (v : word) : Chain (h.setValue n v) r toks where
  pos := hc.pos
  len := by rw [length_setValue]; exact hc.len
  link := fun i w e => by rw [children_setValue]; exact hc.link i w e
  last := by rw [children_setValue]; exact hc.last

theorem chain_step {fuel : Nat} {h h1 : Heap} {r i c : Nat} {toks : List word} {w : word}
    (hc : Chain h r toks) (hi : i ≤ toks.length)
    (e : follow_node fuel h (r + i) w = .ok c h1) :
    c = r + i + 1 ∧ ∃ ext, Chain h1 r (toks ++ ext) ∧ (toks ++ ext)[i]? = some w := by
  rcases Nat.lt_or_eq_of_le hi with hlt | heq
  · -- an inner node of the chain
    have hk : toks[i]? = some toks[i] := List.getElem?_eq_getElem hlt
    have hch := hc.link i _ hk
    by_cases hwk : toks[i] = w
    · have hg : get_child h (r + i) w = r + i + 1 := by
        rw [get_child_eq, hch]
        simp [trie_children.child_of, hwk]
      rw [follow_node_found hg (by simp [NULL])] at e
      injection e with e1 e2
      subst e1 e2
      refine ⟨rfl, [], ?_, ?_⟩
      · rw [List.append_nil]; exact hc
      · rw [List.append_nil, hk, hwk]
    · have hg : get_child h (r + i) w = NULL := by
        rw [get_child_eq, hch]
        simp [trie_children.child_of, hwk]
      rw [follow_node_key hg hch] at e
      exact absurd e (by simp)
  · -- the last node of the chain
    subst heq
    have hg : get_child h (r + toks.length) w = NULL := by
      rw [get_child_eq, hc.last]; rfl
    unfold follow_node at e
    simp only [hg, ne_eq, not_true_eq_false, if_false] at e
    cases fuel with
    | zero => simp [insert_child] at e
    | succ fuel =>
      rw [insert_child_null fuel h _ w hc.last] at e
      injection e with e1 e2
      subst e1 e2
      have hv : h.valid (r + toks.length) := chain_valid hc (Nat.le_refl _)
      have hnode := node_grow h (r + toks.length) (.key w (h.nodes.length + 1)) hv
      refine ⟨by rw [hc.len], [w], ⟨hc.pos, ?_, ?_, ?_⟩, ?_⟩
      · rw [length_grow, hc.len, List.length_append]; simp; omega
      · intro j k hj
        rw [hnode]
        rcases Nat.lt_trichotomy j toks.length with hlt | heq | hgt
        · rw [List.getElem?_append_left hlt] at hj
          rw [if_neg (by omega)]
          exact hc.link j k hj
        · subst heq
          rw [List.getElem?_append_right (Nat.le_refl _)] at hj
          simp at hj
          rw [if_pos rfl, hj, hc.len]
        · rw [List.getElem?_eq_none (by simp; omega)] at hj
          exact absurd hj (by simp)
      · rw [hnode, if_neg (by simp),
          node_of_not_valid h _ (not_valid_of_lt (by rw [hc.len]; simp))]
        rfl
      · rw [List.getElem?_append_right (Nat.le_refl _)]
        simp

theorem chain_insert_walk {fuel : Nat} {r : Nat} {ps : List Term} :
    ∀ {h h1 : Heap} {toks : List word} {i n : Nat}, h.wf → Chain h r toks → i ≤ toks.length →
      insert_walk fuel h (r + i) ps = .ok n h1 →
      ∃ ext rest, Chain h1 r (toks ++ ext) ∧
        (toks ++ ext).drop i = ps.filterMap Term.token ++ rest ∧
        n = r + i + (ps.filterMap Term.token).length ∧ ∀ p ∈ ps, p.token ≠ none := by
  induction ps with
  | nil =>
    intro h h1 toks i n _ hc _ e
    simp only [insert_walk] at e
    injection e with e1 e2
    subst e1 e2
    exact ⟨[], toks.drop i, by rw [List.append_nil]; exact hc, by simp, by simp, by simp⟩
  | cons p ps ih =>
    intro h h1 toks i n hw hc hi e
    simp only [insert_walk] at e
    cases ht : p.token with
    | none => rw [ht] at e; exact absurd e (by simp)
    | some w =>
      rw [ht] at e
      simp only [] at e
      cases hf : follow_node fuel h (r + i) w with
      | assert_failed hm => rw [hf] at e; exact absurd e (by simp)
      | timeout => rw [hf] at e; exact absurd e (by simp)
      | ok c hm =>
        rw [hf] at e
        simp only [] at e
        obtain ⟨hwm, _, _, _, _⟩ := follow_node_ok hw (chain_valid hc hi) hf
        obtain ⟨hceq, e1, hc1, hget⟩ := chain_step hc hi hf
        subst hceq
        have hlt : i < (toks ++ e1).length := by
          by_contra hcon
          rw [List.getElem?_eq_none (by omega)] at hget
          exact absurd hget (by simp)
        obtain ⟨e2, rest, hc2, hdrop, hn, hall⟩ := ih hwm hc1 hlt e
        refine ⟨e1 ++ e2, rest, by rw [← List.append_assoc]; exact hc2, ?_, ?_, ?_⟩
        · have hlt2 : i < (toks ++ (e1 ++ e2)).length := by
            rw [← List.append_assoc, List.length_append]; omega
          have hget2 : (toks ++ (e1 ++ e2))[i]? = some w := by
            rw [← List.append_assoc, List.getElem?_append_left hlt]; exact hget
          rw [List.drop_eq_getElem_cons hlt2]
          rw [List.getElem?_eq_getElem hlt2] at hget2
          injection hget2 with hget2
          rw [hget2, ← List.append_assoc, hdrop]
          simp [ht]
        · rw [hn]
          simp only [List.filterMap_cons, ht, List.length_cons]
          omega
        · intro q hq
          rcases List.mem_cons.mp hq with e0 | hm0
          · rw [e0, ht]; simp
          · exact hall q hm0

theorem chain_insert_walk_assert {fuel : Nat} {r : Nat} {ps : List Term} :
    ∀ {h h1 : Heap} {toks : List word} {i : Nat}, h.wf → Chain h r toks → i ≤ toks.length →
      insert_walk fuel h (r + i) ps = .assert_failed h1 →
      ∃ ext, Chain h1 r (toks ++ ext) := by
  induction ps with
  | nil =>
    intro h h1 toks i _ _ _ e
    simp [insert_walk] at e
  | cons p ps ih =>
    intro h h1 toks i hw hc hi e
    cases ht : p.token with
    | none =>
      simp only [insert_walk, ht] at e
      injection e with e1
      subst e1
      exact ⟨[], by rw [List.append_nil]; exact hc⟩
    | some w =>
      cases hf : follow_node fuel h (r + i) w with
      | assert_failed hm =>
        have := insert_walk_not_assert_of_tokens fuel hw (chain_valid hc hi)
          (show ∀ q ∈ [p], q.token ≠ none by
            intro q hq; rw [List.mem_singleton.mp hq, ht]; simp) hm
        simp only [insert_walk, ht, hf] at this
        exact absurd rfl this
      | timeout => simp only [insert_walk, ht, hf] at e; exact absurd e (by simp)
      | ok c hm =>
        simp only [insert_walk, ht, hf] at e
        obtain ⟨hwm, _, _, _, _⟩ := follow_node_ok hw (chain_valid hc hi) hf
        obtain ⟨hceq, e1, hc1, hget⟩ := chain_step hc hi hf
        subst hceq
        have hlt : i < (toks ++ e1).length := by
          by_contra hcon
          rw [List.getElem?_eq_none (by omega)] at hget
          exact absurd hget (by simp)
        obtain ⟨e2, hc2⟩ := ih hwm hc1 hlt e
        exact ⟨e1 ++ e2, by rw [← List.append_assoc]; exact hc2⟩

theorem chain_lookup_walk {r : Nat} {ps : List Term} :
    ∀ {h h1 : Heap} {toks : List word} {i n : Nat}, Chain h r toks → i ≤ toks.length →
      lookup_walk h (r + i) ps = .ok n h1 → n ≠ NULL →
      ∃ rest, toks.drop i = ps.filterMap Term.token ++ rest ∧
        n = r + i + (ps.filterMap Term.token).length ∧ ∀ p ∈ ps, p.token ≠ none := by
  induction ps with
  | nil =>
    intro h h1 toks i n _ _ e _
    simp only [lookup_walk] at e
    injection e with e1 _
    subst e1
    exact ⟨toks.drop i, by simp, by simp, by simp⟩
  | cons p ps ih =>
    intro h h1 toks i n hc hi e hn
    have hri : r + i ≠ NULL := by
      have := hc.pos
      simp only [NULL]; omega
    simp only [lookup_walk, if_neg hri] at e
    cases ht : p.token with
    | none => rw [ht] at e; exact absurd e (by simp)
    | some w =>
      rw [ht] at e
      simp only [] at e
      have hcn : get_child h (r + i) w ≠ NULL := by
        intro h0
        rw [h0, lookup_walk_null] at e
        injection e with e1 _
        exact hn e1.symm
      rcases Nat.lt_or_eq_of_le hi with hlt | heq
      · have hk : toks[i]? = some toks[i] := List.getElem?_eq_getElem hlt
        have hch := hc.link i _ hk
        have hwk : toks[i] = w := by
          by_contra hne
          apply hcn
          rw [get_child_eq, hch]
          simp [trie_children.child_of, hne]
        have hg : get_child h (r + i) w = r + (i + 1) := by
          rw [get_child_eq, hch]
          simp [trie_children.child_of, hwk]
          omega
        rw [hg] at e
        obtain ⟨rest, hdrop, hn1, hall⟩ := ih hc hlt e hn
        refine ⟨rest, ?_, ?_, ?_⟩
        · rw [List.drop_eq_getElem_cons hlt, hwk, hdrop]
          simp [ht]
        · rw [hn1]
          simp only [List.filterMap_cons, ht, List.length_cons]
          omega
        · intro q hq
          rcases List.mem_cons.mp hq with e0 | hm0
          · rw [e0, ht]; simp
          · exact hall q hm0
      · exfalso
        apply hcn
        rw [heq, get_child_eq, hc.last]
        rfl

/-! ## The `trie` records -/

theorem trie_at_of_not_valid (s : PlState) (tp : Nat) (h : ¬ (0 < tp ∧ tp ≤ s.tries.length)) :
    s.trie_at tp = ⟨NULL, 0, 0⟩ := by
  cases tp with
  | zero => rfl
  | succ q =>
    have hq : s.tries.length ≤ q := by
      by_contra hc
      exact h ⟨Nat.succ_pos q, Nat.succ_le_of_lt (Nat.lt_of_not_le hc)⟩
    simp [PlState.trie_at, List.getD_eq_getElem?_getD, List.getElem?_eq_none hq]

theorem trie_valid_of_magic {s : PlState} {tp : Nat} (h : (s.trie_at tp).magic = TRIE_MAGIC) :
    0 < tp ∧ tp ≤ s.tries.length := by
  by_contra hc
  rw [trie_at_of_not_valid s tp hc] at h
  exact absurd h (by decide)

theorem trie_at_setTrie_same (s : PlState) (tp : Nat) (t : trie)
    (hv : 0 < tp ∧ tp ≤ s.tries.length) : (s.setTrie tp t).trie_at tp = t := by
  cases tp with
  | zero => exact absurd hv.1 (by decide)
  | succ q =>
    have hq : q < s.tries.length := hv.2
    simp [PlState.setTrie, PlState.trie_at, List.getD_eq_getElem?_getD, List.getElem?_set_self, hq]

theorem trie_at_setTrie_ne (s : PlState) (tp p : Nat) (t : trie) (hne : p ≠ tp) :
    (s.setTrie tp t).trie_at p = s.trie_at p := by
  cases tp with
  | zero => rfl
  | succ q =>
    cases p with
    | zero => rfl
    | succ r =>
      have : q ≠ r := fun e => hne (by rw [e])
      simp [PlState.setTrie, PlState.trie_at, List.getD_eq_getElem?_getD,
        List.getElem?_set_ne this]

theorem get_trie_ok {s : PlState} {A1 : Term} {tp : Nat} (h : get_trie s A1 = .ok tp) :
    ∃ a, A1 = .atom a ∧ s.blobs.lookup a = some tp ∧ (s.trie_at tp).magic = TRIE_MAGIC := by
  unfold get_trie at h
  cases A1 with
  | atom a =>
    simp only [] at h
    cases hl : s.blobs.lookup a with
    | none => rw [hl] at h; exact absurd h (by simp)
    | some t =>
      rw [hl] at h
      simp only [] at h
      split at h
      · rename_i hm
        injection h with e
        subst e
        exact ⟨a, rfl, hl, hm⟩
      · exact absurd h (by simp)
  | var i => exact absurd h (by simp)
  | integer i => exact absurd h (by simp)
  | bignum i => exact absurd h (by simp)
  | float i => exact absurd h (by simp)
  | string i => exact absurd h (by simp)
  | compound f args => exact absurd h (by simp)

theorem get_trie_of_lookup {s : PlState} {a tp : Nat} (hl : s.blobs.lookup a = some tp) :
    get_trie s (.atom a) =
      if (s.trie_at tp).magic = TRIE_MAGIC then .ok tp else .error (.existence_error "trie") := by
  simp only [get_trie, hl]

theorem pl_trie_destroy_ok {s : PlState} {A1 : Term} {tp : Nat} (hg : get_trie s A1 = .ok tp) :
    pl_trie_destroy s A1 =
      .done (.ret TRUE) (s.setTrie tp { s.trie_at tp with magic := TRIE_CMAGIC }) := by
  simp only [pl_trie_destroy, hg, trie_empty]

theorem get_trie_destroyed {s : PlState} {a tp : Nat} (hl : s.blobs.lookup a = some tp)
    (hm : (s.trie_at tp).magic = TRIE_CMAGIC) :
    get_trie s (.atom a) = .error (.existence_error "trie") := by
  rw [get_trie_of_lookup hl, hm, if_neg (by decide)]

theorem blobs_setTrie (s : PlState) (tp : Nat) (t : trie) : (s.setTrie tp t).blobs = s.blobs := by
  cases tp <;> rfl

theorem heap_setTrie (s : PlState) (tp : Nat) (t : trie) : (s.setTrie tp t).heap = s.heap := by
  cases tp <;> rfl

theorem next_atom_setTrie (s : PlState) (tp : Nat) (t : trie) :
    (s.setTrie tp t).next_atom = s.next_atom := by
  cases tp <;> rfl

theorem freed_tries_setTrie (s : PlState) (tp : Nat) (t : trie) :
    (s.setTrie tp t).freed_tries = s.freed_tries := by
  cases tp <;> rfl

theorem length_tries_setTrie (s : PlState) (tp : Nat) (t : trie) :
    (s.setTrie tp t).tries.length = s.tries.length := by
  cases tp <;> simp [PlState.setTrie]

theorem lookupBlob_fresh (s : PlState) (tp : Nat) (hb : ∀ b ∈ s.blobs, b.2 ≠ tp) :
    lookupBlob s tp = (s.next_atom, { s with blobs := (s.next_atom, tp) :: s.blobs,
                                             next_atom := s.next_atom + 1 }) := by
  unfold lookupBlob
  have : s.blobs.find? (fun b => decide (b.2 = tp)) = none := by
    rw [List.find?_eq_none]
    intro b hbm
    simpa using hb b hbm
  rw [this]

theorem pl_trie_new_eq (s : PlState) (hb : s.blobs_ok) :
    pl_trie_new true s = .done (.unify (.atom s.next_atom))
      { heap := (new_trie_node s.heap).2,
        tries := s.tries ++ [⟨s.heap.nodes.length + 1, TRIE_MAGIC, s.next_atom⟩],
        freed_tries := s.freed_tries,
        blobs := (s.next_atom, s.tries.length + 1) :: s.blobs,
        next_atom := s.next_atom + 1 } := by
  unfold pl_trie_new trie_create
  simp only [if_true]
  rw [lookupBlob_fresh _ _ (by
    intro b hbm
    have := hb b hbm
    omega)]
  simp [PlState.setTrie, PlState.trie_at, new_trie_node]

theorem pl_trie_lookup_cases (s : PlState) (A1 k : Term) :
    (∃ a, pl_trie_lookup s A1 k = .done a s) ∨ pl_trie_lookup s A1 k = .assert_failed s := by
  unfold pl_trie_lookup
  cases hg : get_trie s A1 with
  | error e => exact Or.inl ⟨_, rfl⟩
  | ok tp =>
    simp only []
    rcases trie_lookup_value_cases s.heap (s.trie_at tp) k with ⟨r, hr⟩ | hr
    · rw [hr]
      cases r with
      | none => exact Or.inl ⟨_, rfl⟩
      | some v => exact Or.inl ⟨_, rfl⟩
    · rw [hr]
      exact Or.inr rfl

/-! ## Active and destroyed tries along a sequence of calls -/

theorem lookup_mem {α : Type} (l : List (Nat × α)) (a : Nat) (v : α)
    (e : l.lookup a = some v) : (a, v) ∈ l := by
  induction l with
  | nil => simp at e
  | cons kv rest ih =>
    obtain ⟨k1, v1⟩ := kv
    by_cases hk : a = k1
    · subst hk
      simp at e
      simp [e]
    · have hb : (a == k1) = false := by simpa using hk
      rw [List.lookup_cons, hb] at e
      exact List.mem_cons_of_mem _ (ih e)

theorem blobs_ok_of_wf {s : PlState} (hw : s.wf) : s.blobs_ok :=
  fun b hb => (hw.1 b hb).2

/-- The state a call leaves is the state before with another heap, or with the mark of
one trie set to `TRIE_CMAGIC`, or with one more trie. -/
theorem run_state_cases {s s1 : PlState} (hw : s.wf) (c : PlCall)
    (hr : (∃ a, c.run s = .done a s1) ∨ c.run s = .assert_failed s1) :
    (∃ h1, s1 = { s with heap := h1 }) ∨
    (∃ A1 tp, c = .trie_destroy A1 ∧ get_trie s A1 = .ok tp ∧
      s1 = s.setTrie tp { s.trie_at tp with magic := TRIE_CMAGIC }) ∨
    (c = .trie_new true ∧
      s1 = { heap := (new_trie_node s.heap).2,
             tries := s.tries ++ [⟨s.heap.nodes.length + 1, TRIE_MAGIC, s.next_atom⟩],
             freed_tries := s.freed_tries,
             blobs := (s.next_atom, s.tries.length + 1) :: s.blobs,
             next_atom := s.next_atom + 1 }) := by
  cases c with
  | trie_new malloc_ok =>
    cases malloc_ok with
    | true =>
      right; right
      refine ⟨rfl, ?_⟩
      simp only [PlCall.run, pl_trie_new_eq s (blobs_ok_of_wf hw)] at hr
      rcases hr with ⟨a, e⟩ | e
      · injection e with _ e2
        exact e2.symm
      · exact absurd e (by simp)
    | false =>
      left
      refine ⟨s.heap, ?_⟩
      simp only [PlCall.run, pl_trie_new, trie_create] at hr
      rcases hr with ⟨a, e⟩ | e
      · simp at e
        exact e.2.symm
      · simp at e
  | trie_destroy A1 =>
    simp only [PlCall.run] at hr
    cases hg : get_trie s A1 with
    | ok tp =>
      right; left
      rw [pl_trie_destroy_ok hg] at hr
      refine ⟨A1, tp, rfl, hg, ?_⟩
      rcases hr with ⟨a, e⟩ | e
      · injection e with _ e2
        exact e2.symm
      · exact absurd e (by simp)
    | error err =>
      left
      refine ⟨s.heap, ?_⟩
      simp only [pl_trie_destroy, hg] at hr
      rcases hr with ⟨a, e⟩ | e
      · injection e with _ e2
        exact e2.symm
      · exact absurd e (by simp)
  | trie_insert fuel A1 A2 A3 =>
    left
    simp only [PlCall.run, pl_trie_insert] at hr
    cases hg : get_trie s A1 with
    | error err =>
      rw [hg] at hr
      refine ⟨s.heap, ?_⟩
      rcases hr with ⟨a, e⟩ | e
      · injection e with _ e2
        exact e2.symm
      · exact absurd e (by simp)
    | ok tp =>
      rw [hg] at hr
      simp only [] at hr
      split at hr
      · refine ⟨s.heap, ?_⟩
        rcases hr with ⟨a, e⟩ | e
        · injection e with _ e2
          exact e2.symm
        · exact absurd e (by simp)
      · split at hr
        · refine ⟨s.heap, ?_⟩
          rcases hr with ⟨a, e⟩ | e
          · injection e with _ e2
            exact e2.symm
          · exact absurd e (by simp)
        · split at hr
          · rename_i rc h1 _
            refine ⟨h1, ?_⟩
            rcases hr with ⟨a, e⟩ | e
            · injection e with _ e2
              exact e2.symm
            · exact absurd e (by simp)
          · rename_i h1 _
            refine ⟨h1, ?_⟩
            rcases hr with ⟨a, e⟩ | e
            · exact absurd e (by simp)
            · injection e with e2
              exact e2.symm
          · rcases hr with ⟨a, e⟩ | e
            · exact absurd e (by simp)
            · exact absurd e (by simp)
  | trie_lookup A1 A2 =>
    left
    rcases (pl_trie_lookup_cases s A1 A2) with ⟨a, e⟩ | e
    · refine ⟨s.heap, ?_⟩
      simp only [PlCall.run, e] at hr
      rcases hr with ⟨a', e'⟩ | e'
      · injection e' with _ e2
        exact e2.symm
      · exact absurd e' (by simp)
    · refine ⟨s.heap, ?_⟩
      simp only [PlCall.run, e] at hr
      rcases hr with ⟨a', e'⟩ | e'
      · exact absurd e' (by simp)
      · injection e' with e2
        exact e2.symm

theorem trie_at_heap (s : PlState) (h1 : Heap) (tp : Nat) :
    ({ s with heap := h1 } : PlState).trie_at tp = s.trie_at tp := by
  cases tp <;> rfl

theorem trie_at_append (heap : Heap) (tries : List trie) (x : trie) (ft : List Nat)
    (bl : List (Nat × Nat)) (na tp : Nat) (hv : tp ≤ tries.length) (s : PlState)
    (hs : s.tries = tries) :
    (PlState.mk heap (tries ++ [x]) ft bl na).trie_at tp = s.trie_at tp := by
  cases tp with
  | zero => rfl
  | succ q =>
    have hq : q < tries.length := hv
    simp [PlState.trie_at, List.getD_eq_getElem?_getD, List.getElem?_append_left hq, hs]

theorem wf_run {s s1 : PlState} (hw : s.wf) (c : PlCall)
    (hr : (∃ a, c.run s = .done a s1) ∨ c.run s = .assert_failed s1) : s1.wf := by
  rcases run_state_cases hw c hr with ⟨h1, e⟩ | ⟨A1, tp, _, _, e⟩ | ⟨_, e⟩
  · subst e; exact hw
  · subst e
    refine ⟨?_, ?_, ?_⟩
    · intro b hb
      rw [blobs_setTrie] at hb
      rw [length_tries_setTrie]
      exact hw.1 b hb
    · intro b hb
      rw [blobs_setTrie] at hb
      rw [next_atom_setTrie]
      exact hw.2.1 b hb
    · intro b hb c hc
      rw [blobs_setTrie] at hb hc
      exact hw.2.2 b hb c hc
  · subst e
    refine ⟨?_, ?_, ?_⟩
    · intro b hb
      simp only [List.mem_cons] at hb
      simp only [List.length_append, List.length_singleton]
      rcases hb with e | hb
      · rw [e]; simp
      · have := hw.1 b hb
        omega
    · intro b hb
      simp only [List.mem_cons] at hb
      rcases hb with e | hb
      · rw [e]; simp
      · have := hw.2.1 b hb
        simp only []
        omega
    · intro b hb c hc heq
      simp only [List.mem_cons] at hb hc
      rcases hb with eb | hb
      · rcases hc with ec | hc
        · rw [eb, ec]
        · have := (hw.1 c hc).2
          rw [eb] at heq
          simp only [] at heq
          omega
      · rcases hc with ec | hc
        · have := (hw.1 b hb).2
          rw [ec] at heq
          simp only [] at heq
          omega
        · exact hw.2.2 b hb c hc heq

theorem destroyed_run {s s1 : PlState} {a : Nat} (hw : s.wf) (hd : s.destroyed a) (c : PlCall)
    (hr : (∃ x, c.run s = .done x s1) ∨ c.run s = .assert_failed s1) : s1.destroyed a := by
  obtain ⟨tp, hl, hm⟩ := hd
  have hmem := lookup_mem _ _ _ hl
  rcases run_state_cases hw c hr with ⟨h1, e⟩ | ⟨A1, tp1, _, _, e⟩ | ⟨_, e⟩
  · subst e
    exact ⟨tp, hl, by rw [trie_at_heap]; exact hm⟩
  · subst e
    refine ⟨tp, by rw [blobs_setTrie]; exact hl, ?_⟩
    by_cases htp : tp = tp1
    · subst htp
      rw [trie_at_setTrie_same _ _ _ (hw.1 _ hmem)]
    · rw [trie_at_setTrie_ne _ _ _ _ htp]
      exact hm
  · subst e
    have hne : a ≠ s.next_atom := by
      have := hw.2.1 _ hmem
      simp only [] at this
      omega
    have hb : (a == s.next_atom) = false := by simpa using hne
    refine ⟨tp, by rw [List.lookup_cons, hb]; exact hl, ?_⟩
    rw [trie_at_append _ _ _ _ _ _ _ (hw.1 _ hmem).2 s rfl]
    exact hm

theorem active_run {s s1 : PlState} {a : Nat} (hw : s.wf) (ha : s.active a) (c : PlCall)
    (hc : c ≠ .trie_destroy (.atom a))
    (hr : (∃ x, c.run s = .done x s1) ∨ c.run s = .assert_failed s1) : s1.active a := by
  obtain ⟨tp, hl, hm⟩ := ha
  have hmem := lookup_mem _ _ _ hl
  rcases run_state_cases hw c hr with ⟨h1, e⟩ | ⟨A1, tp1, hcd, hg, e⟩ | ⟨_, e⟩
  · subst e
    exact ⟨tp, hl, by rw [trie_at_heap]; exact hm⟩
  · subst e
    obtain ⟨a1, hA1, hl1, _⟩ := get_trie_ok hg
    have hmem1 := lookup_mem _ _ _ hl1
    have htp : tp ≠ tp1 := by
      intro e0
      subst e0
      have := hw.2.2 _ hmem _ hmem1 rfl
      simp only [] at this
      apply hc
      rw [hcd, hA1, this]
    exact ⟨tp, by rw [blobs_setTrie]; exact hl, by rw [trie_at_setTrie_ne _ _ _ _ htp]; exact hm⟩
  · subst e
    have hne : a ≠ s.next_atom := by
      have := hw.2.1 _ hmem
      simp only [] at this
      omega
    have hb : (a == s.next_atom) = false := by simpa using hne
    refine ⟨tp, by rw [List.lookup_cons, hb]; exact hl, ?_⟩
    rw [trie_at_append _ _ _ _ _ _ _ (hw.1 _ hmem).2 s rfl]
    exact hm

theorem run_calls_invariant (P : PlState → Prop) (ok : PlCall → Prop)
    (step : ∀ s s1 c, s.wf → P s → ok c →
      ((∃ x, c.run s = .done x s1) ∨ c.run s = .assert_failed s1) → P s1) :
    ∀ (calls : List PlCall) (s s2 : PlState), s.wf → P s → (∀ c ∈ calls, ok c) →
      run_calls s calls = some s2 → s2.wf ∧ P s2 := by
  intro calls
  induction calls with
  | nil =>
    intro s s2 hw hp _ e
    simp only [run_calls, Option.some.injEq] at e
    subst e
    exact ⟨hw, hp⟩
  | cons c cs ih =>
    intro s s2 hw hp hok e
    simp only [run_calls] at e
    cases hc : c.run s with
    | done x s1 =>
      rw [hc] at e
      have hr : (∃ x, c.run s = .done x s1) ∨ c.run s = .assert_failed s1 := Or.inl ⟨x, hc⟩
      exact ih s1 s2 (wf_run hw c hr) (step s s1 c hw hp (hok c (List.mem_cons_self _ _)) hr)
        (fun d hd => hok d (List.mem_cons_of_mem _ hd)) e
    | assert_failed s1 =>
      rw [hc] at e
      have hr : (∃ x, c.run s = .done x s1) ∨ c.run s = .assert_failed s1 := Or.inr hc
      exact ih s1 s2 (wf_run hw c hr) (step s s1 c hw hp (hok c (List.mem_cons_self _ _)) hr)
        (fun d hd => hok d (List.mem_cons_of_mem _ hd)) e
    | timeout => rw [hc] at e; exact absurd e (by simp)

theorem get_trie_of_active {s : PlState} {a : Nat} (ha : s.active a) :
    ∃ tp, get_trie s (.atom a) = .ok tp := by
  obtain ⟨tp, hl, hm⟩ := ha
  exact ⟨tp, by rw [get_trie_of_lookup hl, if_pos hm]⟩

theorem get_trie_of_destroyed {s : PlState} {a : Nat} (hd : s.destroyed a) :
    get_trie s (.atom a) = .error (.existence_error "trie") := by
  obtain ⟨tp, hl, hm⟩ := hd
  exact get_trie_destroyed hl hm

theorem pl_trie_new_active (s0 : PlState) (hw : s0.wf) :
    ∃ sN, pl_trie_new true s0 = .done (.unify (.atom s0.next_atom)) sN ∧ sN.wf ∧
      sN.active s0.next_atom := by
  have hnew := pl_trie_new_eq s0 (blobs_ok_of_wf hw)
  refine ⟨_, hnew, wf_run hw (.trie_new true) (Or.inl ⟨_, hnew⟩), s0.tries.length + 1, ?_, ?_⟩
  · simp
  · simp [PlState.trie_at, List.getD_eq_getElem?_getD]

/-! ## The representation of the children never steps back -/

theorem node_setChildren_invalid (h : Heap) (n p : Nat) (c : trie_children)
    (hn : ¬ h.valid n) : (h.setChildren n c).node p = h.node p := by
  cases n with
  | zero => rfl
  | succ q =>
    have hq : h.nodes.length ≤ q := by
      by_contra hc
      exact hn (valid_of (Nat.succ_pos q) (Nat.succ_le_of_lt (Nat.lt_of_not_le hc)))
    apply node_eq_of_nodes_eq
    simp only [Heap.setChildren]
    exact List.set_eq_of_length_le hq

theorem repr_setChildren (h : Heap) (n p : Nat) (c : trie_children) :
    ((h.setChildren n c).node p).children.repr = (h.node p).children.repr ∨
    (p = n ∧ ((h.setChildren n c).node p).children = c) := by
  by_cases hp : p = n
  · by_cases hv : h.valid n
    · right
      subst hp
      exact ⟨rfl, by rw [node_setChildren_same h p c hv]⟩
    · left
      rw [node_setChildren_invalid h n p c hv]
  · left
    rw [node_setChildren_ne h n p c hp]

theorem grows_refl (h : Heap) : h.grows h := fun _ => Or.inl rfl

theorem grows_of_nodes_eq {h h1 : Heap} (e : h1.nodes = h.nodes) : h.grows h1 :=
  fun p => Or.inl (by rw [node_eq_of_nodes_eq e])

theorem grows_trans {h h1 h2 : Heap} (a : h.grows h1) (b : h1.grows h2) : h.grows h2 := by
  intro p
  rcases a p with a1 | ⟨a1, a2⟩
  · rcases b p with b1 | ⟨b1, b2⟩
    · exact Or.inl (by rw [b1, a1])
    · exact Or.inr ⟨by rw [← a1]; exact b1, b2⟩
  · rcases b p with b1 | ⟨b1, _⟩
    · exact Or.inr ⟨a1, by rw [b1]; exact a2⟩
    · rw [a2] at b1
      exact absurd b1 (by decide)

theorem grows_setChildren {h : Heap} {n : Nat} {c : trie_children}
    (hc : c.repr = (h.node n).children.repr ∨
      ((h.node n).children.repr = .empty ∧ c.repr = .single)) :
    h.grows (h.setChildren n c) := by
  intro p
  rcases repr_setChildren h n p c with e | ⟨hp, e⟩
  · exact Or.inl e
  · subst hp
    rw [e]
    exact hc

theorem grows_new_trie_node (h : Heap) : h.grows (new_trie_node h).2 :=
  fun p => Or.inl (by rw [node_new_trie_node])

theorem insert_child_grows {fuel : Nat} {h h1 : Heap} {n c : Nat} {key : word}
    (e : insert_child fuel h n key = .ok c h1) : h.grows h1 := by
  cases fuel with
  | zero => simp [insert_child] at e
  | succ fuel =>
    cases hc : (h.node n).children with
    | key k1 c1 => rw [insert_child_key _ h n key k1 c1 hc] at e; exact absurd e (by simp)
    | null =>
      rw [insert_child_null fuel h n key hc] at e
      injection e with _ e2
      subst e2
      refine grows_trans (grows_new_trie_node h) (grows_setChildren ?_)
      right
      rw [node_new_trie_node, hc]
      exact ⟨rfl, rfl⟩
    | hashed table =>
      simp only [insert_child, hc] at e
      have hg : h.grows ((new_trie_node h).2.setChildren n
          (.hashed (addHTable table key (new_trie_node h).1).2)) := by
        refine grows_trans (grows_new_trie_node h) (grows_setChildren ?_)
        left
        rw [node_new_trie_node, hc]
        rfl
      split at e
      · split at e
        · exact absurd e (by simp)
        · rename_i h3 hd
          injection e with _ e2
          subst e2
          exact grows_trans hg (grows_of_nodes_eq (destroy_node_nodes _ _ _ _ hd))
      · injection e with _ e2
        subst e2
        exact hg

theorem insert_child_ne_assert (fuel : Nat) :
    ∀ (h : Heap) (n : Nat) (key : word) (h1 : Heap),
      insert_child fuel h n key ≠ .assert_failed h1 := by
  induction fuel with
  | zero => intro h n key h1 e; simp [insert_child] at e
  | succ fuel ih =>
    intro h n key h1 e
    cases hc : (h.node n).children with
    | key k1 c1 => rw [insert_child_key _ h n key k1 c1 hc] at e; exact absurd e (by simp)
    | null => rw [insert_child_null fuel h n key hc] at e; exact absurd e (by simp)
    | hashed table =>
      simp only [insert_child, hc] at e
      split at e
      · split at e
        · exact absurd e (by simp)
        · exact absurd e (by simp)
      · exact absurd e (by simp)

theorem follow_node_grows {fuel : Nat} {h h1 : Heap} {n c : Nat} {key : word}
    (e : follow_node fuel h n key = .ok c h1) : h.grows h1 := by
  unfold follow_node at e
  simp only [] at e
  split at e
  · injection e with _ e2
    subst e2
    exact grows_refl h
  · exact insert_child_grows e

theorem follow_node_ne_assert (fuel : Nat) (h : Heap) (n : Nat) (key : word) (h1 : Heap) :
    follow_node fuel h n key ≠ .assert_failed h1 := by
  unfold follow_node
  simp only []
  split
  · simp
  · exact insert_child_ne_assert fuel h n key h1

theorem insert_walk_grows {fuel : Nat} {ps : List Term} :
    ∀ {h : Heap} {node : Nat},
      (∀ n h1, insert_walk fuel h node ps = .ok n h1 → h.grows h1) ∧
      (∀ h1, insert_walk fuel h node ps = .assert_failed h1 → h.grows h1) := by
  induction ps with
  | nil =>
    intro h node
    constructor
    · intro n h1 e
      simp only [insert_walk] at e
      injection e with _ e2
      subst e2
      exact grows_refl h
    · intro h1 e
      simp [insert_walk] at e
  | cons p ps ih =>
    intro h node
    cases ht : p.token with
    | none =>
      simp only [insert_walk, ht]
      constructor
      · intro n h1 e; exact absurd e (by simp)
      · intro h1 e
        injection e with e1
        subst e1
        exact grows_refl h
    | some w =>
      simp only [insert_walk, ht]
      cases hf : follow_node fuel h node w with
      | ok c hm =>
        simp only []
        have hg := follow_node_grows hf
        exact ⟨fun n h1 e => grows_trans hg (ih.1 n h1 e),
          fun h1 e => grows_trans hg (ih.2 h1 e)⟩
      | assert_failed hm => exact absurd hf (follow_node_ne_assert fuel h node w hm)
      | timeout =>
        exact ⟨fun n h1 e => absurd e (by simp), fun h1 e => absurd e (by simp)⟩

theorem grows_setValue (h : Heap) (n : Nat) (v : word) : h.grows (h.setValue n v) :=
  fun p => Or.inl (by rw [children_setValue])

theorem trie_insert_grows {fuel : Nat} {h : Heap} {t : trie} {K : Term} {V : word} :
    (∀ rc h1, trie_insert fuel h t K V = .ok rc h1 → h.grows h1) ∧
    (∀ h1, trie_insert fuel h t K V = .assert_failed h1 → h.grows h1) := by
  rw [trie_insert_eq]
  cases hwk : insert_walk fuel h t.root K.preorder with
  | timeout => exact ⟨fun _ _ e => absurd e (by simp), fun _ e => absurd e (by simp)⟩
  | assert_failed hm =>
    refine ⟨fun _ _ e => absurd e (by simp), fun h1 e => ?_⟩
    injection e with e1
    subst e1
    exact insert_walk_grows.2 _ hwk
  | ok n hm =>
    have hg := insert_walk_grows.1 _ _ hwk
    refine ⟨fun rc h1 e => ?_, fun h1 e => ?_⟩
    · simp only [] at e
      split at e
      · split at e
        · injection e with _ e2
          subst e2
          exact hg
        · injection e with _ e2
          subst e2
          exact hg
      · injection e with _ e2
        subst e2
        exact grows_trans hg (grows_setValue hm n V)
    · simp only [] at e
      split at e
      · split at e <;> exact absurd e (by simp)
      · exact absurd e (by simp)

theorem step_of_grows {h h1 : Heap} (hg : h.grows h1) (p : Nat) :
    ChildrenRepr.step (h.node p).children.repr (h1.node p).children.repr := by
  rcases hg p with e | ⟨e1, e2⟩
  · exact Or.inl e.symm
  · exact Or.inr (Or.inl ⟨e1, e2⟩)

/-! ## The token sequence of a key and the tokens the loops take -/

theorem spec_tokens_list_eq :
    ∀ (ts : List Term), spec_tokens_list ts = (preorderList ts).filterMap Term.token
  | [] => by simp [spec_tokens_list, preorderList]
  | t :: ts => by
    have ih := spec_tokens_list_eq ts
    cases t with
    | compound name args =>
      have iha := spec_tokens_list_eq args
      simp [spec_tokens_list, preorderList, Term.spec_tokens, Term.preorder, Term.token, ih, iha]
    | atom a =>
      simp [spec_tokens_list, preorderList, Term.spec_tokens, Term.preorder, Term.token, ih]
    | var i =>
      simp [spec_tokens_list, preorderList, Term.spec_tokens, Term.preorder, Term.token, ih]
    | integer i =>
      simp [spec_tokens_list, preorderList, Term.spec_tokens, Term.preorder, Term.token, ih]
    | bignum i =>
      simp [spec_tokens_list, preorderList, Term.spec_tokens, Term.preorder, Term.token, ih]
    | float i =>
      simp [spec_tokens_list, preorderList, Term.spec_tokens, Term.preorder, Term.token, ih]
    | string i =>
      simp [spec_tokens_list, preorderList, Term.spec_tokens, Term.preorder, Term.token, ih]

theorem spec_tokens_eq (k : Term) : k.spec_tokens = k.preorder.filterMap Term.token := by
  have := spec_tokens_list_eq [k]
  simpa [spec_tokens_list, preorderList] using this

theorem trie_insert_loop_tokens_snd (fuel : Nat) :
    ∀ (gas : Nat) (h : Heap) (node : Nat) (agenda : term_agenda),
      (trie_insert_loop_tokens gas fuel h node agenda).2 =
        trie_insert_loop gas fuel h node agenda := by
  intro gas
  induction gas with
  | zero => intro h node agenda; rfl
  | succ gas ih =>
    intro h node agenda
    cases agenda with
    | nil => rfl
    | cons p rest =>
      cases p with
      | atom a =>
        simp only [trie_insert_loop_tokens, trie_insert_loop, nextTermAgenda]
        cases follow_node fuel h node (.atom a) with
        | ok node1 h1 => exact ih h1 node1 rest
        | assert_failed h1 => rfl
        | timeout => rfl
      | compound name args =>
        simp only [trie_insert_loop_tokens, trie_insert_loop, nextTermAgenda]
        cases follow_node fuel h node (.functor name args.length) with
        | ok node1 h1 => exact ih h1 node1 _
        | assert_failed h1 => rfl
        | timeout => rfl
      | var i => rfl
      | integer i => rfl
      | bignum i => rfl
      | float i => rfl
      | string i => rfl

theorem trie_lookup_loop_tokens_snd :
    ∀ (gas : Nat) (h : Heap) (node : Nat) (agenda : term_agenda),
      (trie_lookup_loop_tokens gas h node agenda).2 = trie_lookup_loop gas h node agenda := by
  intro gas
  induction gas with
  | zero => intro h node agenda; rfl
  | succ gas ih =>
    intro h node agenda
    by_cases hn : node = NULL
    · simp [trie_lookup_loop_tokens, trie_lookup_loop, hn]
    · cases agenda with
      | nil => simp [trie_lookup_loop_tokens, trie_lookup_loop, hn, nextTermAgenda]
      | cons p rest =>
        cases p with
        | atom a =>
          simp only [trie_lookup_loop_tokens, trie_lookup_loop, nextTermAgenda, if_neg hn]
          exact ih h _ rest
        | compound name args =>
          simp only [trie_lookup_loop_tokens, trie_lookup_loop, nextTermAgenda, if_neg hn]
          exact ih h _ _
        | var i => simp [trie_lookup_loop_tokens, trie_lookup_loop, hn, nextTermAgenda]
        | integer i => simp [trie_lookup_loop_tokens, trie_lookup_loop, hn, nextTermAgenda]
        | bignum i => simp [trie_lookup_loop_tokens, trie_lookup_loop, hn, nextTermAgenda]
        | float i => simp [trie_lookup_loop_tokens, trie_lookup_loop, hn, nextTermAgenda]
        | string i => simp [trie_lookup_loop_tokens, trie_lookup_loop, hn, nextTermAgenda]

theorem trie_insert_loop_tokens_fst (fuel : Nat) :
    ∀ (gas : Nat) (h : Heap) (node : Nat) (agenda : term_agenda),
      sizeList agenda < gas →
      (∃ rest, (preorderList agenda).filterMap Term.token =
        (trie_insert_loop_tokens gas fuel h node agenda).1 ++ rest) ∧
      (∀ n h1, (trie_insert_loop_tokens gas fuel h node agenda).2 = .ok n h1 →
        (trie_insert_loop_tokens gas fuel h node agenda).1 =
          (preorderList agenda).filterMap Term.token) := by
  intro gas
  induction gas with
  | zero => intro h node agenda hg; exact absurd hg (Nat.not_lt_zero _)
  | succ gas ih =>
    intro h node agenda hg
    cases agenda with
    | nil =>
      simp [trie_insert_loop_tokens, nextTermAgenda, preorderList]
    | cons p rest =>
      cases p with
      | atom a =>
        have hs : sizeList rest < gas := by
          simp only [sizeList, Term.size] at hg; omega
        simp only [trie_insert_loop_tokens, nextTermAgenda, preorderList, Term.preorder,
          List.singleton_append, List.filterMap_cons, Term.token]
        cases follow_node fuel h node (.atom a) with
        | ok node1 h1 =>
          obtain ⟨⟨r, hr⟩, hfull⟩ := ih h1 node1 rest hs
          simp only []
          refine ⟨⟨r, by rw [hr]; rfl⟩, fun n h2 e => ?_⟩
          rw [hfull n h2 e]
        | assert_failed h1 => exact ⟨⟨_, rfl⟩, fun n h2 e => absurd e (by simp)⟩
        | timeout => exact ⟨⟨_, rfl⟩, fun n h2 e => absurd e (by simp)⟩
      | compound name args =>
        have hs : sizeList (pushWorkAgenda rest args) < gas := by
          simp only [sizeList, Term.size] at hg
          simp only [pushWorkAgenda, sizeList_append]; omega
        have hpre : preorderList (pushWorkAgenda rest args) =
            preorderList args ++ preorderList rest := by
          rw [pushWorkAgenda, preorderList_append]
        simp only [trie_insert_loop_tokens, nextTermAgenda, preorderList, Term.preorder,
          List.cons_append, List.filterMap_cons, Term.token]
        cases follow_node fuel h node (.functor name args.length) with
        | ok node1 h1 =>
          obtain ⟨⟨r, hr⟩, hfull⟩ := ih h1 node1 _ hs
          rw [hpre] at hr hfull
          simp only []
          refine ⟨⟨r, by rw [hr]; rfl⟩, fun n h2 e => ?_⟩
          rw [hfull n h2 e]
        | assert_failed h1 => exact ⟨⟨_, rfl⟩, fun n h2 e => absurd e (by simp)⟩
        | timeout => exact ⟨⟨_, rfl⟩, fun n h2 e => absurd e (by simp)⟩
      | var i =>
        simp [trie_insert_loop_tokens, nextTermAgenda]
      | integer i =>
        simp [trie_insert_loop_tokens, nextTermAgenda]
      | bignum i =>
        simp [trie_insert_loop_tokens, nextTermAgenda]
      | float i =>
        simp [trie_insert_loop_tokens, nextTermAgenda]
      | string i =>
        simp [trie_insert_loop_tokens, nextTermAgenda]

theorem trie_lookup_loop_tokens_fst :
    ∀ (gas : Nat) (h : Heap) (node : Nat) (agenda : term_agenda),
      sizeList agenda < gas →
      (∃ rest, (preorderList agenda).filterMap Term.token =
        (trie_lookup_loop_tokens gas h node agenda).1 ++ rest) ∧
      (∀ n h1, (trie_lookup_loop_tokens gas h node agenda).2 = .ok n h1 → n ≠ NULL →
        (trie_lookup_loop_tokens gas h node agenda).1 =
          (preorderList agenda).filterMap Term.token) := by
  intro gas
  induction gas with
  | zero => intro h node agenda hg; exact absurd hg (Nat.not_lt_zero _)
  | succ gas ih =>
    intro h node agenda hg
    by_cases hn : node = NULL
    · simp only [trie_lookup_loop_tokens, if_pos hn]
      refine ⟨⟨(preorderList agenda).filterMap Term.token, rfl⟩, fun n h1 e hne => ?_⟩
      injection e with e1 _
      exact absurd (e1 ▸ hn) hne
    · cases agenda with
      | nil =>
        simp [trie_lookup_loop_tokens, nextTermAgenda, preorderList, hn]
      | cons p rest =>
        cases p with
        | atom a =>
          have hs : sizeList rest < gas := by
            simp only [sizeList, Term.size] at hg; omega
          simp only [trie_lookup_loop_tokens, if_neg hn, nextTermAgenda, preorderList,
            Term.preorder, List.singleton_append, List.filterMap_cons, Term.token]
          obtain ⟨⟨r, hr⟩, hfull⟩ := ih h (get_child h node (.atom a)) rest hs
          refine ⟨⟨r, by rw [hr]; rfl⟩, fun n h2 e hne => ?_⟩
          rw [hfull n h2 e hne]
        | compound name args =>
          have hs : sizeList (pushWorkAgenda rest args) < gas := by
            simp only [sizeList, Term.size] at hg
            simp only [pushWorkAgenda, sizeList_append]; omega
          have hpre : preorderList (pushWorkAgenda rest args) =
              preorderList args ++ preorderList rest := by
            rw [pushWorkAgenda, preorderList_append]
          simp only [trie_lookup_loop_tokens, if_neg hn, nextTermAgenda, preorderList,
            Term.preorder, List.cons_append, List.filterMap_cons, Term.token]
          obtain ⟨⟨r, hr⟩, hfull⟩ :=
            ih h (get_child h node (.functor name args.length)) _ hs
          rw [hpre] at hr hfull
          refine ⟨⟨r, by rw [hr]⟩, fun n h2 e hne => ?_⟩
          rw [hfull n h2 e hne]
        | var i =>
          simp [trie_lookup_loop_tokens, nextTermAgenda, hn]
        | integer i =>
          simp [trie_lookup_loop_tokens, nextTermAgenda, hn]
        | bignum i =>
          simp [trie_lookup_loop_tokens, nextTermAgenda, hn]
        | float i =>
          simp [trie_lookup_loop_tokens, nextTermAgenda, hn]
        | string i =>
          simp [trie_lookup_loop_tokens, nextTermAgenda, hn]

/-! ## The claims -/

/-- C2 (idempotence).  In every well-formed trie, for every key `T` and every valid value
`V`: when `trie_insert(T, V)` returns `TRUE`, the same call made again returns `FALSE`
and leaves the heap as it was, and `trie_lookup(T)` yields `V` in that heap, which
is the heap before and after the repeated call. -/
theorem trie_insert_idempotent (fuel : Nat) (h h1 : Heap) (t : trie) (T : Term) (V : word)
    (hw : h.wf) (hr : h.valid t.root) (hV : valid_value V = true)
    (e : trie_insert fuel h t T V = .ok TRUE h1) :
    trie_insert fuel h1 t T V = .ok FALSE h1 ∧
    trie_lookup_value h1 t T = .ok (some V) h1 := by
  rw [trie_insert_eq] at e
  cases hwk : insert_walk fuel h t.root T.preorder with
  | assert_failed hm => rw [hwk] at e; exact absurd e (by simp)
  | timeout => rw [hwk] at e; exact absurd e (by simp)
  | ok n hm =>
    rw [hwk] at e
    simp only [] at e
    obtain ⟨_, hnv, _, hre⟩ := insert_walk_ok hw hr hwk
    have hV0 := ne_zero_of_valid_value hV
    split at e
    · split at e
      · injection e with e1 _
        exact absurd e1 (by decide)
      · injection e with e1 _
        exact absurd e1 (by decide)
    · injection e with _ e2
      subst e2
      obtain ⟨r1, r2⟩ := hre fuel (hm.setValue n V)
        (fun p k _ _ => get_child_setValue hm n p V k)
      have hval : ((hm.setValue n V).node n).value = V := by
        rw [node_setValue_same hm n V hnv]
      have hnn : n ≠ NULL := Nat.pos_iff_ne_zero.mp (valid_pos hnv)
      constructor
      · rw [trie_insert_eq, r1]
        simp only []
        rw [hval, if_pos hV0, if_pos rfl]
      · have := trie_lookup_value_of_walk r2 hnn (by rw [hval]; exact hV0)
        rw [hval] at this
        exact this

/-- Witness of C2: the key `a` with the value `v` in a trie that holds only its root. -/
theorem trie_insert_idempotent_witness :
    trie_insert 1 ⟨[⟨.key (.atom 1) 2, .zero⟩, ⟨.null, .atom 9⟩], []⟩ ⟨1, TRIE_MAGIC, 0⟩
        (.atom 1) (.atom 9)
      = .ok FALSE ⟨[⟨.key (.atom 1) 2, .zero⟩, ⟨.null, .atom 9⟩], []⟩ ∧
    trie_lookup_value ⟨[⟨.key (.atom 1) 2, .zero⟩, ⟨.null, .atom 9⟩], []⟩ ⟨1, TRIE_MAGIC, 0⟩
        (.atom 1)
      = .ok (some (.atom 9)) ⟨[⟨.key (.atom 1) 2, .zero⟩, ⟨.null, .atom 9⟩], []⟩ :=
  trie_insert_idempotent 1 ⟨[zero_node], []⟩ _ ⟨1, TRIE_MAGIC, 0⟩ (.atom 1) (.atom 9)
    (by decide) (by decide) (by decide) (by decide)

theorem trie_insert_value_kept {fuel : Nat} {h : Heap} {t : trie} {K : Term} {V : word}
    (hw : h.wf) (hr : h.valid t.root) {p : Nat} (hp : (h.node p).value ≠ .zero) :
    (∀ rc h2, trie_insert fuel h t K V = .ok rc h2 → (h2.node p).value = (h.node p).value) ∧
    (∀ h2, trie_insert fuel h t K V = .assert_failed h2 →
      (h2.node p).value = (h.node p).value) := by
  have hpv : h.valid p := valid_of_value_ne_zero hp
  rw [trie_insert_eq]
  cases hwk : insert_walk fuel h t.root K.preorder with
  | timeout => exact ⟨fun _ _ e => absurd e (by simp), fun _ e => absurd e (by simp)⟩
  | assert_failed hm =>
    obtain ⟨_, hx⟩ := insert_walk_assert hw hr hwk
    refine ⟨fun _ _ e => absurd e (by simp), fun h2 e => ?_⟩
    injection e with e1
    subst e1
    exact hx.value_old p hpv
  | ok n hm =>
    obtain ⟨_, _, hx, _⟩ := insert_walk_ok hw hr hwk
    refine ⟨fun rc h2 e => ?_, fun _ e => ?_⟩
    swap
    · simp only [] at e
      split at e
      · split at e <;> exact absurd e (by simp)
      · exact absurd e (by simp)
    simp only [] at e
    split at e
    · split at e
      · injection e with _ e2
        subst e2
        exact hx.value_old p hpv
      · injection e with _ e2
        subst e2
        exact hx.value_old p hpv
    · rename_i hz
      injection e with _ e2
      subst e2
      have hne : p ≠ n := by
        intro e0
        subst e0
        rw [hx.value_old p hpv] at hz
        exact hz hp
      rw [node_setValue_ne hm n p V hne]
      exact hx.value_old p hpv

/-- C3 (conflict preservation).  When `trie_lookup(T)` yields `V1`, then for every `V2`
other than `V1` (valid or not) the call `trie_insert(T, V2)` returns `-1` and leaves the
heap as it was, so that `trie_lookup(T)` still yields `V1`; and in every well-formed
trie no call of `trie_insert`, whatever its key and value and whether it returns or
stops at the assertion, changes the value of a node that has one. -/
theorem trie_insert_conflict (fuel : Nat) (h : Heap) (t : trie) (T : Term) (V1 V2 : word)
    (hl : trie_lookup_value h t T = .ok (some V1) h) (hne : V2 ≠ V1) :
    trie_insert fuel h t T V2 = .ok (-1) h ∧
    trie_lookup_value h t T = .ok (some V1) h ∧
    ∀ (g : Heap) (fuel2 : Nat) (K : Term) (V : word) (p : Nat),
      g.wf → g.valid t.root → (g.node p).value ≠ .zero →
      (∀ rc g2, trie_insert fuel2 g t K V = .ok rc g2 →
        (g2.node p).value = (g.node p).value) ∧
      (∀ g2, trie_insert fuel2 g t K V = .assert_failed g2 →
        (g2.node p).value = (g.node p).value) := by
  refine ⟨?_, hl, fun g fuel2 K V p hw hr hp => trie_insert_value_kept hw hr hp⟩
  obtain ⟨n, hwalk, hn, hval, hV1, _⟩ := trie_lookup_value_found hl
  rw [trie_insert_eq, insert_walk_of_lookup hwalk hn fuel]
  simp only []
  rw [hval, if_pos hV1, if_neg (fun e => hne e.symm)]

/-- Witness of C3: the key `a` is stored with the value `v`, the value `u` is offered. -/
theorem trie_insert_conflict_witness :
    trie_insert 1 ⟨[⟨.key (.atom 1) 2, .zero⟩, ⟨.null, .atom 9⟩], []⟩ ⟨1, TRIE_MAGIC, 0⟩
        (.atom 1) (.atom 8)
      = .ok (-1) ⟨[⟨.key (.atom 1) 2, .zero⟩, ⟨.null, .atom 9⟩], []⟩ ∧
    trie_lookup_value ⟨[⟨.key (.atom 1) 2, .zero⟩, ⟨.null, .atom 9⟩], []⟩ ⟨1, TRIE_MAGIC, 0⟩
        (.atom 1)
      = .ok (some (.atom 9)) ⟨[⟨.key (.atom 1) 2, .zero⟩, ⟨.null, .atom 9⟩], []⟩ ∧
    ∀ (g : Heap) (fuel2 : Nat) (K : Term) (V : word) (p : Nat),
      g.wf → g.valid (⟨1, TRIE_MAGIC, 0⟩ : trie).root → (g.node p).value ≠ .zero →
      (∀ rc g2, trie_insert fuel2 g ⟨1, TRIE_MAGIC, 0⟩ K V = .ok rc g2 →
        (g2.node p).value = (g.node p).value) ∧
      (∀ g2, trie_insert fuel2 g ⟨1, TRIE_MAGIC, 0⟩ K V = .assert_failed g2 →
        (g2.node p).value = (g.node p).value) :=
  trie_insert_conflict 1 ⟨[⟨.key (.atom 1) 2, .zero⟩, ⟨.null, .atom 9⟩], []⟩
    ⟨1, TRIE_MAGIC, 0⟩ (.atom 1) (.atom 9) (.atom 8) (by decide) (by decide)

/-- C4 (fan-out), evaluated at the failing input.  In a fresh trie `trie_insert(foo(a,b), v)`
returns `TRUE`; the insertion of `foo(a,c)`, which shares the node reached by `foo/2`
and `a` and continues with another token, then never returns, whatever the fuel: the
compare-and-swap of `case TN_KEY` in `insert_child` expects `NULL` in a slot that
holds the `TN_KEY` record. -/
theorem trie_insert_fanout_never_returns :
    trie_insert 1 ⟨[zero_node], []⟩ ⟨1, TRIE_MAGIC, 0⟩
        (.compound 7 [.atom 1, .atom 2]) (.atom 8)
      = .ok TRUE ⟨[⟨.key (.functor 7 2) 2, .zero⟩, ⟨.key (.atom 1) 3, .zero⟩,
                   ⟨.key (.atom 2) 4, .zero⟩, ⟨.null, .atom 8⟩], []⟩ ∧
    ∀ fuel, trie_insert fuel
        ⟨[⟨.key (.functor 7 2) 2, .zero⟩, ⟨.key (.atom 1) 3, .zero⟩,
          ⟨.key (.atom 2) 4, .zero⟩, ⟨.null, .atom 8⟩], []⟩ ⟨1, TRIE_MAGIC, 0⟩
        (.compound 7 [.atom 1, .atom 3]) (.atom 9) = .timeout := by
  refine ⟨by decide, fun fuel => ?_⟩
  have key : ∀ (h : Heap), get_child h 1 (.functor 7 2) = 2 → get_child h 2 (.atom 1) = 3 →
      get_child h 3 (.atom 3) = NULL → (h.node 3).children = .key (.atom 2) 4 →
      insert_walk fuel h 1 [.compound 7 [.atom 1, .atom 3], .atom 1, .atom 3] = .timeout := by
    intro h e1 e2 e3 e4
    have s1 : insert_walk fuel h 1 [.compound 7 [.atom 1, .atom 3], .atom 1, .atom 3] =
        insert_walk fuel h 2 [.atom 1, .atom 3] :=
      insert_walk_cons_ok (show (Term.compound 7 [.atom 1, .atom 3]).token = some (.functor 7 2)
        from rfl) (follow_node_found e1 (by decide))
    have s2 : insert_walk fuel h 2 [.atom 1, .atom 3] = insert_walk fuel h 3 [.atom 3] :=
      insert_walk_cons_ok (show (Term.atom 1).token = some (.atom 1) from rfl)
        (follow_node_found e2 (by decide))
    have s3 : insert_walk fuel h 3 [.atom 3] = .timeout :=
      insert_walk_cons_timeout (show (Term.atom 3).token = some (.atom 3) from rfl)
        (follow_node_key e3 e4)
    rw [s1, s2, s3]
  rw [trie_insert_eq]
  have hp : (Term.compound 7 [.atom 1, .atom 3]).preorder =
      [.compound 7 [.atom 1, .atom 3], .atom 1, .atom 3] := rfl
  rw [hp, key _ (by decide) (by decide) (by decide) (by decide)]

/-- C6 (lookup is read-only).  Whatever the heap, the trie and the key, every outcome of
`trie_lookup`, of the body of the predicate and of the predicate itself carries the heap
and the state the call started from, whether a value was found, the key was not
found or the walk stopped at the assertion. -/
theorem trie_lookup_read_only (s : PlState) (A1 : Term) (h : Heap) (t : trie) (k : Term) :
    ((∃ n, trie_lookup h t k = .ok n h) ∨ trie_lookup h t k = .assert_failed h) ∧
    ((∃ r, trie_lookup_value h t k = .ok r h) ∨ trie_lookup_value h t k = .assert_failed h) ∧
    ((∃ a, pl_trie_lookup s A1 k = .done a s) ∨ pl_trie_lookup s A1 k = .assert_failed s) := by
  refine ⟨?_, trie_lookup_value_cases h t k, ?_⟩
  · rw [trie_lookup_eq_walk]
    cases hl : lookup_walk h t.root k.preorder with
    | timeout => exact absurd hl (lookup_walk_ne_timeout _ _ _)
    | assert_failed h1 => rw [lookup_walk_heap_assert hl]; exact Or.inr rfl
    | ok n h1 => rw [lookup_walk_heap_ok hl]; exact Or.inl ⟨n, rfl⟩
  · unfold pl_trie_lookup
    cases hg : get_trie s A1 with
    | error e => exact Or.inl ⟨_, rfl⟩
    | ok tp =>
      simp only []
      rcases trie_lookup_value_cases s.heap (s.trie_at tp) k with ⟨r, hr⟩ | hr
      · rw [hr]
        cases r with
        | none => exact Or.inl ⟨_, rfl⟩
        | some v => exact Or.inl ⟨_, rfl⟩
      · rw [hr]
        exact Or.inr rfl

/-- C8 (value validation).  On an active trie, `trie_insert(h, K, V)` raises the type error
when `V` is not atomic or is a float and the domain error when `V` is a big integer,
whatever the key and the fuel and with the state left as it was; and whenever the
call raises an error at all, it is one of these two, raised under these conditions. -/
theorem pl_trie_insert_value_validation (fuel : Nat) (s : PlState) (A1 K : Term) (V : word)
    (tp : Nat) (hg : get_trie s A1 = .ok tp) :
    ((isAtomic V = false ∨ isFloat V = true) →
      pl_trie_insert fuel s A1 K V = .done (.error (.type_error "primitive")) s) ∧
    (isBignum V = true →
      pl_trie_insert fuel s A1 K V = .done (.error (.domain_error "primitive")) s) ∧
    (∀ e s1, pl_trie_insert fuel s A1 K V = .done (.error e) s1 →
      s1 = s ∧
      ((e = .type_error "primitive" ∧ (isAtomic V = false ∨ isFloat V = true)) ∨
       (e = .domain_error "primitive" ∧ isBignum V = true))) := by
  unfold pl_trie_insert
  rw [hg]
  simp only []
  refine ⟨?_, ?_, ?_⟩
  · intro hv
    have : (!isAtomic V || isFloat V) = true := by
      rcases hv with hv | hv <;> simp [hv]
    rw [if_pos this]
  · intro hb
    have hna : (!isAtomic V || isFloat V) = false := by
      cases V <;> simp_all [isBignum, isAtomic, isFloat]
    rw [if_neg (by rw [hna]; simp), if_pos hb]
  · intro e s1 he
    split at he
    · rename_i hc
      injection he with e1 e2
      injection e1 with e1
      refine ⟨e2.symm, Or.inl ⟨e1.symm, ?_⟩⟩
      simp only [Bool.or_eq_true, Bool.not_eq_true'] at hc
      exact hc
    · split at he
      · rename_i hb
        injection he with e1 e2
        injection e1 with e1
        exact ⟨e2.symm, Or.inr ⟨e1.symm, hb⟩⟩
      · split at he
        · injection he with e1 _
          exact absurd e1 (by simp)
        · exact absurd he (by simp)
        · exact absurd he (by simp)

/-- Witness of C8: a float offered to the trie a fresh state got from `trie_new`. -/
theorem pl_trie_insert_value_validation_witness :
    ((isAtomic (.float 5) = false ∨ isFloat (.float 5) = true) →
      pl_trie_insert 1 ⟨⟨[zero_node], []⟩, [⟨1, TRIE_MAGIC, 100⟩], [], [(100, 1)], 101⟩
          (.atom 100) (.atom 1) (.float 5)
        = .done (.error (.type_error "primitive"))
          ⟨⟨[zero_node], []⟩, [⟨1, TRIE_MAGIC, 100⟩], [], [(100, 1)], 101⟩) ∧
    (isBignum (.float 5) = true →
      pl_trie_insert 1 ⟨⟨[zero_node], []⟩, [⟨1, TRIE_MAGIC, 100⟩], [], [(100, 1)], 101⟩
          (.atom 100) (.atom 1) (.float 5)
        = .done (.error (.domain_error "primitive"))
          ⟨⟨[zero_node], []⟩, [⟨1, TRIE_MAGIC, 100⟩], [], [(100, 1)], 101⟩) ∧
    (∀ e s1,
      pl_trie_insert 1 ⟨⟨[zero_node], []⟩, [⟨1, TRIE_MAGIC, 100⟩], [], [(100, 1)], 101⟩
          (.atom 100) (.atom 1) (.float 5) = .done (.error e) s1 →
      s1 = ⟨⟨[zero_node], []⟩, [⟨1, TRIE_MAGIC, 100⟩], [], [(100, 1)], 101⟩ ∧
      ((e = .type_error "primitive" ∧
          (isAtomic (.float 5) = false ∨ isFloat (.float 5) = true)) ∨
       (e = .domain_error "primitive" ∧ isBignum (.float 5) = true))) :=
  pl_trie_insert_value_validation 1
    ⟨⟨[zero_node], []⟩, [⟨1, TRIE_MAGIC, 100⟩], [], [(100, 1)], 101⟩
    (.atom 100) (.atom 1) (.float 5) 1 rfl

theorem logged_extend {h h1 : Heap} {r : Nat} {toks ext : List word}
    {log : List (Term × word)} (hc : Chain h r toks) (hx : Ext h h1)
    (hl : Logged h r toks log) : Logged h1 r (toks ++ ext) log := by
  intro j _ hv
  by_cases hle : j ≤ toks.length
  · have hval := hx.value_old (r + j) (chain_valid hc hle)
    rw [hval] at hv ⊢
    obtain ⟨K, hm, hs, ht⟩ := hl j hle hv
    exact ⟨K, hm, hs, by rw [ht, List.take_append_of_le_length hle]⟩
  · exact absurd (hx.value_fresh (r + j) (by rw [hc.len]; omega)) hv

theorem reachable_chain {t : trie} {h : Heap} {log : List (Term × word)}
    (hr : Reachable t h log) :
    h.wf ∧ ∃ toks, Chain h t.root toks ∧ Logged h t.root toks log := by
  induction hr with
  | fresh h0 hw hroot =>
    have hz : (new_trie_node h0).2.node (h0.nodes.length + 1) = zero_node := by
      rw [node_new_trie_node]
      exact node_of_not_valid _ _ (not_valid_of_lt (Nat.lt_succ_self _))
    refine ⟨wf_new_trie_node hw, [], ⟨?_, ?_, ?_, ?_⟩, ?_⟩
    · rw [hroot]; exact Nat.succ_pos _
    · rw [hroot, length_new_trie_node]; rfl
    · intro i w e; simp at e
    · rw [hroot]
      simp only [fst_new_trie_node, List.length_nil, Nat.add_zero]
      rw [hz]; rfl
    · intro j hj hv
      exfalso
      apply hv
      have : j = 0 := by simpa using hj
      subst this
      rw [hroot]
      simp only [fst_new_trie_node, Nat.add_zero]
      rw [hz]; rfl
  | insert_ok h h1 log fuel K V rc _ e ih =>
    obtain ⟨hw, toks, hc, hl⟩ := ih
    have hrv : h.valid t.root := by simpa using chain_valid hc (Nat.zero_le _)
    rw [trie_insert_eq] at e
    cases hwk : insert_walk fuel h t.root K.preorder with
    | timeout => rw [hwk] at e; exact absurd e (by simp)
    | assert_failed hm => rw [hwk] at e; exact absurd e (by simp)
    | ok n hm =>
      rw [hwk] at e
      simp only [] at e
      obtain ⟨hwm, hnv, hx, _⟩ := insert_walk_ok hw hrv hwk
      obtain ⟨ext, rest, hcm, hdrop, hn, hall⟩ :=
        chain_insert_walk (i := 0) hw hc (Nat.zero_le _) (by simpa using hwk)
      have hlm : Logged hm t.root (toks ++ ext) log := logged_extend hc hx hl
      split at e
      · -- the node has a value: nothing is written
        have hrc : rc ≠ TRUE ∧ h1 = hm := by
          split at e
          · injection e with e1 e2
            exact ⟨by rw [← e1]; decide, e2.symm⟩
          · injection e with e1 e2
            exact ⟨by rw [← e1]; decide, e2.symm⟩
        obtain ⟨hrc1, hrc2⟩ := hrc
        subst hrc2
        rw [if_neg hrc1]
        exact ⟨hwm, toks ++ ext, hcm, hlm⟩
      · -- the node has no value: the value is written and the pair is logged
        injection e with e1 e2
        subst e1 e2
        rw [if_pos rfl]
        refine ⟨wf_setValue hwm n V, toks ++ ext, chain_setValue hcm n V, ?_⟩
        intro j hj hv
        by_cases hjn : t.root + j = n
        · rw [hjn, node_setValue_same hm n V hnv]
          refine ⟨K, List.mem_cons_self _ _, supported_of_tokens K hall, ?_⟩
          have hjl : j = (K.preorder.filterMap Term.token).length := by omega
          have hd : toks ++ ext = K.preorder.filterMap Term.token ++ rest := by
            simpa using hdrop
          rw [hd, hjl, List.take_left']
          rfl
        · rw [node_setValue_ne hm n _ V hjn] at hv ⊢
          obtain ⟨K', hm', hs', ht'⟩ := hlm j hj hv
          exact ⟨K', List.mem_cons_of_mem _ hm', hs', ht'⟩
  | insert_abort h h1 log fuel K V _ e ih =>
    obtain ⟨hw, toks, hc, hl⟩ := ih
    have hrv : h.valid t.root := by simpa using chain_valid hc (Nat.zero_le _)
    rw [trie_insert_eq] at e
    cases hwk : insert_walk fuel h t.root K.preorder with
    | timeout => rw [hwk] at e; exact absurd e (by simp)
    | ok n hm =>
      rw [hwk] at e
      simp only [] at e
      split at e
      · split at e <;> exact absurd e (by simp)
      · exact absurd e (by simp)
    | assert_failed hm =>
      rw [hwk] at e
      injection e with e1
      subst e1
      obtain ⟨hwm, hx⟩ := insert_walk_assert hw hrv hwk
      obtain ⟨ext, hcm⟩ := chain_insert_walk_assert (i := 0) hw hc (Nat.zero_le _)
        (by simpa using hwk)
      exact ⟨hwm, toks ++ ext, hcm, logged_extend hc hx hl⟩

/-- C11 (`trie_destroy` called again), amended.  On an active handle `trie_destroy` returns
`TRUE` and marks the trie destroyed; every later `trie_destroy` on that handle raises
the existence error of `get_trie` and leaves the state, and so the mark, as it is,
however many calls follow. -/
theorem pl_trie_destroy_again (s : PlState) (A1 : Term) (tp : Nat)
    (hg : get_trie s A1 = .ok tp) :
    ∃ s1, pl_trie_destroy s A1 = .done (.ret TRUE) s1 ∧
      (s1.trie_at tp).magic = TRIE_CMAGIC ∧
      pl_trie_destroy s1 A1 = .done (.error (.existence_error "trie")) s1 ∧
      ∀ n, run_calls s1 (List.replicate n (.trie_destroy A1)) = some s1 := by
  obtain ⟨a, hA, hl, hm⟩ := get_trie_ok hg
  subst hA
  have hv := trie_valid_of_magic hm
  refine ⟨_, pl_trie_destroy_ok hg, ?_, ?_, ?_⟩
  · rw [trie_at_setTrie_same _ _ _ hv]
  · have hd : get_trie (s.setTrie tp { s.trie_at tp with magic := TRIE_CMAGIC }) (.atom a) =
        .error (.existence_error "trie") :=
      get_trie_destroyed (by rw [blobs_setTrie]; exact hl)
        (by rw [trie_at_setTrie_same _ _ _ hv])
    simp only [pl_trie_destroy, hd]
  · have hd : get_trie (s.setTrie tp { s.trie_at tp with magic := TRIE_CMAGIC }) (.atom a) =
        .error (.existence_error "trie") :=
      get_trie_destroyed (by rw [blobs_setTrie]; exact hl)
        (by rw [trie_at_setTrie_same _ _ _ hv])
    intro n
    induction n with
    | zero => rfl
    | succ n ih =>
      simp only [List.replicate_succ, run_calls, PlCall.run, pl_trie_destroy, hd]
      exact ih

/-- Witness of C11: the trie that `trie_new` made in the empty state. -/
theorem pl_trie_destroy_again_witness :
    ∃ s1, pl_trie_destroy ⟨⟨[zero_node], []⟩, [⟨1, TRIE_MAGIC, 100⟩], [], [(100, 1)], 101⟩
        (.atom 100) = .done (.ret TRUE) s1 ∧
      (s1.trie_at 1).magic = TRIE_CMAGIC ∧
      pl_trie_destroy s1 (.atom 100) = .done (.error (.existence_error "trie")) s1 ∧
      ∀ n, run_calls s1 (List.replicate n (.trie_destroy (.atom 100))) = some s1 :=
  pl_trie_destroy_again ⟨⟨[zero_node], []⟩, [⟨1, TRIE_MAGIC, 100⟩], [], [(100, 1)], 101⟩
    (.atom 100) 1 rfl

/-- Counterexample to C11 as stated: on the trie that `trie_new` made in the empty state the
first `trie_destroy` returns `TRUE`, and the second one raises an existence error. -/
theorem pl_trie_destroy_again_counterexample :
    pl_trie_destroy ⟨⟨[zero_node], []⟩, [⟨1, TRIE_MAGIC, 100⟩], [], [(100, 1)], 101⟩
        (.atom 100)
      = .done (.ret TRUE)
          ⟨⟨[zero_node], []⟩, [⟨1, TRIE_CMAGIC, 100⟩], [], [(100, 1)], 101⟩ ∧
    pl_trie_destroy ⟨⟨[zero_node], []⟩, [⟨1, TRIE_CMAGIC, 100⟩], [], [(100, 1)], 101⟩
        (.atom 100)
      = .done (.error (.existence_error "trie"))
          ⟨⟨[zero_node], []⟩, [⟨1, TRIE_CMAGIC, 100⟩], [], [(100, 1)], 101⟩ := by
  decide

/-- C16 (teardown exactly once), evaluated at the failing input.  On the trie that `trie_new`
made in the empty state, `trie_destroy` called twice hands nothing to `PL_free`, and
the release hook then hands the `trie` record to `PL_free` twice: once in the static
`trie_destroy` and once more after it.  The hook alone, without a call of the
predicate before it, does the same. -/
theorem release_trie_ref_frees_twice :
    pl_trie_destroy ⟨⟨[zero_node], []⟩, [⟨1, TRIE_MAGIC, 100⟩], [], [(100, 1)], 101⟩
        (.atom 100)
      = .done (.ret TRUE)
          ⟨⟨[zero_node], []⟩, [⟨1, TRIE_CMAGIC, 100⟩], [], [(100, 1)], 101⟩ ∧
    pl_trie_destroy ⟨⟨[zero_node], []⟩, [⟨1, TRIE_CMAGIC, 100⟩], [], [(100, 1)], 101⟩
        (.atom 100)
      = .done (.error (.existence_error "trie"))
          ⟨⟨[zero_node], []⟩, [⟨1, TRIE_CMAGIC, 100⟩], [], [(100, 1)], 101⟩ ∧
    release_trie_ref ⟨⟨[zero_node], []⟩, [⟨1, TRIE_CMAGIC, 100⟩], [], [(100, 1)], 101⟩ 100
      = (TRUE, ⟨⟨[zero_node], []⟩, [⟨1, TRIE_CMAGIC, 100⟩], [1, 1], [(100, 1)], 101⟩) ∧
    release_trie_ref ⟨⟨[zero_node], []⟩, [⟨1, TRIE_MAGIC, 100⟩], [], [(100, 1)], 101⟩ 100
      = (TRUE, ⟨⟨[zero_node], []⟩, [⟨1, TRIE_MAGIC, 100⟩], [1, 1], [(100, 1)], 101⟩) ∧
    ([1, 1] : List Nat).count 1 = 2 := by
  decide

/-- C12 (existence error on a destroyed trie).  Take the handle that `trie_new` returns in a
state whose trie atoms are in order.  After any calls of the predicates that do not
destroy it, `get_trie` accepts the handle.  Once `trie_destroy` was then called on
it, however many calls of the predicates follow, `trie_insert` and `trie_lookup` on
the handle raise the existence error, whatever the key, the value and the fuel, and
leave the state as it is. -/
theorem existence_error_after_destroy (s0 : PlState) (hw : s0.wf) :
    ∃ sym s, pl_trie_new true s0 = .done (.unify (.atom sym)) s ∧
      ∀ (calls : List PlCall) (s1 : PlState),
        (∀ c ∈ calls, c ≠ .trie_destroy (.atom sym)) → run_calls s calls = some s1 →
        (∃ tp, get_trie s1 (.atom sym) = .ok tp) ∧
        ∃ s2, pl_trie_destroy s1 (.atom sym) = .done (.ret TRUE) s2 ∧
          ∀ (later : List PlCall) (s3 : PlState), run_calls s2 later = some s3 →
            ∀ (fuel : Nat) (K : Term) (V : word),
              pl_trie_insert fuel s3 (.atom sym) K V
                = .done (.error (.existence_error "trie")) s3 ∧
              pl_trie_lookup s3 (.atom sym) K
                = .done (.error (.existence_error "trie")) s3 := by
  obtain ⟨sN, hnew, hws, hact⟩ := pl_trie_new_active s0 hw
  refine ⟨s0.next_atom, sN, hnew, ?_⟩
  intro calls s1 hno hrun
  obtain ⟨hw1, ha1⟩ := run_calls_invariant (fun s => s.active s0.next_atom)
    (fun c => c ≠ .trie_destroy (.atom s0.next_atom))
    (fun s s1 c hws hp hok hr => active_run hws hp c hok hr) calls sN s1 hws hact hno hrun
  obtain ⟨tp, hg⟩ := get_trie_of_active ha1
  refine ⟨⟨tp, hg⟩, _, pl_trie_destroy_ok hg, ?_⟩
  obtain ⟨a, hA, hl, hm⟩ := get_trie_ok hg
  injection hA with hA
  subst hA
  have hv := trie_valid_of_magic hm
  have hw2 : (s1.setTrie tp { s1.trie_at tp with magic := TRIE_CMAGIC }).wf :=
    wf_run hw1 (.trie_destroy (.atom s0.next_atom)) (Or.inl ⟨_, pl_trie_destroy_ok hg⟩)
  have hd2 : PlState.destroyed (s1.setTrie tp { s1.trie_at tp with magic := TRIE_CMAGIC })
      s0.next_atom :=
    ⟨tp, by rw [blobs_setTrie]; exact hl, by rw [trie_at_setTrie_same _ _ _ hv]⟩
  intro later s3 hrun3 fuel K V
  obtain ⟨_, hd3⟩ := run_calls_invariant (fun s => s.destroyed s0.next_atom) (fun _ => True)
    (fun s s1 c hws hp _ hr => destroyed_run hws hp c hr) later _ s3 hw2 hd2
    (fun _ _ => trivial) hrun3
  have hge := get_trie_of_destroyed hd3
  constructor
  · simp only [pl_trie_insert, hge]
  · simp only [pl_trie_lookup, hge]

/-- Witness of C12: the empty state. -/
theorem existence_error_after_destroy_witness :
    ∃ sym s, pl_trie_new true ⟨⟨[], []⟩, [], [], [], 100⟩ = .done (.unify (.atom sym)) s ∧
      ∀ (calls : List PlCall) (s1 : PlState),
        (∀ c ∈ calls, c ≠ .trie_destroy (.atom sym)) → run_calls s calls = some s1 →
        (∃ tp, get_trie s1 (.atom sym) = .ok tp) ∧
        ∃ s2, pl_trie_destroy s1 (.atom sym) = .done (.ret TRUE) s2 ∧
          ∀ (later : List PlCall) (s3 : PlState), run_calls s2 later = some s3 →
            ∀ (fuel : Nat) (K : Term) (V : word),
              pl_trie_insert fuel s3 (.atom sym) K V
                = .done (.error (.existence_error "trie")) s3 ∧
              pl_trie_lookup s3 (.atom sym) K
                = .done (.error (.existence_error "trie")) s3 :=
  existence_error_after_destroy ⟨⟨[], []⟩, [], [], [], 100⟩ (by decide)

/-- C20 (the representation of the children never steps back).  Whatever the heap, for
every node `p`: from the heap before to the heap after a call of `insert_child`,
`follow_node`, `trie_insert` (that returns or stops at the assertion) or
`trie_lookup`, the representation of the children of `p` stays what it was, or goes
from `Empty` to `Single`, or from `Single` to `Hashed`; so a node that is `Single`
is never `Empty` again and a node that is `Hashed` is never `Empty` or `Single`
again. -/
theorem children_repr_never_steps_back (fuel : Nat) (h : Heap) (n : Nat) (key : word)
    (t : trie) (K : Term) (V : word) (p : Nat) :
    (∀ c h1, insert_child fuel h n key = .ok c h1 →
      ChildrenRepr.step (h.node p).children.repr (h1.node p).children.repr) ∧
    (∀ c h1, follow_node fuel h n key = .ok c h1 →
      ChildrenRepr.step (h.node p).children.repr (h1.node p).children.repr) ∧
    (∀ rc h1, trie_insert fuel h t K V = .ok rc h1 →
      ChildrenRepr.step (h.node p).children.repr (h1.node p).children.repr) ∧
    (∀ h1, trie_insert fuel h t K V = .assert_failed h1 →
      ChildrenRepr.step (h.node p).children.repr (h1.node p).children.repr) ∧
    (∀ n1 h1, trie_lookup h t K = .ok n1 h1 →
      ChildrenRepr.step (h.node p).children.repr (h1.node p).children.repr) ∧
    (∀ h1, trie_lookup h t K = .assert_failed h1 →
      ChildrenRepr.step (h.node p).children.repr (h1.node p).children.repr) ∧
    (∀ a b, ChildrenRepr.step a b → a = .single → b ≠ .empty) ∧
    (∀ a b, ChildrenRepr.step a b → a = .hashed → b = .hashed) := by
  refine ⟨fun c h1 e => step_of_grows (insert_child_grows e) p,
    fun c h1 e => step_of_grows (follow_node_grows e) p,
    fun rc h1 e => step_of_grows (trie_insert_grows.1 rc h1 e) p,
    fun h1 e => step_of_grows (trie_insert_grows.2 h1 e) p, ?_, ?_, ?_, ?_⟩
  · intro n1 h1 e
    rw [trie_lookup_eq_walk] at e
    rw [lookup_walk_heap_ok e]
    exact Or.inl rfl
  · intro h1 e
    rw [trie_lookup_eq_walk] at e
    rw [lookup_walk_heap_assert e]
    exact Or.inl rfl
  · intro a b hs ha
    subst ha
    rcases hs with e | ⟨e, _⟩ | ⟨_, e⟩
    · rw [← e]; decide
    · exact absurd e (by decide)
    · rw [e]; decide
  · intro a b hs ha
    subst ha
    rcases hs with e | ⟨e, _⟩ | ⟨e, _⟩
    · exact e.symm
    · exact absurd e (by decide)
    · exact absurd e (by decide)

/-- C18 (promotion keeps the first entry), evaluated at the failing input.  The node `1` is
`Single` with the token `a` and the child `2`, and the token `b` is offered: the table
that `insert_child` builds holds `b` alone, the compare-and-swap that expects `NULL`
in the slot fails and leaves the heap as it is, and the call never returns, whatever
the fuel. -/
theorem insert_child_promotion_never_happens :
    (addHTable newHTable (.atom 2)
        (new_trie_node ⟨[⟨.key (.atom 1) 2, .zero⟩, zero_node], []⟩).1).2 = [(.atom 2, 3)] ∧
    COMPARE_AND_SWAP (new_trie_node ⟨[⟨.key (.atom 1) 2, .zero⟩, zero_node], []⟩).2 1 .null
        (.hashed [(.atom 2, 3)])
      = (false, (new_trie_node ⟨[⟨.key (.atom 1) 2, .zero⟩, zero_node], []⟩).2) ∧
    ∀ fuel, insert_child fuel ⟨[⟨.key (.atom 1) 2, .zero⟩, zero_node], []⟩ 1 (.atom 2)
      = .timeout :=
  ⟨by decide, by decide,
    fun fuel => insert_child_key fuel _ 1 (.atom 2) (.atom 1) 2 (by decide)⟩

/-- C19 (termination of `insert_child`), evaluated at the failing inputs.  In the heap whose
node `1` is `Single` with the token `e`, whose node `2` is `Hashed` and whose node `3` is
`Empty`: `insert_child` on the `Single` node never returns, with the same token `e` and
with the other token `g`, whatever the fuel; on the `Hashed` and on the `Empty` node
it returns in its first iteration. -/
theorem insert_child_single_never_returns :
    (∀ fuel, insert_child fuel
        ⟨[⟨.key (.atom 5) 2, .zero⟩, ⟨.hashed [(.atom 6, 3)], .zero⟩, zero_node], []⟩
        1 (.atom 5) = .timeout) ∧
    (∀ fuel, insert_child fuel
        ⟨[⟨.key (.atom 5) 2, .zero⟩, ⟨.hashed [(.atom 6, 3)], .zero⟩, zero_node], []⟩
        1 (.atom 7) = .timeout) ∧
    insert_child 1
        ⟨[⟨.key (.atom 5) 2, .zero⟩, ⟨.hashed [(.atom 6, 3)], .zero⟩, zero_node], []⟩
        2 (.atom 7)
      = .ok 4 ⟨[⟨.key (.atom 5) 2, .zero⟩, ⟨.hashed [(.atom 7, 4), (.atom 6, 3)], .zero⟩,
                zero_node, zero_node], []⟩ ∧
    insert_child 1
        ⟨[⟨.key (.atom 5) 2, .zero⟩, ⟨.hashed [(.atom 6, 3)], .zero⟩, zero_node], []⟩
        3 (.atom 7)
      = .ok 4 ⟨[⟨.key (.atom 5) 2, .zero⟩, ⟨.hashed [(.atom 6, 3)], .zero⟩,
                ⟨.key (.atom 7) 4, .zero⟩, zero_node], []⟩ :=
  ⟨fun fuel => insert_child_key fuel _ 1 (.atom 5) (.atom 5) 2 (by decide),
    fun fuel => insert_child_key fuel _ 1 (.atom 7) (.atom 5) 2 (by decide),
    by decide, by decide⟩

/-- C17 (concurrent inserts), evaluated at the failing schedule.  Three inserters offer the
keys `g(a)`, `g(b)` and `g(c)` to a fresh trie, and the first one runs to its end before
the others start: it returns `TRUE`, and then neither of the other two ever returns,
whatever the fuel, in the heap it left, which no call changes any more. -/
theorem trie_insert_one_after_the_other :
    trie_insert 1 ⟨[zero_node], []⟩ ⟨1, TRIE_MAGIC, 0⟩ (.compound 4 [.atom 1]) (.atom 11)
      = .ok TRUE ⟨[⟨.key (.functor 4 1) 2, .zero⟩, ⟨.key (.atom 1) 3, .zero⟩,
                   ⟨.null, .atom 11⟩], []⟩ ∧
    (∀ fuel, trie_insert fuel
        ⟨[⟨.key (.functor 4 1) 2, .zero⟩, ⟨.key (.atom 1) 3, .zero⟩, ⟨.null, .atom 11⟩], []⟩
        ⟨1, TRIE_MAGIC, 0⟩ (.compound 4 [.atom 2]) (.atom 12) = .timeout) ∧
    (∀ fuel, trie_insert fuel
        ⟨[⟨.key (.functor 4 1) 2, .zero⟩, ⟨.key (.atom 1) 3, .zero⟩, ⟨.null, .atom 11⟩], []⟩
        ⟨1, TRIE_MAGIC, 0⟩ (.compound 4 [.atom 3]) (.atom 13) = .timeout) := by
  have key : ∀ (fuel : Nat) (h : Heap) (x : Nat), get_child h 1 (.functor 4 1) = 2 →
      get_child h 2 (.atom x) = NULL → (h.node 2).children = .key (.atom 1) 3 →
      insert_walk fuel h 1 [.compound 4 [.atom x], .atom x] = .timeout := by
    intro fuel h x e1 e2 e3
    have s1 : insert_walk fuel h 1 [.compound 4 [.atom x], .atom x] =
        insert_walk fuel h 2 [.atom x] :=
      insert_walk_cons_ok (show (Term.compound 4 [.atom x]).token = some (.functor 4 1)
        from rfl) (follow_node_found e1 (by decide))
    have s2 : insert_walk fuel h 2 [.atom x] = .timeout :=
      insert_walk_cons_timeout (show (Term.atom x).token = some (.atom x) from rfl)
        (follow_node_key e2 e3)
    rw [s1, s2]
  refine ⟨by decide, fun fuel => ?_, fun fuel => ?_⟩
  · rw [trie_insert_eq]
    have hp : (Term.compound 4 [.atom 2]).preorder = [.compound 4 [.atom 2], .atom 2] := rfl
    rw [hp, key fuel _ 2 (by decide) (by decide) (by decide)]
  · rw [trie_insert_eq]
    have hp : (Term.compound 4 [.atom 3]).preorder = [.compound 4 [.atom 3], .atom 3] := rfl
    rw [hp, key fuel _ 3 (by decide) (by decide) (by decide)]

/-! ## One key in a fresh trie -/

theorem reachable_lookup_mem {t : trie} {h h1 : Heap} {log : List (Term × word)} {T : Term}
    {V : word} (hr : Reachable t h log) (hl : trie_lookup_value h t T = .ok (some V) h1) :
    (T, V) ∈ log := by
  obtain ⟨_, toks, hc, hlog⟩ := reachable_chain hr
  obtain ⟨n, hwalk, hn, hval, hV0, _⟩ := trie_lookup_value_found hl
  obtain ⟨rest, hdrop, hn1, hall⟩ :=
    chain_lookup_walk (i := 0) hc (Nat.zero_le _) (by simpa using hwalk) hn
  have hd : toks = T.preorder.filterMap Term.token ++ rest := by simpa using hdrop
  have hj : (T.preorder.filterMap Term.token).length ≤ toks.length := by
    rw [hd, List.length_append]; omega
  have hnode : n = t.root + (T.preorder.filterMap Term.token).length := by omega
  obtain ⟨K, hm, hs, ht⟩ := hlog _ hj (by rw [← hnode, hval]; exact hV0)
  rw [← hnode, hval] at hm
  have htake : toks.take (T.preorder.filterMap Term.token).length =
      T.preorder.filterMap Term.token := by
    rw [hd, List.take_left']
    rfl
  rw [htake] at ht
  rw [← tokens_injective K T hs (supported_of_tokens T hall) ht]
  exact hm

theorem chain_lookup_assert {r : Nat} {ps : List Term} :
    ∀ {h : Heap} {toks rest : List word} {i : Nat}, Chain h r toks → i ≤ toks.length →
      toks.drop i = ps.filterMap Term.token ++ rest → (∃ p ∈ ps, p.token = none) →
      lookup_walk h (r + i) ps = .assert_failed h := by
  induction ps with
  | nil => intro h toks rest i _ _ _ ⟨p, hp, _⟩; simp at hp
  | cons q ps ih =>
    intro h toks rest i hc hi hd ⟨p, hp, ht⟩
    have hri : r + i ≠ NULL := by
      have := hc.pos
      simp only [NULL]; omega
    simp only [lookup_walk, if_neg hri]
    cases hq : q.token with
    | none => rfl
    | some w =>
      simp only []
      have hmem : p ∈ ps := by
        rcases List.mem_cons.mp hp with e0 | hm
        · rw [e0, hq] at ht; exact absurd ht (by simp)
        · exact hm
      simp only [List.filterMap_cons, hq, List.cons_append] at hd
      have hlt : i < toks.length := by
        by_contra hcon
        rw [List.drop_eq_nil_of_le (by omega)] at hd
        exact absurd hd (by simp)
      rw [List.drop_eq_getElem_cons hlt] at hd
      injection hd with hw hd
      have hch := hc.link i w (by rw [List.getElem?_eq_getElem hlt, hw])
      have hg : get_child h (r + i) w = r + (i + 1) := by
        rw [get_child_eq, hch]
        simp [trie_children.child_of]
        omega
      rw [hg]
      exact ih hc hlt hd ⟨p, hmem, ht⟩

theorem chain_reach {h : Heap} {r : Nat} {toks : List word} (hc : Chain h r toks) :
    ∀ (ws rest : List word) (i : Nat), i ≤ toks.length → toks.drop i = ws ++ rest →
      reach h (r + i) ws = r + i + ws.length
  | [], _, i, _, _ => by simp [reach]
  | w :: ws, rest, i, hi, hd => by
    have hlt : i < toks.length := by
      by_contra hcon
      rw [List.drop_eq_nil_of_le (by omega)] at hd
      exact absurd hd (by simp)
    rw [List.drop_eq_getElem_cons hlt] at hd
    simp only [List.cons_append] at hd
    injection hd with hw hd
    have hch := hc.link i w (by rw [List.getElem?_eq_getElem hlt, hw])
    have hg : get_child h (r + i) w = r + (i + 1) := by
      rw [get_child_eq, hch]
      simp [trie_children.child_of]
      omega
    simp only [reach, hg]
    rw [chain_reach hc ws rest (i + 1) hlt hd]
    simp only [List.length_cons]
    omega

theorem unblocked_walk_of_null {h : Heap} {node : Nat} (hn : (h.node node).children = .null)
    (ps : List Term) : unblocked_walk h node ps = true := by
  cases ps with
  | nil => rfl
  | cons p ps =>
    simp only [unblocked_walk]
    cases hp : p.token with
    | none => rfl
    | some w =>
      have hg : get_child h node w = NULL := by rw [get_child_eq, hn]; rfl
      simp only [hg, ne_eq, not_true_eq_false, if_false, hn]

theorem fresh_root_null {h0 : Heap} {t : trie} (hroot : t.root = (new_trie_node h0).1) :
    (new_trie_node h0).2.valid t.root ∧ (new_trie_node h0).2.node t.root = zero_node := by
  rw [hroot]
  constructor
  · exact valid_of (Nat.succ_pos _) (by rw [length_new_trie_node]; rfl)
  · rw [node_new_trie_node]
    exact node_of_not_valid _ _ (not_valid_of_lt (Nat.lt_succ_self _))

/-- C14 (the tokens of a key in pre-order), amended.  For every term, heap and node: the
tokens that the loop of `trie_insert` hands to `follow_node`, and the tokens that the
loop of `trie_lookup` hands to `get_child`, are the first tokens of the pre-order
sequence of the term; they are the whole sequence when the loop of `trie_insert`
returns, and when the loop of `trie_lookup` returns a node, so that the two
operations then take the same tokens; and the loop of `trie_insert` does return
with the whole sequence for a term built only from atoms and compound terms whose
walk in a well-formed heap does not come to a `TN_KEY` node with another key.  The
loops with the record of the tokens have the outcome of the loops without it. -/
theorem decomposition_is_preorder (k : Term) (fuel : Nat) (h : Heap) (node : Nat) :
    (trie_insert_loop_tokens (k.size + 1) fuel h node (initTermAgenda k)).2
      = trie_insert_loop (k.size + 1) fuel h node (initTermAgenda k) ∧
    (trie_lookup_loop_tokens (k.size + 1) h node (initTermAgenda k)).2
      = trie_lookup_loop (k.size + 1) h node (initTermAgenda k) ∧
    (∃ rest, k.spec_tokens =
      (trie_insert_loop_tokens (k.size + 1) fuel h node (initTermAgenda k)).1 ++ rest) ∧
    (∀ n h1, (trie_insert_loop_tokens (k.size + 1) fuel h node (initTermAgenda k)).2
        = .ok n h1 →
      (trie_insert_loop_tokens (k.size + 1) fuel h node (initTermAgenda k)).1
        = k.spec_tokens) ∧
    (∃ rest, k.spec_tokens =
      (trie_lookup_loop_tokens (k.size + 1) h node (initTermAgenda k)).1 ++ rest) ∧
    (∀ n h1, (trie_lookup_loop_tokens (k.size + 1) h node (initTermAgenda k)).2 = .ok n h1 →
      n ≠ NULL →
      (trie_lookup_loop_tokens (k.size + 1) h node (initTermAgenda k)).1 = k.spec_tokens) ∧
    (k.supported = true → h.wf → h.valid node → unblocked_walk h node k.preorder = true →
      ∃ n h1, trie_insert_loop_tokens (k.size + 1) (fuel + 1) h node (initTermAgenda k)
        = (k.spec_tokens, .ok n h1)) := by
  have hsz : sizeList (initTermAgenda k) < k.size + 1 := by simp [initTermAgenda, sizeList]
  have hpre : (preorderList (initTermAgenda k)).filterMap Term.token = k.spec_tokens := by
    rw [initTermAgenda, preorderList_singleton, spec_tokens_eq]
  have hi := trie_insert_loop_tokens_fst fuel _ h node _ hsz
  have hl := trie_lookup_loop_tokens_fst _ h node _ hsz
  rw [hpre] at hi hl
  refine ⟨trie_insert_loop_tokens_snd fuel _ h node _, trie_lookup_loop_tokens_snd _ h node _,
    hi.1, hi.2, hl.1, hl.2, ?_⟩
  intro hk hw hv hu
  obtain ⟨n, h1, hwk⟩ := insert_walk_returns fuel hw hv (token_of_supported k hk) hu
  have hsnd : (trie_insert_loop_tokens (k.size + 1) (fuel + 1) h node (initTermAgenda k)).2
      = .ok n h1 := by
    rw [trie_insert_loop_tokens_snd, trie_insert_loop_key, hwk]
  have hfst := (trie_insert_loop_tokens_fst (fuel + 1) _ h node _ hsz).2 n h1 hsnd
  rw [hpre] at hfst
  exact ⟨n, h1, Prod.ext hfst hsnd⟩

/-- Counterexample to C14 as stated: for the ground term `f(1, a)` the loop of `trie_insert`
in a fresh trie takes the token `f/2` alone and stops at the assertion, where the
pre-order sequence goes on with `a`; and for the term `f(a)` the loop of `trie_lookup`
in a fresh trie takes the token `f/1` alone, where the pre-order sequence is `f/1`, `a`. -/
theorem decomposition_counterexample :
    (Term.compound 7 [.integer 1, .atom 1]).ground = true ∧
    (Term.compound 7 [.integer 1, .atom 1]).spec_tokens = [.functor 7 2, .atom 1] ∧
    trie_insert_loop_tokens ((Term.compound 7 [.integer 1, .atom 1]).size + 1) 1
        ⟨[zero_node], []⟩ 1 (initTermAgenda (.compound 7 [.integer 1, .atom 1]))
      = ([.functor 7 2], .assert_failed ⟨[⟨.key (.functor 7 2) 2, .zero⟩, zero_node], []⟩) ∧
    (Term.compound 7 [.atom 1]).spec_tokens = [.functor 7 1, .atom 1] ∧
    trie_lookup_loop_tokens ((Term.compound 7 [.atom 1]).size + 1)
        ⟨[zero_node], []⟩ 1 (initTermAgenda (.compound 7 [.atom 1]))
      = ([.functor 7 1], .ok NULL ⟨[zero_node], []⟩) := by
  decide

/-! ## The calls of `get_child` that `trie_lookup` makes -/

theorem length_preorderList : ∀ (ts : List Term), (preorderList ts).length = sizeList ts
  | [] => rfl
  | .compound name args :: ts => by
    simp only [preorderList, Term.preorder, List.cons_append, List.length_cons,
      List.length_append, sizeList, Term.size]
    rw [length_preorderList args, length_preorderList ts]
    omega
  | .atom _ :: ts => by
    simp only [preorderList, Term.preorder, List.singleton_append, List.length_cons,
      sizeList, Term.size]
    rw [length_preorderList ts]; omega
  | .var _ :: ts => by
    simp only [preorderList, Term.preorder, List.singleton_append, List.length_cons,
      sizeList, Term.size]
    rw [length_preorderList ts]; omega
  | .integer _ :: ts => by
    simp only [preorderList, Term.preorder, List.singleton_append, List.length_cons,
      sizeList, Term.size]
    rw [length_preorderList ts]; omega
  | .bignum _ :: ts => by
    simp only [preorderList, Term.preorder, List.singleton_append, List.length_cons,
      sizeList, Term.size]
    rw [length_preorderList ts]; omega
  | .float _ :: ts => by
    simp only [preorderList, Term.preorder, List.singleton_append, List.length_cons,
      sizeList, Term.size]
    rw [length_preorderList ts]; omega
  | .string _ :: ts => by
    simp only [preorderList, Term.preorder, List.singleton_append, List.length_cons,
      sizeList, Term.size]
    rw [length_preorderList ts]; omega

theorem length_preorder (k : Term) : k.preorder.length = k.size := by
  rw [← preorderList_singleton, length_preorderList, sizeList_singleton]

theorem trie_lookup_loop_tokens_stop :
    ∀ (gas : Nat) (h : Heap) (node : Nat) (agenda : term_agenda), sizeList agenda < gas →
      ∀ (ws : List word) (out : Outcome Nat),
        trie_lookup_loop_tokens gas h node agenda = (ws, out) →
        out ≠ .timeout ∧
        (∀ i, i < ws.length → reach h node (ws.take i) ≠ NULL) ∧
        (reach h node ws = NULL → out = .ok NULL h) ∧
        (∀ n h1, out = .ok n h1 → n = reach h node ws ∧ h1 = h) := by
  intro gas
  induction gas with
  | zero => intro h node agenda hg; exact absurd hg (Nat.not_lt_zero _)
  | succ gas ih =>
    intro h node agenda hg ws out e
    by_cases hn : node = NULL
    · simp only [trie_lookup_loop_tokens, if_pos hn] at e
      injection e with e1 e2
      subst e1 e2
      refine ⟨by simp, fun i hi => absurd hi (by simp), fun _ => by rw [hn], ?_⟩
      intro n h1 e
      injection e with e1 e2
      exact ⟨e1.symm, e2.symm⟩
    · cases agenda with
      | nil =>
        simp only [trie_lookup_loop_tokens, if_neg hn, nextTermAgenda] at e
        injection e with e1 e2
        subst e1 e2
        refine ⟨by simp, fun i hi => absurd hi (by simp), fun hr => absurd hr hn, ?_⟩
        intro n h1 e
        injection e with e1 e2
        exact ⟨e1.symm, e2.symm⟩
      | cons p rest =>
        cases p with
        | atom a =>
          have hs : sizeList rest < gas := by
            simp only [sizeList, Term.size] at hg; omega
          simp only [trie_lookup_loop_tokens, if_neg hn, nextTermAgenda] at e
          injection e with e1 e2
          obtain ⟨i1, i2, i3, i4⟩ := ih h (get_child h node (.atom a)) rest hs _ _ rfl
          subst e1 e2
          refine ⟨i1, ?_, i3, i4⟩
          intro i hi
          cases i with
          | zero => exact hn
          | succ j =>
            simp only [List.take_succ_cons, reach]
            exact i2 j (by simpa using hi)
        | compound name args =>
          have hs : sizeList (pushWorkAgenda rest args) < gas := by
            simp only [sizeList, Term.size] at hg
            simp only [pushWorkAgenda, sizeList_append]; omega
          simp only [trie_lookup_loop_tokens, if_neg hn, nextTermAgenda] at e
          injection e with e1 e2
          obtain ⟨i1, i2, i3, i4⟩ :=
            ih h (get_child h node (.functor name args.length)) _ hs _ _ rfl
          subst e1 e2
          refine ⟨i1, ?_, i3, i4⟩
          intro i hi
          cases i with
          | zero => exact hn
          | succ j =>
            simp only [List.take_succ_cons, reach]
            exact i2 j (by simpa using hi)
        | var i =>
          simp only [trie_lookup_loop_tokens, if_neg hn, nextTermAgenda] at e
          injection e with e1 e2
          subst e1 e2
          exact ⟨by simp, fun i hi => absurd hi (by simp), fun hr => absurd hr hn,
            fun n h1 e => absurd e (by simp)⟩
        | integer i =>
          simp only [trie_lookup_loop_tokens, if_neg hn, nextTermAgenda] at e
          injection e with e1 e2
          subst e1 e2
          exact ⟨by simp, fun i hi => absurd hi (by simp), fun hr => absurd hr hn,
            fun n h1 e => absurd e (by simp)⟩
        | bignum i =>
          simp only [trie_lookup_loop_tokens, if_neg hn, nextTermAgenda] at e
          injection e with e1 e2
          subst e1 e2
          exact ⟨by simp, fun i hi => absurd hi (by simp), fun hr => absurd hr hn,
            fun n h1 e => absurd e (by simp)⟩
        | float i =>
          simp only [trie_lookup_loop_tokens, if_neg hn, nextTermAgenda] at e
          injection e with e1 e2
          subst e1 e2
          exact ⟨by simp, fun i hi => absurd hi (by simp), fun hr => absurd hr hn,
            fun n h1 e => absurd e (by simp)⟩
        | string i =>
          simp only [trie_lookup_loop_tokens, if_neg hn, nextTermAgenda] at e
          injection e with e1 e2
          subst e1 e2
          exact ⟨by simp, fun i hi => absurd hi (by simp), fun hr => absurd hr hn,
            fun n h1 e => absurd e (by simp)⟩

/-- C21 (`get_child` is the lookup in the children of the node).  For every heap, node and
token: `get_child` yields `NULL` when the node has no children record; with a `TN_KEY`
record it yields the child of the record for the key of the record and `NULL` for every
other token; with a `TN_HASHED` record it yields what `lookupHTable` finds in the table
of the record.  The function yields a pointer and no heap: it writes nothing. -/
theorem get_child_is_lookup (h : Heap) (n : Nat) (key : word) :
    get_child h n key = (h.node n).children.child_of key ∧
    ((h.node n).children = .null → get_child h n key = NULL) ∧
    (∀ k c, (h.node n).children = .key k c →
      get_child h n k = c ∧ (key ≠ k → get_child h n key = NULL)) ∧
    (∀ table, (h.node n).children = .hashed table →
      get_child h n key = lookupHTable table key) := by
  refine ⟨get_child_eq h n key, ?_, ?_, ?_⟩
  · intro e
    rw [get_child_eq, e]; rfl
  · intro k c e
    constructor
    · rw [get_child_eq, e]; simp [trie_children.child_of]
    · intro hne
      rw [get_child_eq, e]
      simp only [trie_children.child_of]
      rw [if_neg (fun e2 => hne e2.symm)]
  · intro table e
    rw [get_child_eq, e]; rfl

/-- C22 (termination of `trie_lookup`).  For every heap, trie and key, `trie_lookup` ends
within the iterations it is given, one for every sub-term of the key and one more:
it returns or stops at the assertion, and it returns when the key is built only from
atoms and compound terms.  The tokens it hands to `get_child`, one call each, are the
first tokens of the pre-order sequence of the key, so there are no more calls than
tokens; every call but the last one found a child, and when the last call finds none
no further token is taken and the result is `NULL`, which the predicate answers by
failing. -/
theorem trie_lookup_terminates (h : Heap) (t : trie) (k : Term) :
    trie_lookup h t k ≠ .timeout ∧
    (trie_lookup_loop_tokens (k.size + 1) h t.root (initTermAgenda k)).2 = trie_lookup h t k ∧
    (∃ rest, k.spec_tokens =
      (trie_lookup_loop_tokens (k.size + 1) h t.root (initTermAgenda k)).1 ++ rest) ∧
    (trie_lookup_loop_tokens (k.size + 1) h t.root (initTermAgenda k)).1.length
      ≤ k.spec_tokens.length ∧
    k.spec_tokens.length ≤ k.size ∧
    (∀ i, i < (trie_lookup_loop_tokens (k.size + 1) h t.root (initTermAgenda k)).1.length →
      reach h t.root
        ((trie_lookup_loop_tokens (k.size + 1) h t.root (initTermAgenda k)).1.take i)
        ≠ NULL) ∧
    (reach h t.root (trie_lookup_loop_tokens (k.size + 1) h t.root (initTermAgenda k)).1
        = NULL →
      trie_lookup h t k = .ok NULL h ∧ trie_lookup_value h t k = .ok none h) ∧
    (k.supported = true → ∃ n, trie_lookup h t k = .ok n h) := by
  have hsz : sizeList (initTermAgenda k) < k.size + 1 := by simp [initTermAgenda, sizeList]
  have hsnd : (trie_lookup_loop_tokens (k.size + 1) h t.root (initTermAgenda k)).2 =
      trie_lookup h t k := by
    rw [trie_lookup_loop_tokens_snd]; rfl
  obtain ⟨s1, s2, s3, _⟩ :=
    trie_lookup_loop_tokens_stop (k.size + 1) h t.root (initTermAgenda k) hsz
      (trie_lookup_loop_tokens (k.size + 1) h t.root (initTermAgenda k)).1
      (trie_lookup_loop_tokens (k.size + 1) h t.root (initTermAgenda k)).2 rfl
  have hp : preorderList (initTermAgenda k) = k.preorder := preorderList_singleton k
  have hpre := (trie_lookup_loop_tokens_fst (k.size + 1) h t.root (initTermAgenda k) hsz).1
  rw [hp, ← spec_tokens_eq] at hpre
  have hlen : k.spec_tokens.length ≤ k.size := by
    rw [spec_tokens_eq]
    exact Nat.le_trans (List.length_filterMap_le _ _) (Nat.le_of_eq (length_preorder k))
  refine ⟨by rw [← hsnd]; exact s1, hsnd, hpre, ?_, hlen, s2, ?_, ?_⟩
  · obtain ⟨rest, hr⟩ := hpre
    have := congrArg List.length hr
    rw [List.length_append] at this
    omega
  · intro hr
    have e := s3 hr
    rw [hsnd] at e
    refine ⟨e, ?_⟩
    unfold trie_lookup_value
    rw [e]
    simp
  · intro hk
    rw [trie_lookup_eq_walk]
    exact lookup_walk_ok_of_tokens h t.root (token_of_supported k hk)

/-! ## Walks along the chain and past its end -/

theorem chain_fresh {h0 : Heap} {t : trie} (hroot : t.root = (new_trie_node h0).1) :
    Chain (new_trie_node h0).2 t.root [] where
  pos := by rw [hroot]; exact Nat.succ_pos _
  len := by rw [hroot, length_new_trie_node]; rfl
  link := fun i w e => by simp at e
  last := by
    simp only [List.length_nil, Nat.add_zero]
    rw [(fresh_root_null hroot).2]; rfl

theorem chain_extend (fuel : Nat) {h : Heap} {r : Nat} {toks : List word} (w : word)
    (hc : Chain h r toks) :
    ∃ h1, follow_node (fuel + 1) h (r + toks.length) w = .ok (r + toks.length + 1) h1 ∧
      Chain h1 r (toks ++ [w]) := by
  have hg : get_child h (r + toks.length) w = NULL := by
    rw [get_child_eq, hc.last]; rfl
  have hv : h.valid (r + toks.length) := chain_valid hc (Nat.le_refl _)
  have hnode := node_grow h (r + toks.length) (.key w (h.nodes.length + 1)) hv
  refine ⟨(new_trie_node h).2.setChildren (r + toks.length) (.key w (h.nodes.length + 1)),
    ?_, ⟨hc.pos, ?_, ?_, ?_⟩⟩
  · unfold follow_node
    simp only [hg, ne_eq, not_true_eq_false, if_false]
    rw [insert_child_null fuel h _ w hc.last, hc.len]
  · rw [length_grow, hc.len, List.length_append]; simp; omega
  · intro j k hj
    rw [hnode]
    rcases Nat.lt_trichotomy j toks.length with hlt | heq | hgt
    · rw [List.getElem?_append_left hlt] at hj
      rw [if_neg (by omega)]
      exact hc.link j k hj
    · subst heq
      rw [List.getElem?_append_right (Nat.le_refl _)] at hj
      simp at hj
      rw [if_pos rfl, hj, hc.len]
    · rw [List.getElem?_eq_none (by simp; omega)] at hj
      exact absurd hj (by simp)
  · rw [hnode, if_neg (by simp),
      node_of_not_valid h _ (not_valid_of_lt (by rw [hc.len]; simp))]
    rfl

theorem chain_extend_walk (fuel : Nat) {r : Nat} :
    ∀ (ps : List Term) {h : Heap} {toks : List word}, (∀ p ∈ ps, p.token ≠ none) →
      Chain h r toks →
      ∃ h1, insert_walk (fuel + 1) h (r + toks.length) ps =
          .ok (r + toks.length + (ps.filterMap Term.token).length) h1 ∧
        Chain h1 r (toks ++ ps.filterMap Term.token)
  | [], h, toks, _, hc => ⟨h, by simp [insert_walk], by simpa using hc⟩
  | p :: ps, h, toks, ht, hc => by
    cases hp : p.token with
    | none => exact absurd hp (ht p (List.mem_cons_self _ _))
    | some w =>
      obtain ⟨hm, hf, hcm⟩ := chain_extend fuel w hc
      obtain ⟨h1, hwk, hc1⟩ :=
        chain_extend_walk fuel ps (fun q hq => ht q (List.mem_cons_of_mem _ hq)) hcm
      refine ⟨h1, ?_, ?_⟩
      · rw [insert_walk_cons_ok hp hf]
        simp only [List.length_append, List.length_singleton] at hwk
        rw [Nat.add_assoc r, hwk]
        simp only [List.filterMap_cons, hp, List.length_cons]
        congr 1
        omega
      · simp only [List.filterMap_cons, hp]
        simpa using hc1

theorem chain_insert_walk_timeout {fuel : Nat} {r : Nat} :
    ∀ (ps : List Term) {h : Heap} {toks : List word} {i : Nat}, Chain h r toks →
      i ≤ toks.length → (∀ p ∈ ps, p.token ≠ none) →
      ¬ (ps.filterMap Term.token <+: toks.drop i) →
      ¬ (toks.drop i <+: ps.filterMap Term.token) →
      insert_walk fuel h (r + i) ps = .timeout
  | [], h, toks, i, _, _, _, h1, _ => absurd (by simp) h1
  | p :: ps, h, toks, i, hc, hi, ht, h1, h2 => by
    cases hp : p.token with
    | none => exact absurd hp (ht p (List.mem_cons_self _ _))
    | some w =>
      have hlt : i < toks.length := by
        by_contra hcon
        rw [List.drop_eq_nil_of_le (by omega)] at h2
        exact h2 (List.nil_prefix)
      have hd : toks.drop i = toks[i] :: toks.drop (i + 1) := List.drop_eq_getElem_cons hlt
      have hch := hc.link i _ (List.getElem?_eq_getElem hlt)
      simp only [List.filterMap_cons, hp, hd] at h1 h2
      by_cases hwk : toks[i] = w
      · have hg : get_child h (r + i) w = r + (i + 1) := by
          rw [get_child_eq, hch]
          simp [trie_children.child_of, hwk]
          omega
        rw [insert_walk_cons_ok hp (follow_node_found hg (by simp [NULL]))]
        rw [hwk] at h1 h2
        exact chain_insert_walk_timeout ps hc hlt
          (fun q hq => ht q (List.mem_cons_of_mem _ hq))
          (fun e => h1 ((List.prefix_cons_inj w).mpr e))
          (fun e => h2 ((List.prefix_cons_inj w).mpr e))
      · have hg : get_child h (r + i) w = NULL := by
          rw [get_child_eq, hch]
          simp [trie_children.child_of, hwk]
        exact insert_walk_cons_timeout hp (follow_node_key hg hch)

/-! ## No token sequence of a key goes on as that of another key -/

theorem tokens_prefix_eq (T1 T2 : Term) (h1 : T1.supported = true) (h2 : T2.supported = true)
    (rest : List word)
    (e : T2.preorder.filterMap Term.token = T1.preorder.filterMap Term.token ++ rest) :
    T1 = T2 ∧ rest = [] := by
  have := tokens_injective_aux [T1] [T2] rest []
    (by rw [supportedList_singleton]; exact h1) (by rw [supportedList_singleton]; exact h2) rfl
    (by simp only [preorderList_singleton, List.append_nil]; exact e.symm)
  exact ⟨by simpa using this.1, this.2⟩

theorem tokens_of_prefixes (T1 T2 : Term) (h1 : T1.supported = true) (h2 : T2.supported = true)
    (toks : List word) (p1 : T1.preorder.filterMap Term.token <+: toks)
    (p2 : T2.preorder.filterMap Term.token <+: toks) : T1 = T2 := by
  rcases Nat.le_total (T1.preorder.filterMap Term.token).length
      (T2.preorder.filterMap Term.token).length with hle | hle
  · obtain ⟨rest, hr⟩ := List.prefix_of_prefix_length_le p1 p2 hle
    exact (tokens_prefix_eq T1 T2 h1 h2 rest hr.symm).1
  · obtain ⟨rest, hr⟩ := List.prefix_of_prefix_length_le p2 p1 hle
    exact (tokens_prefix_eq T2 T1 h2 h1 rest hr.symm).1.symm

/-- In a state that calls of `trie_insert` lead to, a key that `trie_lookup` finds at a node is
built only from atoms and compound terms, and its tokens are the first tokens of the
chain, as many as the node is away from the root. -/
theorem reachable_lookup_prefix {t : trie} {h h1 : Heap} {toks : List word} {T : Term}
    {n : Nat} (hc : Chain h t.root toks) (hl : trie_lookup h t T = .ok n h1) (hn : n ≠ NULL) :
    T.supported = true ∧ T.preorder.filterMap Term.token <+: toks ∧
      n = t.root + (T.preorder.filterMap Term.token).length := by
  rw [trie_lookup_eq_walk] at hl
  obtain ⟨rest, hdrop, hn1, hall⟩ :=
    chain_lookup_walk (i := 0) hc (Nat.zero_le _) (by simpa using hl) hn
  exact ⟨supported_of_tokens T hall, ⟨rest, by simpa using hdrop.symm⟩, by omega⟩

/-- C23 (first insert into an empty trie).  In a trie as `trie_create` leaves it in a
well-formed heap, for every key `T` built only from atoms and compound terms and every
value word `V` that is not zero, `trie_insert(T, V)` returns `TRUE` and allocates one
node for every token of `T`: from the root on the nodes form a single chain of `TN_KEY`
records with the tokens of `T` in pre-order, the last node has no children, every node
before the last has no value and the last one has the value `V`; `trie_lookup(T)` then
returns that last node and the predicate yields `V`. -/
theorem first_insert_makes_chain (fuel : Nat) (h0 : Heap) (t : trie) (T : Term) (V : word)
    (hw : h0.wf) (hroot : t.root = (new_trie_node h0).1) (hT : T.supported = true)
    (hV : V ≠ .zero) :
    ∃ h1, trie_insert (fuel + 1) (new_trie_node h0).2 t T V = .ok TRUE h1 ∧
      h1.nodes.length = (new_trie_node h0).2.nodes.length + T.spec_tokens.length ∧
      Chain h1 t.root T.spec_tokens ∧
      (∀ j, j < T.spec_tokens.length → (h1.node (t.root + j)).value = .zero) ∧
      (h1.node (t.root + T.spec_tokens.length)).value = V ∧
      trie_lookup h1 t T = .ok (t.root + T.spec_tokens.length) h1 ∧
      trie_lookup_value h1 t T = .ok (some V) h1 := by
  rw [spec_tokens_eq]
  have hc0 : Chain (new_trie_node h0).2 t.root [] := chain_fresh hroot
  have hwH : (new_trie_node h0).2.wf := wf_new_trie_node hw
  have hrv : (new_trie_node h0).2.valid t.root := (fresh_root_null hroot).1
  obtain ⟨hm, hwk, hcm⟩ := chain_extend_walk fuel T.preorder (token_of_supported T hT) hc0
  simp only [List.length_nil, Nat.add_zero, List.nil_append] at hwk hcm
  obtain ⟨hwm, hnv, hx, hre⟩ := insert_walk_ok hwH hrv hwk
  have hlen0 : (new_trie_node h0).2.nodes.length = t.root := by
    have := hc0.len
    simpa using this
  have hz : ∀ j, (hm.node (t.root + j)).value = .zero := by
    intro j
    cases j with
    | zero =>
      rw [Nat.add_zero, hx.value_old _ hrv, (fresh_root_null hroot).2]
      rfl
    | succ j => exact hx.value_fresh _ (by rw [hlen0]; omega)
  have hins : trie_insert (fuel + 1) (new_trie_node h0).2 t T V =
      .ok TRUE (hm.setValue (t.root + (T.preorder.filterMap Term.token).length) V) := by
    rw [trie_insert_eq, hwk]
    simp only []
    rw [if_neg (by rw [hz]; simp)]
  have hc1 := chain_setValue hcm (t.root + (T.preorder.filterMap Term.token).length) V
  have hval : ((hm.setValue (t.root + (T.preorder.filterMap Term.token).length) V).node
      (t.root + (T.preorder.filterMap Term.token).length)).value = V := by
    rw [node_setValue_same _ _ _ hnv]
  have hlk : lookup_walk (hm.setValue (t.root + (T.preorder.filterMap Term.token).length) V)
      t.root T.preorder =
      .ok (t.root + (T.preorder.filterMap Term.token).length)
        (hm.setValue (t.root + (T.preorder.filterMap Term.token).length) V) :=
    (hre 0 _ (fun p k _ _ => get_child_setValue hm _ p V k)).2
  have hnn : t.root + (T.preorder.filterMap Term.token).length ≠ NULL :=
    Nat.pos_iff_ne_zero.mp (valid_pos hnv)
  refine ⟨_, hins, ?_, hc1, ?_, hval, ?_, ?_⟩
  · rw [hc1.len, hlen0]
  · intro j hj
    rw [node_setValue_ne _ _ _ _ (by omega)]
    exact hz j
  · rw [trie_lookup_eq_walk]
    exact hlk
  · have := trie_lookup_value_of_walk hlk hnn (by rw [hval]; exact hV)
    rw [hval] at this
    exact this

/-- Witness of C23: the key `f(a)` with the value `v` in the first trie of an empty heap. -/
theorem first_insert_makes_chain_witness :
    ∃ h1, trie_insert (0 + 1) (new_trie_node ⟨[], []⟩).2 ⟨1, TRIE_MAGIC, 0⟩
        (.compound 7 [.atom 1]) (.atom 9) = .ok TRUE h1 ∧
      h1.nodes.length = (new_trie_node ⟨[], []⟩).2.nodes.length +
        (Term.compound 7 [.atom 1]).spec_tokens.length ∧
      Chain h1 (⟨1, TRIE_MAGIC, 0⟩ : trie).root (Term.compound 7 [.atom 1]).spec_tokens ∧
      (∀ j, j < (Term.compound 7 [.atom 1]).spec_tokens.length →
        (h1.node ((⟨1, TRIE_MAGIC, 0⟩ : trie).root + j)).value = .zero) ∧
      (h1.node ((⟨1, TRIE_MAGIC, 0⟩ : trie).root +
        (Term.compound 7 [.atom 1]).spec_tokens.length)).value = .atom 9 ∧
      trie_lookup h1 ⟨1, TRIE_MAGIC, 0⟩ (.compound 7 [.atom 1]) =
        .ok ((⟨1, TRIE_MAGIC, 0⟩ : trie).root +
          (Term.compound 7 [.atom 1]).spec_tokens.length) h1 ∧
      trie_lookup_value h1 ⟨1, TRIE_MAGIC, 0⟩ (.compound 7 [.atom 1]) =
        .ok (some (.atom 9)) h1 :=
  first_insert_makes_chain 0 ⟨[], []⟩ ⟨1, TRIE_MAGIC, 0⟩ (.compound 7 [.atom 1]) (.atom 9)
    (by decide) rfl (by decide) (by decide)

/-- C24 (no token sequence of a key goes on as that of another key).  For keys `T1` and `T2`
built only from atoms and compound terms, with the tokens the walks of `trie_insert` and
`trie_lookup` take from them, atoms and functors in pre-order: when the tokens of `T1`
are the first tokens of `T2`, then `T1 = T2` and no token of `T2` is left over; so keys
with the same tokens are the same key, and in a state that calls of `trie_insert` lead
to, two keys that `trie_lookup` finds at the same node are the same key. -/
theorem tokens_prefix_free (T1 T2 : Term) (h1 : T1.supported = true)
    (h2 : T2.supported = true) :
    T1.spec_tokens = T1.preorder.filterMap Term.token ∧
    (∀ rest, T2.spec_tokens = T1.spec_tokens ++ rest → T1 = T2 ∧ rest = []) ∧
    (T1.spec_tokens = T2.spec_tokens → T1 = T2) ∧
    (∀ t h log n, Reachable t h log → trie_lookup h t T1 = .ok n h →
      trie_lookup h t T2 = .ok n h → n ≠ NULL → T1 = T2) := by
  refine ⟨spec_tokens_eq T1, ?_, ?_, ?_⟩
  · intro rest e
    rw [spec_tokens_eq, spec_tokens_eq] at e
    exact tokens_prefix_eq T1 T2 h1 h2 rest e
  · intro e
    rw [spec_tokens_eq, spec_tokens_eq] at e
    exact tokens_injective T1 T2 h1 h2 e
  · intro t h log n hr e1 e2 hn
    obtain ⟨_, toks, hc, _⟩ := reachable_chain hr
    obtain ⟨_, p1, _⟩ := reachable_lookup_prefix hc e1 hn
    obtain ⟨_, p2, _⟩ := reachable_lookup_prefix hc e2 hn
    exact tokens_of_prefixes T1 T2 h1 h2 toks p1 p2

/-- Witness of C24: the key `f(a)` taken twice. -/
theorem tokens_prefix_free_witness :
    (Term.compound 7 [.atom 1]).spec_tokens =
      (Term.compound 7 [.atom 1]).preorder.filterMap Term.token ∧
    (∀ rest, (Term.compound 7 [.atom 1]).spec_tokens =
        (Term.compound 7 [.atom 1]).spec_tokens ++ rest →
      Term.compound 7 [.atom 1] = Term.compound 7 [.atom 1] ∧ rest = []) ∧
    ((Term.compound 7 [.atom 1]).spec_tokens = (Term.compound 7 [.atom 1]).spec_tokens →
      Term.compound 7 [.atom 1] = Term.compound 7 [.atom 1]) ∧
    (∀ t h log n, Reachable t h log → trie_lookup h t (.compound 7 [.atom 1]) = .ok n h →
      trie_lookup h t (.compound 7 [.atom 1]) = .ok n h → n ≠ NULL →
      Term.compound 7 [.atom 1] = Term.compound 7 [.atom 1]) :=
  tokens_prefix_free (.compound 7 [.atom 1]) (.compound 7 [.atom 1]) (by decide) (by decide)

/-- C25 (no node is ever `Hashed`).  In every state that calls of `trie_insert` lead to from
a trie as `trie_create` leaves it, the calls that stop at the assertion included, every
node from the root on has no children record or a `TN_KEY` record, and so at most one
child; `trie_lookup` hands back the heap as it finds it, so calls of it lead to no other
state.  For a node with a `TN_KEY` record the compare-and-swap that expects `NULL` in
the slot fails and leaves the heap as it is, and `insert_child` on it never returns. -/
theorem no_node_is_hashed (t : trie) (h : Heap) (log : List (Term × word))
    (hr : Reachable t h log) :
    (∀ p, t.root ≤ p → (h.node p).children.repr = .empty ∨
      (h.node p).children.repr = .single) ∧
    (∀ p k1 k2, t.root ≤ p → get_child h p k1 ≠ NULL → get_child h p k2 ≠ NULL → k1 = k2) ∧
    (∀ K n h1, trie_lookup h t K = .ok n h1 → h1 = h) ∧
    (∀ K h1, trie_lookup h t K = .assert_failed h1 → h1 = h) ∧
    (∀ p w c new, (h.node p).children = .key w c →
      COMPARE_AND_SWAP h p .null new = (false, h)) ∧
    (∀ fuel p key, (h.node p).children.repr = .single →
      insert_child fuel h p key = .timeout) := by
  obtain ⟨_, toks, hc, _⟩ := reachable_chain hr
  have hrepr : ∀ p, t.root ≤ p → (h.node p).children.repr = .empty ∨
      (h.node p).children.repr = .single := by
    intro p hp
    obtain ⟨i, hi⟩ : ∃ i, p = t.root + i := ⟨p - t.root, by omega⟩
    subst hi
    rcases Nat.lt_trichotomy i toks.length with hlt | heq | hgt
    · rw [hc.link i _ (List.getElem?_eq_getElem hlt)]
      exact Or.inr rfl
    · rw [heq, hc.last]
      exact Or.inl rfl
    · rw [node_of_not_valid h _ (not_valid_of_lt (by rw [hc.len]; omega))]
      exact Or.inl rfl
  refine ⟨hrepr, ?_, ?_, ?_, ?_, ?_⟩
  · intro p k1 k2 hp g1 g2
    rw [get_child_eq] at g1 g2
    cases hch : (h.node p).children with
    | null => rw [hch] at g1; exact absurd rfl g1
    | hashed table =>
      rcases hrepr p hp with e | e
      · rw [hch] at e; exact absurd e (by simp [trie_children.repr])
      · rw [hch] at e; exact absurd e (by simp [trie_children.repr])
    | key w c =>
      rw [hch] at g1 g2
      simp only [trie_children.child_of] at g1 g2
      have e1 : w = k1 := by
        by_contra hne
        rw [if_neg hne] at g1
        exact g1 rfl
      have e2 : w = k2 := by
        by_contra hne
        rw [if_neg hne] at g2
        exact g2 rfl
      rw [← e1, ← e2]
  · intro K n h1 e
    rw [trie_lookup_eq_walk] at e
    exact lookup_walk_heap_ok e
  · intro K h1 e
    rw [trie_lookup_eq_walk] at e
    exact lookup_walk_heap_assert e
  · intro p w c new e
    unfold COMPARE_AND_SWAP
    rw [e, if_neg (by simp)]
  · intro fuel p key e
    cases hch : (h.node p).children with
    | null => rw [hch] at e; exact absurd e (by simp [trie_children.repr])
    | hashed table => rw [hch] at e; exact absurd e (by simp [trie_children.repr])
    | key w c => exact insert_child_key fuel h p key w c hch

/-- Witness of C25: the trie that holds the key `a` with the value `v`, reached from the
empty heap by one call of `trie_insert`. -/
theorem no_node_is_hashed_witness :
    (∀ p, (⟨1, TRIE_MAGIC, 0⟩ : trie).root ≤ p →
      ((⟨[⟨.key (.atom 1) 2, .zero⟩, ⟨.null, .atom 9⟩], []⟩ : Heap).node p).children.repr
        = .empty ∨
      ((⟨[⟨.key (.atom 1) 2, .zero⟩, ⟨.null, .atom 9⟩], []⟩ : Heap).node p).children.repr
        = .single) ∧
    (∀ p k1 k2, (⟨1, TRIE_MAGIC, 0⟩ : trie).root ≤ p →
      get_child ⟨[⟨.key (.atom 1) 2, .zero⟩, ⟨.null, .atom 9⟩], []⟩ p k1 ≠ NULL →
      get_child ⟨[⟨.key (.atom 1) 2, .zero⟩, ⟨.null, .atom 9⟩], []⟩ p k2 ≠ NULL → k1 = k2) ∧
    (∀ K n h1, trie_lookup ⟨[⟨.key (.atom 1) 2, .zero⟩, ⟨.null, .atom 9⟩], []⟩
        ⟨1, TRIE_MAGIC, 0⟩ K = .ok n h1 →
      h1 = ⟨[⟨.key (.atom 1) 2, .zero⟩, ⟨.null, .atom 9⟩], []⟩) ∧
    (∀ K h1, trie_lookup ⟨[⟨.key (.atom 1) 2, .zero⟩, ⟨.null, .atom 9⟩], []⟩
        ⟨1, TRIE_MAGIC, 0⟩ K = .assert_failed h1 →
      h1 = ⟨[⟨.key (.atom 1) 2, .zero⟩, ⟨.null, .atom 9⟩], []⟩) ∧
    (∀ p w c new,
      ((⟨[⟨.key (.atom 1) 2, .zero⟩, ⟨.null, .atom 9⟩], []⟩ : Heap).node p).children
        = .key w c →
      COMPARE_AND_SWAP ⟨[⟨.key (.atom 1) 2, .zero⟩, ⟨.null, .atom 9⟩], []⟩ p .null new =
        (false, ⟨[⟨.key (.atom 1) 2, .zero⟩, ⟨.null, .atom 9⟩], []⟩)) ∧
    (∀ fuel p key,
      ((⟨[⟨.key (.atom 1) 2, .zero⟩, ⟨.null, .atom 9⟩], []⟩ : Heap).node p).children.repr
        = .single →
      insert_child fuel ⟨[⟨.key (.atom 1) 2, .zero⟩, ⟨.null, .atom 9⟩], []⟩ p key
        = .timeout) :=
  no_node_is_hashed ⟨1, TRIE_MAGIC, 0⟩ ⟨[⟨.key (.atom 1) 2, .zero⟩, ⟨.null, .atom 9⟩], []⟩
    [(Term.atom 1, word.atom 9)]
    (Reachable.insert_ok ⟨[zero_node], []⟩ _ [] 1 (.atom 1) (.atom 9) TRUE
      (Reachable.fresh ⟨[], []⟩ (by decide) rfl) (by decide))

/-- C26 (at most one stored key).  In every state that calls of `trie_insert` lead to from a
trie as `trie_create` leaves it, when `trie_lookup` finds a value for `T1` and a value
for `T2`, then `T1 = T2` and the values are the same; the key is built only from atoms
and compound terms, and `trie_insert` of any other such key never returns, whatever the
fuel: its walk comes to a node with a `TN_KEY` record that holds another token. -/
theorem at_most_one_stored_key (t : trie) (h : Heap) (log : List (Term × word))
    (T1 T2 : Term) (V1 V2 : word) (hr : Reachable t h log)
    (e1 : trie_lookup_value h t T1 = .ok (some V1) h)
    (e2 : trie_lookup_value h t T2 = .ok (some V2) h) :
    T1 = T2 ∧ V1 = V2 ∧ T1.supported = true ∧
    (∀ fuel K V, K.supported = true → K ≠ T1 → trie_insert fuel h t K V = .timeout) := by
  obtain ⟨_, toks, hc, _⟩ := reachable_chain hr
  obtain ⟨n1, hw1, hn1, _, _, _⟩ := trie_lookup_value_found e1
  obtain ⟨n2, hw2, hn2, _, _, _⟩ := trie_lookup_value_found e2
  obtain ⟨s1, p1, _⟩ := reachable_lookup_prefix (T := T1) hc
    (by rw [trie_lookup_eq_walk]; exact hw1) hn1
  obtain ⟨s2, p2, _⟩ := reachable_lookup_prefix (T := T2) hc
    (by rw [trie_lookup_eq_walk]; exact hw2) hn2
  have hT : T1 = T2 := tokens_of_prefixes T1 T2 s1 s2 toks p1 p2
  refine ⟨hT, ?_, s1, ?_⟩
  · subst hT
    rw [e1] at e2
    injection e2 with e2 _
    injection e2
  · intro fuel K V hK hne
    rw [trie_insert_eq]
    have hto : insert_walk fuel h (t.root + 0) K.preorder = .timeout := by
      apply chain_insert_walk_timeout K.preorder hc (Nat.zero_le _) (token_of_supported K hK)
      · intro p
        exact hne (tokens_of_prefixes K T1 hK s1 toks (by simpa using p) p1)
      · intro p
        obtain ⟨rest, hrest⟩ := List.IsPrefix.trans p1 (by simpa using p)
        exact hne (tokens_prefix_eq T1 K s1 hK rest hrest.symm).1.symm
    rw [Nat.add_zero] at hto
    rw [hto]

/-- Witness of C26: the trie that holds the key `a` with the value `v`, reached from the
empty heap by one call of `trie_insert`, and the key `a` looked up twice. -/
theorem at_most_one_stored_key_witness :
    Term.atom 1 = Term.atom 1 ∧ word.atom 9 = word.atom 9 ∧
    (Term.atom 1).supported = true ∧
    (∀ fuel K V, K.supported = true → K ≠ Term.atom 1 →
      trie_insert fuel ⟨[⟨.key (.atom 1) 2, .zero⟩, ⟨.null, .atom 9⟩], []⟩
        ⟨1, TRIE_MAGIC, 0⟩ K V = .timeout) :=
  at_most_one_stored_key ⟨1, TRIE_MAGIC, 0⟩
    ⟨[⟨.key (.atom 1) 2, .zero⟩, ⟨.null, .atom 9⟩], []⟩
    [(Term.atom 1, word.atom 9)] (.atom 1) (.atom 1) (.atom 9) (.atom 9)
    (Reachable.insert_ok ⟨[zero_node], []⟩ _ [] 1 (.atom 1) (.atom 9) TRUE
      (Reachable.fresh ⟨[], []⟩ (by decide) rfl) (by decide))
    (by decide) (by decide)

/-! ## No decomposition of a key goes on as that of another key -/

theorem decomposition_list_cons {t : Term} {ts : List Term} {a : List EdgeToken}
    (e : decomposition_list (t :: ts) = .ok a) :
    ∃ b c, t.decomposition = .ok b ∧ decomposition_list ts = .ok c ∧ a = b ++ c := by
  simp only [decomposition_list] at e
  cases hb : t.decomposition with
  | error x => rw [hb] at e; exact absurd e (by simp)
  | ok b =>
    rw [hb] at e
    simp only [] at e
    cases hc : decomposition_list ts with
    | error x => rw [hc] at e; exact absurd e (by simp)
    | ok c =>
      rw [hc] at e
      simp only [Except.ok.injEq] at e
      exact ⟨b, c, rfl, rfl, e.symm⟩

theorem decomposition_compound {name : Nat} {args : List Term} {b : List EdgeToken}
    (e : (Term.compound name args).decomposition = .ok b) :
    ∃ c, decomposition_list args = .ok c ∧ b = .functor name args.length :: c := by
  simp only [Term.decomposition] at e
  cases hc : decomposition_list args with
  | error x => rw [hc] at e; exact absurd e (by simp)
  | ok c =>
    rw [hc] at e
    simp only [Except.ok.injEq] at e
    exact ⟨c, rfl, e.symm⟩

theorem decomposition_injective_aux :
    ∀ (ts1 ts2 : List Term) (a1 a2 s1 s2 : List EdgeToken),
      decomposition_list ts1 = .ok a1 → decomposition_list ts2 = .ok a2 →
      ts1.length = ts2.length → a1 ++ s1 = a2 ++ s2 → ts1 = ts2 ∧ s1 = s2
  | [], [], a1, a2, s1, s2, h1, h2, _, e => by
    simp only [decomposition_list, Except.ok.injEq] at h1 h2
    subst h1 h2
    exact ⟨rfl, by simpa using e⟩
  | [], _ :: _, _, _, _, _, _, _, hl, _ => by simp at hl
  | _ :: _, [], _, _, _, _, _, _, hl, _ => by simp at hl
  | t1 :: r1, t2 :: r2, a1, a2, s1, s2, h1, h2, hl, e => by
    obtain ⟨b1, c1, hb1, hc1, rfl⟩ := decomposition_list_cons h1
    obtain ⟨b2, c2, hb2, hc2, rfl⟩ := decomposition_list_cons h2
    simp only [List.length_cons, Nat.add_right_cancel_iff] at hl
    simp only [List.append_assoc] at e
    cases t1 with
    | var i => simp [Term.decomposition] at hb1
    | float i => simp [Term.decomposition] at hb1
    | compound f args1 =>
      obtain ⟨d1, hd1, rfl⟩ := decomposition_compound hb1
      cases t2 with
      | var i => simp [Term.decomposition] at hb2
      | float i => simp [Term.decomposition] at hb2
      | compound g args2 =>
        obtain ⟨d2, hd2, rfl⟩ := decomposition_compound hb2
        simp only [List.cons_append, List.cons.injEq, EdgeToken.functor.injEq] at e
        obtain ⟨⟨hfg, hlen⟩, e2⟩ := e
        obtain ⟨hargs, hrest⟩ := decomposition_injective_aux args1 args2 d1 d2
          (c1 ++ s1) (c2 ++ s2) hd1 hd2 hlen e2
        obtain ⟨hr, hs⟩ := decomposition_injective_aux r1 r2 c1 c2 s1 s2 hc1 hc2 hl hrest
        rw [hfg, hargs, hr]
        exact ⟨rfl, hs⟩
      | atom b =>
        simp only [Term.decomposition, Except.ok.injEq] at hb2
        subst hb2
        simp at e
      | integer b =>
        simp only [Term.decomposition, Except.ok.injEq] at hb2
        subst hb2
        simp at e
      | bignum b =>
        simp only [Term.decomposition, Except.ok.injEq] at hb2
        subst hb2
        simp at e
      | string b =>
        simp only [Term.decomposition, Except.ok.injEq] at hb2
        subst hb2
        simp at e
    | atom a =>
      simp only [Term.decomposition, Except.ok.injEq] at hb1
      subst hb1
      cases t2 with
      | var i => simp [Term.decomposition] at hb2
      | float i => simp [Term.decomposition] at hb2
      | compound g args2 =>
        obtain ⟨d2, hd2, rfl⟩ := decomposition_compound hb2
        simp at e
      | atom b =>
        simp only [Term.decomposition, Except.ok.injEq] at hb2
        subst hb2
        simp only [List.singleton_append, List.cons.injEq, EdgeToken.atom.injEq] at e
        obtain ⟨hr, hs⟩ := decomposition_injective_aux r1 r2 c1 c2 s1 s2 hc1 hc2 hl e.2
        rw [e.1, hr]
        exact ⟨rfl, hs⟩
      | integer b =>
        simp only [Term.decomposition, Except.ok.injEq] at hb2
        subst hb2
        simp at e
      | bignum b =>
        simp only [Term.decomposition, Except.ok.injEq] at hb2
        subst hb2
        simp at e
      | string b =>
        simp only [Term.decomposition, Except.ok.injEq] at hb2
        subst hb2
        simp at e
    | integer a =>
      simp only [Term.decomposition, Except.ok.injEq] at hb1
      subst hb1
      cases t2 with
      | var i => simp [Term.decomposition] at hb2
      | float i => simp [Term.decomposition] at hb2
      | compound g args2 =>
        obtain ⟨d2, hd2, rfl⟩ := decomposition_compound hb2
        simp at e
      | integer b =>
        simp only [Term.decomposition, Except.ok.injEq] at hb2
        subst hb2
        simp only [List.singleton_append, List.cons.injEq, EdgeToken.integer.injEq] at e
        obtain ⟨hr, hs⟩ := decomposition_injective_aux r1 r2 c1 c2 s1 s2 hc1 hc2 hl e.2
        rw [e.1, hr]
        exact ⟨rfl, hs⟩
      | atom b =>
        simp only [Term.decomposition, Except.ok.injEq] at hb2
        subst hb2
        simp at e
      | bignum b =>
        simp only [Term.decomposition, Except.ok.injEq] at hb2
        subst hb2
        simp at e
      | string b =>
        simp only [Term.decomposition, Except.ok.injEq] at hb2
        subst hb2
        simp at e
    | bignum a =>
      simp only [Term.decomposition, Except.ok.injEq] at hb1
      subst hb1
      cases t2 with
      | var i => simp [Term.decomposition] at hb2
      | float i => simp [Term.decomposition] at hb2
      | compound g args2 =>
        obtain ⟨d2, hd2, rfl⟩ := decomposition_compound hb2
        simp at e
      | bignum b =>
        simp only [Term.decomposition, Except.ok.injEq] at hb2
        subst hb2
        simp only [List.singleton_append, List.cons.injEq, EdgeToken.bignum.injEq] at e
        obtain ⟨hr, hs⟩ := decomposition_injective_aux r1 r2 c1 c2 s1 s2 hc1 hc2 hl e.2
        rw [e.1, hr]
        exact ⟨rfl, hs⟩
      | atom b =>
        simp only [Term.decomposition, Except.ok.injEq] at hb2
        subst hb2
        simp at e
      | integer b =>
        simp only [Term.decomposition, Except.ok.injEq] at hb2
        subst hb2
        simp at e
      | string b =>
        simp only [Term.decomposition, Except.ok.injEq] at hb2
        subst hb2
        simp at e
    | string a =>
      simp only [Term.decomposition, Except.ok.injEq] at hb1
      subst hb1
      cases t2 with
      | var i => simp [Term.decomposition] at hb2
      | float i => simp [Term.decomposition] at hb2
      | compound g args2 =>
        obtain ⟨d2, hd2, rfl⟩ := decomposition_compound hb2
        simp at e
      | string b =>
        simp only [Term.decomposition, Except.ok.injEq] at hb2
        subst hb2
        simp only [List.singleton_append, List.cons.injEq, EdgeToken.string.injEq] at e
        obtain ⟨hr, hs⟩ := decomposition_injective_aux r1 r2 c1 c2 s1 s2 hc1 hc2 hl e.2
        rw [e.1, hr]
        exact ⟨rfl, hs⟩
      | atom b =>
        simp only [Term.decomposition, Except.ok.injEq] at hb2
        subst hb2
        simp at e
      | integer b =>
        simp only [Term.decomposition, Except.ok.injEq] at hb2
        subst hb2
        simp at e
      | bignum b =>
        simp only [Term.decomposition, Except.ok.injEq] at hb2
        subst hb2
        simp at e

theorem decomposition_list_singleton {U : Term} {s : List EdgeToken}
    (e : U.decomposition = .ok s) : decomposition_list [U] = .ok s := by
  simp [decomposition_list, e]

theorem decomposition_prefix_eq (U1 U2 : Term) (s1 s2 rest : List EdgeToken)
    (e1 : U1.decomposition = .ok s1) (e2 : U2.decomposition = .ok s2)
    (e : s1 = s2 ++ rest) : U1 = U2 ∧ rest = [] := by
  have := decomposition_injective_aux [U1] [U2] s1 s2 [] rest
    (decomposition_list_singleton e1) (decomposition_list_singleton e2) rfl
    (by rw [List.append_nil]; exact e)
  exact ⟨by simpa using this.1, this.2.symm⟩

/-! ## The first key of a trie -/

theorem first_insert_state (fuel : Nat) (h0 : Heap) (t : trie) (T : Term) (V : word)
    (hw : h0.wf) (hroot : t.root = (new_trie_node h0).1) (hT : T.supported = true) :
    ∃ h1, trie_insert (fuel + 1) (new_trie_node h0).2 t T V = .ok TRUE h1 ∧
      Chain h1 t.root (T.preorder.filterMap Term.token) ∧
      (∀ j, j < (T.preorder.filterMap Term.token).length →
        (h1.node (t.root + j)).value = .zero) ∧
      Reachable t h1 [(T, V)] := by
  have hc0 : Chain (new_trie_node h0).2 t.root [] := chain_fresh hroot
  have hwH : (new_trie_node h0).2.wf := wf_new_trie_node hw
  have hrv : (new_trie_node h0).2.valid t.root := (fresh_root_null hroot).1
  obtain ⟨hm, hwk, hcm⟩ := chain_extend_walk fuel T.preorder (token_of_supported T hT) hc0
  simp only [List.length_nil, Nat.add_zero, List.nil_append] at hwk hcm
  obtain ⟨_, _, hx, _⟩ := insert_walk_ok hwH hrv hwk
  have hlen0 : (new_trie_node h0).2.nodes.length = t.root := by
    have := hc0.len
    simpa using this
  have hz : ∀ j, (hm.node (t.root + j)).value = .zero := by
    intro j
    cases j with
    | zero =>
      rw [Nat.add_zero, hx.value_old _ hrv, (fresh_root_null hroot).2]
      rfl
    | succ j => exact hx.value_fresh _ (by rw [hlen0]; omega)
  have hins : trie_insert (fuel + 1) (new_trie_node h0).2 t T V =
      .ok TRUE (hm.setValue (t.root + (T.preorder.filterMap Term.token).length) V) := by
    rw [trie_insert_eq, hwk]
    simp only []
    rw [if_neg (by rw [hz]; simp)]
  refine ⟨_, hins, chain_setValue hcm _ V, ?_, ?_⟩
  · intro j hj
    rw [node_setValue_ne _ _ _ _ (by omega)]
    exact hz j
  · have := Reachable.insert_ok _ _ [] (fuel + 1) T V TRUE (Reachable.fresh h0 hw hroot) hins
    simpa using this

theorem first_insert_others (fuel : Nat) (h0 : Heap) (t : trie) (T1 T2 : Term) (V : word)
    (hw : h0.wf) (hroot : t.root = (new_trie_node h0).1) (hT1 : T1.supported = true)
    (hT2 : T2.supported = true) (hne : T1 ≠ T2) :
    ∃ h1, trie_insert (fuel + 1) (new_trie_node h0).2 t T1 V = .ok TRUE h1 ∧
      trie_lookup_value h1 t T2 = .ok none h1 ∧
      (∀ ws rest, T1.spec_tokens = ws ++ rest → rest ≠ [] →
        h1.valid (reach h1 t.root ws) ∧ (h1.node (reach h1 t.root ws)).value = .zero) := by
  obtain ⟨h1, hins, hc1, hz, hr1⟩ := first_insert_state fuel h0 t T1 V hw hroot hT1
  refine ⟨h1, hins, ?_, ?_⟩
  · obtain ⟨r, hl⟩ := trie_lookup_value_ok_of_supported h1 t T2 hT2
    cases r with
    | none => exact hl
    | some w =>
      have hm := reachable_lookup_mem hr1 hl
      simp only [List.mem_singleton, Prod.mk.injEq] at hm
      exact absurd hm.1.symm hne
  · intro ws rest e hrest
    rw [spec_tokens_eq] at e
    have hreach : reach h1 t.root ws = t.root + ws.length := by
      have := chain_reach hc1 ws rest 0 (Nat.zero_le _) (by simpa using e)
      simpa using this
    have hlen : (T1.preorder.filterMap Term.token).length = ws.length + rest.length := by
      rw [e, List.length_append]
    have hpos : 0 < rest.length := List.length_pos.mpr hrest
    rw [hreach]
    exact ⟨chain_valid hc1 (by omega), hz _ (by omega)⟩

/-- C13 (prefix independence).  The tokens of one key are never the first tokens of another
key with some token left over: not with the decomposition of the specification, where
every atomic leaf has a token, and not with the tokens that the walks of the code take
from keys built only from atoms and compound terms.  For any two different such keys
`T1` and `T2` in a trie as `trie_create` leaves it: after `trie_insert` of `T1` alone,
which returns `TRUE`, `trie_lookup` of `T2` is NotFound, and every node that a sequence
of first tokens of `T1` leads to, short of all of them, exists and holds no value; and
the same with `T2` inserted and `T1` looked up. -/
theorem prefix_independence (fuel : Nat) (h0 : Heap) (t : trie) (T1 T2 : Term) (V : word)
    (hw : h0.wf) (hroot : t.root = (new_trie_node h0).1) (hT1 : T1.supported = true)
    (hT2 : T2.supported = true) (hne : T1 ≠ T2) :
    (∀ (U1 U2 : Term) (s1 s2 rest : List EdgeToken), U1.decomposition = .ok s1 →
      U2.decomposition = .ok s2 → s1 = s2 ++ rest → rest = []) ∧
    (∀ rest, T1.spec_tokens ≠ T2.spec_tokens ++ rest) ∧
    (∀ rest, T2.spec_tokens ≠ T1.spec_tokens ++ rest) ∧
    (∃ h1, trie_insert (fuel + 1) (new_trie_node h0).2 t T1 V = .ok TRUE h1 ∧
      trie_lookup_value h1 t T2 = .ok none h1 ∧
      (∀ ws rest, T1.spec_tokens = ws ++ rest → rest ≠ [] →
        h1.valid (reach h1 t.root ws) ∧ (h1.node (reach h1 t.root ws)).value = .zero)) ∧
    (∃ h2, trie_insert (fuel + 1) (new_trie_node h0).2 t T2 V = .ok TRUE h2 ∧
      trie_lookup_value h2 t T1 = .ok none h2 ∧
      (∀ ws rest, T2.spec_tokens = ws ++ rest → rest ≠ [] →
        h2.valid (reach h2 t.root ws) ∧ (h2.node (reach h2 t.root ws)).value = .zero)) := by
  refine ⟨?_, ?_, ?_, first_insert_others fuel h0 t T1 T2 V hw hroot hT1 hT2 hne,
    first_insert_others fuel h0 t T2 T1 V hw hroot hT2 hT1 (fun e => hne e.symm)⟩
  · intro U1 U2 s1 s2 rest e1 e2 e
    exact (decomposition_prefix_eq U1 U2 s1 s2 rest e1 e2 e).2
  · intro rest e
    rw [spec_tokens_eq, spec_tokens_eq] at e
    exact hne (tokens_prefix_eq T2 T1 hT2 hT1 rest e).1.symm
  · intro rest e
    rw [spec_tokens_eq, spec_tokens_eq] at e
    exact hne (tokens_prefix_eq T1 T2 hT1 hT2 rest e).1

/-- Witness of C13: the keys `f(a)` and `f(b)` in the first trie of an empty heap. -/
theorem prefix_independence_witness :
    (∀ (U1 U2 : Term) (s1 s2 rest : List EdgeToken), U1.decomposition = .ok s1 →
      U2.decomposition = .ok s2 → s1 = s2 ++ rest → rest = []) ∧
    (∀ rest, (Term.compound 7 [.atom 1]).spec_tokens ≠
      (Term.compound 7 [.atom 2]).spec_tokens ++ rest) ∧
    (∀ rest, (Term.compound 7 [.atom 2]).spec_tokens ≠
      (Term.compound 7 [.atom 1]).spec_tokens ++ rest) ∧
    (∃ h1, trie_insert (0 + 1) (new_trie_node ⟨[], []⟩).2 ⟨1, TRIE_MAGIC, 0⟩
        (.compound 7 [.atom 1]) (.atom 9) = .ok TRUE h1 ∧
      trie_lookup_value h1 ⟨1, TRIE_MAGIC, 0⟩ (.compound 7 [.atom 2]) = .ok none h1 ∧
      (∀ ws rest, (Term.compound 7 [.atom 1]).spec_tokens = ws ++ rest → rest ≠ [] →
        h1.valid (reach h1 (⟨1, TRIE_MAGIC, 0⟩ : trie).root ws) ∧
        (h1.node (reach h1 (⟨1, TRIE_MAGIC, 0⟩ : trie).root ws)).value = .zero)) ∧
    (∃ h2, trie_insert (0 + 1) (new_trie_node ⟨[], []⟩).2 ⟨1, TRIE_MAGIC, 0⟩
        (.compound 7 [.atom 2]) (.atom 9) = .ok TRUE h2 ∧
      trie_lookup_value h2 ⟨1, TRIE_MAGIC, 0⟩ (.compound 7 [.atom 1]) = .ok none h2 ∧
      (∀ ws rest, (Term.compound 7 [.atom 2]).spec_tokens = ws ++ rest → rest ≠ [] →
        h2.valid (reach h2 (⟨1, TRIE_MAGIC, 0⟩ : trie).root ws) ∧
        (h2.node (reach h2 (⟨1, TRIE_MAGIC, 0⟩ : trie).root ws)).value = .zero)) :=
  prefix_independence 0 ⟨[], []⟩ ⟨1, TRIE_MAGIC, 0⟩ (.compound 7 [.atom 1])
    (.compound 7 [.atom 2]) (.atom 9) (by decide) rfl (by decide) (by decide) (by simp)

/-! ## The predicate `trie_insert/3` behind its checks -/

theorem pl_trie_insert_of_get {s : PlState} {A1 : Term} {tp : Nat} (fuel : Nat) (K : Term)
    {V : word} (hg : get_trie s A1 = .ok tp) (hV : valid_value V = true) :
    pl_trie_insert fuel s A1 K V =
      match trie_insert fuel s.heap (s.trie_at tp) K V with
      | .ok rc h1 => .done (.ret rc) { s with heap := h1 }
      | .assert_failed h1 => .assert_failed { s with heap := h1 }
      | .timeout => .timeout := by
  have hc1 : (!isAtomic V || isFloat V) = false := by
    cases V <;> simp_all [valid_value, isAtomic, isFloat]
  have hc2 : isBignum V = false := by
    cases V <;> simp_all [valid_value, isBignum]
  unfold pl_trie_insert
  rw [hg]
  simp only [hc1, hc2, Bool.false_eq_true, if_false]

/-! ## The walk of `f(a, X)` in a fresh trie -/

theorem insert_walk_fax (fuel : Nat) :
    insert_walk (fuel + 1) ⟨[zero_node], []⟩ 1
        [.compound 7 [.atom 1, .var 0], .atom 1, .var 0]
      = .assert_failed ⟨[⟨.key (.functor 7 2) 2, .zero⟩, ⟨.key (.atom 1) 3, .zero⟩,
          zero_node], []⟩ := by
  have s1 : follow_node (fuel + 1) ⟨[zero_node], []⟩ 1 (.functor 7 2) =
      .ok 2 ⟨[⟨.key (.functor 7 2) 2, .zero⟩, zero_node], []⟩ := by
    unfold follow_node
    rw [if_neg (by decide), insert_child_null fuel _ _ _ (by decide)]
    rfl
  have s2 : follow_node (fuel + 1) ⟨[⟨.key (.functor 7 2) 2, .zero⟩, zero_node], []⟩ 2
      (.atom 1) =
      .ok 3 ⟨[⟨.key (.functor 7 2) 2, .zero⟩, ⟨.key (.atom 1) 3, .zero⟩, zero_node], []⟩ := by
    unfold follow_node
    rw [if_neg (by decide), insert_child_null fuel _ _ _ (by decide)]
    rfl
  rw [insert_walk_cons_ok (show (Term.compound 7 [.atom 1, .var 0]).token =
      some (.functor 7 2) from rfl) s1,
    insert_walk_cons_ok (show (Term.atom 1).token = some (.atom 1) from rfl) s2]
  rfl

/-- C1 (round trip), evaluated at the failing inputs.  On the trie that `trie_new` makes in
the empty state, with the valid value `v`: for the ground key `1` the predicate
`trie_insert` hands the key to the walk, which reaches `default: assert(0)`, whatever
the fuel; and after `trie_insert(a, v)` returned `TRUE`, `trie_insert` of the ground
key `b`, which is not stored, runs for ever.  Neither call returns, so no
`trie_lookup` of the key yields `v`. -/
theorem roundtrip_never_comes_back :
    pl_trie_new true ⟨⟨[], []⟩, [], [], [], 100⟩
      = .done (.unify (.atom 100))
          ⟨⟨[zero_node], []⟩, [⟨1, TRIE_MAGIC, 100⟩], [], [(100, 1)], 101⟩ ∧
    (Term.integer 1).ground = true ∧ (Term.atom 2).ground = true ∧
    valid_value (.atom 9) = true ∧
    (∀ fuel,
      pl_trie_insert fuel ⟨⟨[zero_node], []⟩, [⟨1, TRIE_MAGIC, 100⟩], [], [(100, 1)], 101⟩
        (.atom 100) (.integer 1) (.atom 9)
      = .assert_failed
          ⟨⟨[zero_node], []⟩, [⟨1, TRIE_MAGIC, 100⟩], [], [(100, 1)], 101⟩) ∧
    pl_trie_insert 1 ⟨⟨[zero_node], []⟩, [⟨1, TRIE_MAGIC, 100⟩], [], [(100, 1)], 101⟩
        (.atom 100) (.atom 1) (.atom 9)
      = .done (.ret TRUE)
          ⟨⟨[⟨.key (.atom 1) 2, .zero⟩, ⟨.null, .atom 9⟩], []⟩, [⟨1, TRIE_MAGIC, 100⟩], [],
            [(100, 1)], 101⟩ ∧
    pl_trie_lookup
        ⟨⟨[⟨.key (.atom 1) 2, .zero⟩, ⟨.null, .atom 9⟩], []⟩, [⟨1, TRIE_MAGIC, 100⟩], [],
          [(100, 1)], 101⟩ (.atom 100) (.atom 2)
      = .done (.ret FALSE)
          ⟨⟨[⟨.key (.atom 1) 2, .zero⟩, ⟨.null, .atom 9⟩], []⟩, [⟨1, TRIE_MAGIC, 100⟩], [],
            [(100, 1)], 101⟩ ∧
    (∀ fuel,
      pl_trie_insert fuel
        ⟨⟨[⟨.key (.atom 1) 2, .zero⟩, ⟨.null, .atom 9⟩], []⟩, [⟨1, TRIE_MAGIC, 100⟩], [],
          [(100, 1)], 101⟩ (.atom 100) (.atom 2) (.atom 9)
      = .timeout) := by
  refine ⟨by decide, by decide, by decide, by decide, fun fuel => ?_, by decide, by decide,
    fun fuel => ?_⟩
  · unfold pl_trie_insert
    simp only [trie_insert_eq]
    rfl
  · have hw : insert_walk fuel ⟨[⟨.key (.atom 1) 2, .zero⟩, ⟨.null, .atom 9⟩], []⟩ 1
        [.atom 2] = .timeout :=
      insert_walk_cons_timeout (show (Term.atom 2).token = some (.atom 2) from rfl)
        (follow_node_key (by decide) (show (Heap.node _ 1).children = .key (.atom 1) 2 from
          by decide))
    have hi : trie_insert fuel ⟨[⟨.key (.atom 1) 2, .zero⟩, ⟨.null, .atom 9⟩], []⟩
        ⟨1, TRIE_MAGIC, 100⟩ (.atom 2) (.atom 9) = .timeout := by
      rw [trie_insert_eq]
      have hw2 : insert_walk fuel ⟨[⟨.key (.atom 1) 2, .zero⟩, ⟨.null, .atom 9⟩], []⟩
          (⟨1, TRIE_MAGIC, 100⟩ : trie).root (Term.atom 2).preorder = .timeout := hw
      rw [hw2]
    rw [pl_trie_insert_of_get fuel (.atom 2)
      (show get_trie ⟨⟨[⟨.key (.atom 1) 2, .zero⟩, ⟨.null, .atom 9⟩], []⟩,
        [⟨1, TRIE_MAGIC, 100⟩], [], [(100, 1)], 101⟩ (.atom 100) = .ok 1 from rfl)
      (by decide)]
    have hi2 : trie_insert fuel
        (⟨⟨[⟨.key (.atom 1) 2, .zero⟩, ⟨.null, .atom 9⟩], []⟩, [⟨1, TRIE_MAGIC, 100⟩], [],
          [(100, 1)], 101⟩ : PlState).heap
        ((⟨⟨[⟨.key (.atom 1) 2, .zero⟩, ⟨.null, .atom 9⟩], []⟩, [⟨1, TRIE_MAGIC, 100⟩], [],
          [(100, 1)], 101⟩ : PlState).trie_at 1) (.atom 2) (.atom 9) = .timeout := hi
    rw [hi2]

/-- C5 (lookup soundness), evaluated at the failing input.  The trie that holds the key `a`
with the value `v` is reached from a fresh trie by one call of `trie_insert`, and the
ground key `1` was never inserted; `trie_lookup` of that key is not NotFound: the walk
reaches `default: assert(0)` at the first sub-term, in the function and in the
predicate. -/
theorem lookup_of_absent_key_asserts :
    Reachable ⟨1, TRIE_MAGIC, 100⟩ ⟨[⟨.key (.atom 1) 2, .zero⟩, ⟨.null, .atom 9⟩], []⟩
      [(Term.atom 1, word.atom 9)] ∧
    (Term.integer 1).ground = true ∧
    (∀ V, (Term.integer 1, V) ∉ [(Term.atom 1, word.atom 9)]) ∧
    trie_lookup_value ⟨[⟨.key (.atom 1) 2, .zero⟩, ⟨.null, .atom 9⟩], []⟩
        ⟨1, TRIE_MAGIC, 100⟩ (.integer 1)
      = .assert_failed ⟨[⟨.key (.atom 1) 2, .zero⟩, ⟨.null, .atom 9⟩], []⟩ ∧
    pl_trie_lookup
        ⟨⟨[⟨.key (.atom 1) 2, .zero⟩, ⟨.null, .atom 9⟩], []⟩, [⟨1, TRIE_MAGIC, 100⟩], [],
          [(100, 1)], 101⟩ (.atom 100) (.integer 1)
      = .assert_failed
          ⟨⟨[⟨.key (.atom 1) 2, .zero⟩, ⟨.null, .atom 9⟩], []⟩, [⟨1, TRIE_MAGIC, 100⟩], [],
            [(100, 1)], 101⟩ :=
  ⟨Reachable.insert_ok ⟨[zero_node], []⟩ _ [] 1 (.atom 1) (.atom 9) TRUE
      (Reachable.fresh ⟨[], []⟩ (by decide) rfl) (by decide),
    by decide, fun _ hm => by simp at hm, by decide, by decide⟩

/-- C7 (a new trie is empty and active), evaluated at the failing input.  In the state that
has no node, no trie and no atom, `trie_new` returns a handle that `get_trie` accepts,
for a trie whose root has no children and no value, and `trie_lookup` of the key `a` is
NotFound; `trie_lookup` of the key `1` is not: the walk reaches `default: assert(0)`. -/
theorem new_trie_lookup_asserts :
    pl_trie_new true ⟨⟨[], []⟩, [], [], [], 100⟩
      = .done (.unify (.atom 100))
          ⟨⟨[zero_node], []⟩, [⟨1, TRIE_MAGIC, 100⟩], [], [(100, 1)], 101⟩ ∧
    get_trie ⟨⟨[zero_node], []⟩, [⟨1, TRIE_MAGIC, 100⟩], [], [(100, 1)], 101⟩ (.atom 100)
      = .ok 1 ∧
    (⟨[zero_node], []⟩ : Heap).node (⟨1, TRIE_MAGIC, 100⟩ : trie).root = ⟨.null, .zero⟩ ∧
    pl_trie_lookup ⟨⟨[zero_node], []⟩, [⟨1, TRIE_MAGIC, 100⟩], [], [(100, 1)], 101⟩
        (.atom 100) (.atom 1)
      = .done (.ret FALSE)
          ⟨⟨[zero_node], []⟩, [⟨1, TRIE_MAGIC, 100⟩], [], [(100, 1)], 101⟩ ∧
    pl_trie_lookup ⟨⟨[zero_node], []⟩, [⟨1, TRIE_MAGIC, 100⟩], [], [(100, 1)], 101⟩
        (.atom 100) (.integer 1)
      = .assert_failed
          ⟨⟨[zero_node], []⟩, [⟨1, TRIE_MAGIC, 100⟩], [], [(100, 1)], 101⟩ :=
  ⟨by decide, rfl, by decide, by decide, by decide⟩

/-- C9 (errors of the key decomposition), evaluated at the failing inputs.  In a fresh trie,
with a valid value: the decomposition of the specification fails with an instantiation
error for the key that is an unbound variable and with a type error for the key that is
a float; `trie_insert`, whatever the fuel, and `trie_lookup` raise neither: for both keys
the walk reaches `default: assert(0)`. -/
theorem key_decomposition_asserts :
    (Term.var 0).decomposition = .error .instantiation_error ∧
    (Term.float 5).decomposition = .error .type_error ∧
    valid_value (.atom 9) = true ∧
    (∀ fuel,
      pl_trie_insert fuel ⟨⟨[zero_node], []⟩, [⟨1, TRIE_MAGIC, 100⟩], [], [(100, 1)], 101⟩
        (.atom 100) (.var 0) (.atom 9)
      = .assert_failed
          ⟨⟨[zero_node], []⟩, [⟨1, TRIE_MAGIC, 100⟩], [], [(100, 1)], 101⟩) ∧
    pl_trie_lookup ⟨⟨[zero_node], []⟩, [⟨1, TRIE_MAGIC, 100⟩], [], [(100, 1)], 101⟩
        (.atom 100) (.var 0)
      = .assert_failed
          ⟨⟨[zero_node], []⟩, [⟨1, TRIE_MAGIC, 100⟩], [], [(100, 1)], 101⟩ ∧
    (∀ fuel,
      pl_trie_insert fuel ⟨⟨[zero_node], []⟩, [⟨1, TRIE_MAGIC, 100⟩], [], [(100, 1)], 101⟩
        (.atom 100) (.float 5) (.atom 9)
      = .assert_failed
          ⟨⟨[zero_node], []⟩, [⟨1, TRIE_MAGIC, 100⟩], [], [(100, 1)], 101⟩) ∧
    pl_trie_lookup ⟨⟨[zero_node], []⟩, [⟨1, TRIE_MAGIC, 100⟩], [], [(100, 1)], 101⟩
        (.atom 100) (.float 5)
      = .assert_failed
          ⟨⟨[zero_node], []⟩, [⟨1, TRIE_MAGIC, 100⟩], [], [(100, 1)], 101⟩ := by
  refine ⟨rfl, rfl, by decide, fun fuel => ?_, by decide, fun fuel => ?_, by decide⟩
  · unfold pl_trie_insert
    simp only [trie_insert_eq]
    rfl
  · unfold pl_trie_insert
    simp only [trie_insert_eq]
    rfl

/-- C10 (error atomicity of insert), evaluated at the failing input.  In a fresh trie, with a
valid value, `trie_insert` of the key `f(a, X)` with the unbound variable `X` does not
end with an error: for every fuel that lets the walk allocate, it makes the nodes for
`f/2` and `a` and then reaches `default: assert(0)`, and for no fuel does the predicate
return, with an error or otherwise. -/
theorem trie_insert_asserts_after_allocating :
    (Term.compound 7 [.atom 1, .var 0]).decomposition = .error .instantiation_error ∧
    valid_value (.atom 9) = true ∧
    (∀ fuel,
      pl_trie_insert (fuel + 1)
        ⟨⟨[zero_node], []⟩, [⟨1, TRIE_MAGIC, 100⟩], [], [(100, 1)], 101⟩
        (.atom 100) (.compound 7 [.atom 1, .var 0]) (.atom 9)
      = .assert_failed
          ⟨⟨[⟨.key (.functor 7 2) 2, .zero⟩, ⟨.key (.atom 1) 3, .zero⟩, zero_node], []⟩,
            [⟨1, TRIE_MAGIC, 100⟩], [], [(100, 1)], 101⟩) ∧
    (∀ fuel a s1,
      pl_trie_insert fuel ⟨⟨[zero_node], []⟩, [⟨1, TRIE_MAGIC, 100⟩], [], [(100, 1)], 101⟩
        (.atom 100) (.compound 7 [.atom 1, .var 0]) (.atom 9) ≠ .done a s1) := by
  have hg : get_trie ⟨⟨[zero_node], []⟩, [⟨1, TRIE_MAGIC, 100⟩], [], [(100, 1)], 101⟩
      (.atom 100) = .ok 1 := rfl
  have hi : ∀ fuel, trie_insert (fuel + 1)
      (⟨⟨[zero_node], []⟩, [⟨1, TRIE_MAGIC, 100⟩], [], [(100, 1)], 101⟩ : PlState).heap
      ((⟨⟨[zero_node], []⟩, [⟨1, TRIE_MAGIC, 100⟩], [], [(100, 1)], 101⟩ : PlState).trie_at 1)
      (.compound 7 [.atom 1, .var 0]) (.atom 9) =
      .assert_failed ⟨[⟨.key (.functor 7 2) 2, .zero⟩, ⟨.key (.atom 1) 3, .zero⟩,
        zero_node], []⟩ := by
    intro fuel
    rw [trie_insert_eq]
    have hw : insert_walk (fuel + 1)
        (⟨⟨[zero_node], []⟩, [⟨1, TRIE_MAGIC, 100⟩], [], [(100, 1)], 101⟩ : PlState).heap
        ((⟨⟨[zero_node], []⟩, [⟨1, TRIE_MAGIC, 100⟩], [], [(100, 1)], 101⟩ :
          PlState).trie_at 1).root
        (Term.compound 7 [.atom 1, .var 0]).preorder =
        .assert_failed ⟨[⟨.key (.functor 7 2) 2, .zero⟩, ⟨.key (.atom 1) 3, .zero⟩,
          zero_node], []⟩ := insert_walk_fax fuel
    rw [hw]
  refine ⟨rfl, by decide, fun fuel => ?_, fun fuel a s1 => ?_⟩
  · rw [pl_trie_insert_of_get (fuel + 1) _ hg (by decide), hi fuel]
  · cases fuel with
    | zero =>
      have h0 : pl_trie_insert 0
          ⟨⟨[zero_node], []⟩, [⟨1, TRIE_MAGIC, 100⟩], [], [(100, 1)], 101⟩
          (.atom 100) (.compound 7 [.atom 1, .var 0]) (.atom 9) = .timeout := by decide
      rw [h0]
      simp
    | succ fuel =>
      rw [pl_trie_insert_of_get (fuel + 1) _ hg (by decide), hi fuel]
      simp

/-- C15 (contract of `insert_child`), evaluated at the failing inputs.  The node `1` is
`Single` with the token `f/1` and the child `2`.  The token `f/1` is present and
`get_child` yields its child, and the token `a` is absent; for either token
`insert_child` on the node never returns, whatever the fuel, and `follow_node`, which
hands the absent token on to `insert_child`, never returns for it.  On the node `2`,
which is `Empty`, `insert_child` installs and returns a new node. -/
theorem insert_child_breaks_contract_at_single :
    get_child ⟨[⟨.key (.functor 7 1) 2, .zero⟩, zero_node], []⟩ 1 (.functor 7 1) = 2 ∧
    (∀ fuel, insert_child fuel ⟨[⟨.key (.functor 7 1) 2, .zero⟩, zero_node], []⟩ 1
      (.functor 7 1) = .timeout) ∧
    get_child ⟨[⟨.key (.functor 7 1) 2, .zero⟩, zero_node], []⟩ 1 (.atom 3) = NULL ∧
    (∀ fuel, insert_child fuel ⟨[⟨.key (.functor 7 1) 2, .zero⟩, zero_node], []⟩ 1
      (.atom 3) = .timeout) ∧
    (∀ fuel, follow_node fuel ⟨[⟨.key (.functor 7 1) 2, .zero⟩, zero_node], []⟩ 1
      (.atom 3) = .timeout) ∧
    insert_child 1 ⟨[⟨.key (.functor 7 1) 2, .zero⟩, zero_node], []⟩ 2 (.atom 3)
      = .ok 3 ⟨[⟨.key (.functor 7 1) 2, .zero⟩, ⟨.key (.atom 3) 3, .zero⟩, zero_node], []⟩ ∧
    get_child ⟨[⟨.key (.functor 7 1) 2, .zero⟩, ⟨.key (.atom 3) 3, .zero⟩, zero_node], []⟩
      2 (.atom 3) = 3 :=
  ⟨by decide,
    fun fuel => insert_child_key fuel _ 1 (.functor 7 1) (.functor 7 1) 2 (by decide),
    by decide,
    fun fuel => insert_child_key fuel _ 1 (.atom 3) (.functor 7 1) 2 (by decide),
    fun fuel => follow_node_key (by decide) (show (Heap.node _ 1).children =
      .key (.functor 7 1) 2 from by decide),
    by decide, by decide⟩

end PlTrie

namespace PlArith

/-! ## Longs of width `w` -/

theorem two_pow_split (w : Nat) (hw : 0 < w) : (2 : Int) ^ w = 2 * 2 ^ (w - 1) := by
  obtain ⟨v, rfl⟩ : ∃ v, w = v + 1 := ⟨w - 1, by omega⟩
  simp [pow_succ]
  ring

theorem two_pow_pos (v : Nat) : (0 : Int) < 2 ^ v := by positivity

theorem to_long_id (w : Nat) (hw : 0 < w) (x : Int) (h : is_long w x) : to_long w x = x := by
  unfold to_long
  unfold is_long at h
  rw [two_pow_split w hw]
  have hM := two_pow_pos (w - 1)
  generalize (2 : Int) ^ (w - 1) = M at *
  rw [Int.emod_eq_of_lt (by omega) (by omega)]
  omega

theorem to_long_high (w : Nat) (hw : 0 < w) (x : Int) (h1 : 2 ^ (w - 1) ≤ x)
    (h2 : x < 3 * 2 ^ (w - 1)) : to_long w x = x - 2 * 2 ^ (w - 1) := by
  unfold to_long
  rw [two_pow_split w hw]
  have hM := two_pow_pos (w - 1)
  generalize (2 : Int) ^ (w - 1) = M at *
  have e : x + M = (x - M) + 1 * (2 * M) := by ring
  rw [e, Int.add_mul_emod_self, Int.emod_eq_of_lt (by omega) (by omega)]
  omega

theorem to_long_low (w : Nat) (hw : 0 < w) (x : Int) (h1 : -(3 * 2 ^ (w - 1)) ≤ x)
    (h2 : x < -2 ^ (w - 1)) : to_long w x = x + 2 * 2 ^ (w - 1) := by
  unfold to_long
  rw [two_pow_split w hw]
  have hM := two_pow_pos (w - 1)
  generalize (2 : Int) ^ (w - 1) = M at *
  have e : x + M = (x + 3 * M) + (-1) * (2 * M) := by ring
  rw [e, Int.add_mul_emod_self, Int.emod_eq_of_lt (by omega) (by omega)]
  omega

/-! ## `ar_add` and `ar_minus` on two longs -/

theorem ar_add_int (w : Nat) (a b : Int) (hw : 0 < w) (h : is_long w (a + b)) :
    ar_add w (.V_INTEGER a) (.V_INTEGER b) = .succeed (.V_INTEGER (a + b)) := by
  have hr := to_long_id w hw (a + b) h
  unfold is_long at h
  simp only [ar_add, intNumber, number.i, Bool.and_self, if_true, hr]
  rw [if_neg (by omega), if_neg (by omega)]

theorem ar_add_real (w : Nat) (a b : Int) (hw : 0 < w) (ha : is_long w a) (hb : is_long w b)
    (h : ¬ is_long w (a + b)) :
    ar_add w (.V_INTEGER a) (.V_INTEGER b) =
      .succeed (.V_REAL (Float.ofInt a + Float.ofInt b)) := by
  have hM := two_pow_pos (w - 1)
  have hhigh := to_long_high w hw (a + b)
  have hlow := to_long_low w hw (a + b)
  unfold is_long at ha hb h
  simp only [ar_add, intNumber, number.i, Bool.and_self, if_true]
  generalize to_long w (a + b) = r at *
  generalize (2 : Int) ^ (w - 1) = M at *
  by_cases hpos : M ≤ a + b
  · have := hhigh hpos (by omega)
    rw [if_pos (by omega)]
    rfl
  · have := hlow (by omega) (by omega)
    rw [if_neg (by omega), if_pos (by omega)]
    rfl

theorem ar_minus_int (w : Nat) (a b : Int) (hw : 0 < w) (h : is_long w (a - b)) :
    ar_minus w (.V_INTEGER a) (.V_INTEGER b) = .succeed (.V_INTEGER (a - b)) := by
  have hr := to_long_id w hw (a - b) h
  unfold is_long at h
  simp only [ar_minus, intNumber, number.i, Bool.and_self, if_true, hr]
  rw [if_neg (by omega), if_neg (by omega)]

theorem ar_minus_real (w : Nat) (a b : Int) (hw : 0 < w) (ha : is_long w a)
    (hb : is_long w b) (h : ¬ is_long w (a - b)) (h0 : a ≠ 0) :
    ar_minus w (.V_INTEGER a) (.V_INTEGER b) =
      .succeed (.V_REAL (Float.ofInt a - Float.ofInt b)) := by
  have hM := two_pow_pos (w - 1)
  have hhigh := to_long_high w hw (a - b)
  have hlow := to_long_low w hw (a - b)
  unfold is_long at ha hb h
  simp only [ar_minus, intNumber, number.i, Bool.and_self, if_true]
  generalize to_long w (a - b) = r at *
  generalize (2 : Int) ^ (w - 1) = M at *
  by_cases hpos : M ≤ a - b
  · have := hhigh hpos (by omega)
    rw [if_pos (by omega)]
    rfl
  · have := hlow (by omega) (by omega)
    rw [if_neg (by omega), if_pos (by omega)]
    rfl

theorem ar_minus_zero_min (w : Nat) (hw : 0 < w) :
    ar_minus w (.V_INTEGER 0) (.V_INTEGER (-2 ^ (w - 1))) =
      .succeed (.V_INTEGER (-2 ^ (w - 1))) := by
  have hM := two_pow_pos (w - 1)
  have hhigh := to_long_high w hw (0 - -2 ^ (w - 1)) (by omega) (by omega)
  simp only [ar_minus, intNumber, number.i, Bool.and_self, if_true, hhigh]
  rw [if_neg (by omega), if_neg (by omega)]
  congr 2
  omega

/-- C27 (`ar_add` is exact on integers).  For longs `a` and `b` of a width `w`, with the sum
stored in `r->value.i` taken modulo `2^w`: when the sum `a + b` is a long, `ar_add` gives
the integer `a + b`; when it is not, neither test lets the wrapped sum through and
`ar_add` gives the real `(real)a + (real)b`; so the result is an integer exactly when
the sum is a long. -/
theorem ar_add_exact (w : Nat) (a b : Int) (hw : 0 < w) (ha : is_long w a)
    (hb : is_long w b) :
    (is_long w (a + b) →
      ar_add w (.V_INTEGER a) (.V_INTEGER b) = .succeed (.V_INTEGER (a + b))) ∧
    (¬ is_long w (a + b) →
      ar_add w (.V_INTEGER a) (.V_INTEGER b) =
        .succeed (.V_REAL (Float.ofInt a + Float.ofInt b))) ∧
    ((∃ i, ar_add w (.V_INTEGER a) (.V_INTEGER b) = .succeed (.V_INTEGER i)) ↔
      is_long w (a + b)) := by
  refine ⟨ar_add_int w a b hw, ar_add_real w a b hw ha hb, ?_, fun h => ⟨_, ar_add_int w a b hw h⟩⟩
  rintro ⟨i, e⟩
  by_contra h
  rw [ar_add_real w a b hw ha hb h] at e
  injection e with e
  exact absurd e (by simp)

/-- Witness of C27: longs of 64 bits; `2^62 + 2^62` is no long, `5 + 7` is one. -/
theorem ar_add_exact_witness :
    (0 < 64 ∧ is_long 64 (2 ^ 62) ∧ ¬ is_long 64 (2 ^ 62 + 2 ^ 62)) ∧
    ((is_long 64 (2 ^ 62 + 2 ^ 62) →
      ar_add 64 (.V_INTEGER (2 ^ 62)) (.V_INTEGER (2 ^ 62)) =
        .succeed (.V_INTEGER (2 ^ 62 + 2 ^ 62))) ∧
    (¬ is_long 64 (2 ^ 62 + 2 ^ 62) →
      ar_add 64 (.V_INTEGER (2 ^ 62)) (.V_INTEGER (2 ^ 62)) =
        .succeed (.V_REAL (Float.ofInt (2 ^ 62) + Float.ofInt (2 ^ 62)))) ∧
    ((∃ i, ar_add 64 (.V_INTEGER (2 ^ 62)) (.V_INTEGER (2 ^ 62)) = .succeed (.V_INTEGER i)) ↔
      is_long 64 (2 ^ 62 + 2 ^ 62))) :=
  ⟨⟨by decide, by decide, by decide⟩,
    ar_add_exact 64 (2 ^ 62) (2 ^ 62) (by decide) (by decide) (by decide)⟩

/-- C28 (`ar_minus` on integers), with the failing input.  For longs `a` and `b` of a width
`w`, with the difference stored in `r->value.i` taken modulo `2^w`: `ar_minus` of `0` and
the most negative long gives that most negative long, an integer, though the difference
is no long: both tests ask for an operand `n1` that is not zero.  It is the one pair
that comes to a wrapped integer: when `a - b` is a long the result is the integer
`a - b`, and when it is not and `a` is not zero the result is the real
`(real)a - (real)b`. -/
theorem ar_minus_wraps_at_zero (w : Nat) (a b : Int) (hw : 0 < w) (ha : is_long w a)
    (hb : is_long w b) :
    (is_long w 0 ∧ is_long w (-2 ^ (w - 1)) ∧ ¬ is_long w (0 - -2 ^ (w - 1)) ∧
      ar_minus w (.V_INTEGER 0) (.V_INTEGER (-2 ^ (w - 1))) =
        .succeed (.V_INTEGER (-2 ^ (w - 1)))) ∧
    (is_long w (a - b) →
      ar_minus w (.V_INTEGER a) (.V_INTEGER b) = .succeed (.V_INTEGER (a - b))) ∧
    (¬ is_long w (a - b) → a ≠ 0 →
      ar_minus w (.V_INTEGER a) (.V_INTEGER b) =
        .succeed (.V_REAL (Float.ofInt a - Float.ofInt b))) ∧
    (¬ is_long w (a - b) → a = 0 → b = -2 ^ (w - 1)) := by
  have hM := two_pow_pos (w - 1)
  refine ⟨⟨?_, ?_, ?_, ar_minus_zero_min w hw⟩, ar_minus_int w a b hw,
    ar_minus_real w a b hw ha hb, ?_⟩
  · unfold is_long; omega
  · unfold is_long; omega
  · unfold is_long; omega
  · intro h h0
    unfold is_long at h ha hb
    omega

/-- The theorem `ar_minus_wraps_at_zero` at longs of 64 bits, with `0` and `-2^63`. -/
theorem ar_minus_wraps_at_zero_witness :
    (is_long 64 0 ∧ is_long 64 (-2 ^ (64 - 1)) ∧ ¬ is_long 64 (0 - -2 ^ (64 - 1)) ∧
      ar_minus 64 (.V_INTEGER 0) (.V_INTEGER (-2 ^ (64 - 1))) =
        .succeed (.V_INTEGER (-2 ^ (64 - 1)))) ∧
    (is_long 64 (0 - -2 ^ 63) →
      ar_minus 64 (.V_INTEGER 0) (.V_INTEGER (-2 ^ 63)) =
        .succeed (.V_INTEGER (0 - -2 ^ 63))) ∧
    (¬ is_long 64 (0 - -2 ^ 63) → (0 : Int) ≠ 0 →
      ar_minus 64 (.V_INTEGER 0) (.V_INTEGER (-2 ^ 63)) =
        .succeed (.V_REAL (Float.ofInt 0 - Float.ofInt (-2 ^ 63)))) ∧
    (¬ is_long 64 (0 - -2 ^ 63) → (0 : Int) = 0 → (-2 ^ 63 : Int) = -2 ^ (64 - 1)) :=
  ar_minus_wraps_at_zero 64 0 (-2 ^ 63) (by decide) (by decide) (by decide)

/-- C29 (integer division by zero), with the failing input.  For integer operands whose
second operand is `0`, `ar_div` and `ar_divide` return the error `ERR_DIV_BY_ZERO`
before any machine operation, and `ar_mod`, whose body comes from
`BINAIRY_INT_FUNCTION` and has no such test, evaluates `n1 % 0`, which C leaves
undefined, and returns no error.  With a second operand that is not zero `ar_div` gives
the quotient truncated towards zero, but for the most negative long divided by `-1`,
where the machine operation is undefined as well. -/
theorem ar_mod_divides_by_zero (w : Nat) (a b : Int) :
    ar_div w (.V_INTEGER a) (.V_INTEGER 0) = .error (.ERR_DIV_BY_ZERO "//") ∧
    ar_divide w (.V_INTEGER a) (.V_INTEGER 0) = .error (.ERR_DIV_BY_ZERO "/") ∧
    long_mod w a 0 = none ∧
    ar_mod w (.V_INTEGER a) (.V_INTEGER 0) = .undefined ∧
    (b ≠ 0 → ¬ (a = -2 ^ (w - 1) ∧ b = -1) →
      ar_div w (.V_INTEGER a) (.V_INTEGER b) = .succeed (.V_INTEGER (Int.tdiv a b))) ∧
    ar_div w (.V_INTEGER (-2 ^ (w - 1))) (.V_INTEGER (-1)) = .undefined := by
  refine ⟨?_, ?_, ?_, ?_, ?_, ?_⟩
  · simp [ar_div, toIntegerNumber, floatNumber, number.i]
  · simp [ar_divide, intNumber, number.i]
  · simp [long_mod]
  · simp [ar_mod, BINAIRY_INT_FUNCTION, toIntegerNumber, floatNumber, number.i, long_mod]
  · intro hb hm
    simp only [ar_div, toIntegerNumber, floatNumber, number.i, Bool.false_eq_true, if_false,
      if_neg hb, long_div]
    rw [if_neg (by
      intro hc
      rcases hc with hc | hc
      · exact hb hc
      · exact hm hc)]
  · simp [ar_div, toIntegerNumber, floatNumber, number.i, long_div]

end PlArith
